import Mathlib

/-!
# BesselFilterLP5Order: a fifth-order digital Bessel lowpass filter

Shallow embedding of `BesselFilterLP5Order.h` / `BesselFilterLP5Order.cpp`.

The program is embedded twice.

* Over an arbitrary field `K` (namespace `Bessel`): every `float` operation is the exact
  field operation.  This embedding carries the statements that move data, that say which
  members a function writes, or that repeat the expression the code evaluates; they do not
  depend on how an operation rounds.  Every definition is computable at `K = ℚ`.
* In IEEE 754 arithmetic (namespace `Bessel.Binary32`): a `float` is a binary32 datum, a
  `double` a binary64 datum, every operation rounds to nearest with ties to even, overflows
  to an infinity and propagates NaN, and the usual arithmetic conversions of C++ decide which
  operations are carried out in `double` (`pow`, the products with `M_PI`, the quotients
  `a_cont[i] / pow(...)`).  This embedding carries the statements about computed values.

A C++ constructor that does not write a member leaves the bytes of the object's storage in
place, so the constructors take the prior contents of the storage as an argument.
-/

namespace Bessel

/-- Modelled from the spec: the constant π of `math.h` (macro `M_PI`), which the
repository uses but does not declare; the value is the decimal literal of the
C library header. -/
def M_PI {K : Type} [Field K] : K := 3.14159265358979323846

/-- The header constant `b_0_cont`. -/
def b_0_cont {K : Type} [Field K] : K := 1.0

/-- The header table `a_cont[]` (five entries). -/
def a_cont {K : Type} [Field K] : Fin 5 → K :=
  ![1.0, 3.810701205349278, 6.776673715676871, 6.886367652423632, 3.936283427035352]

/-- The data members of `class BesselFilterLP5Order`. -/
@[ext]
structure BesselFilterLP5Order (K : Type) where
  f_s : K
  cutoff_freq : K
  a : Fin 6 → K
  b : Fin 6 → K
  y_prev : Fin 5 → K
  x_prev : Fin 5 → K

/-- The delay loop of `step`:
`for (i = 4; i > 0; i--) { x_prev[i] = x_prev[i-1]; y_prev[i] = y_prev[i-1]; }`,
entered with loop variable `i`. -/
def delay_loop {K : Type} : (i : Nat) → i < 5 → (Fin 5 → K) × (Fin 5 → K) →
    (Fin 5 → K) × (Fin 5 → K)
  | 0, _, xy => xy
  | i + 1, h, xy =>
    let x := Function.update xy.1 ⟨i + 1, h⟩ (xy.1 ⟨i, by omega⟩)
    let y := Function.update xy.2 ⟨i + 1, h⟩ (xy.2 ⟨i, by omega⟩)
    delay_loop i (by omega) (x, y)

/-- `BesselFilterLP5Order::step`: the returned value and the object afterwards. -/
def step {K : Type} [Field K] (S : BesselFilterLP5Order K) (new_val : K) :
    K × BesselFilterLP5Order K :=
  let y := new_val * S.b 0 + S.x_prev 0 * S.b 1 + S.x_prev 1 * S.b 2 +
            S.x_prev 2 * S.b 3 + S.x_prev 3 * S.b 4 + S.x_prev 4 * S.b 5 -
            S.y_prev 0 * S.a 1 - S.y_prev 1 * S.a 2 - S.y_prev 2 * S.a 3 -
            S.y_prev 3 * S.a 4 - S.y_prev 4 * S.a 5
  let y := y / S.a 0
  let xy := delay_loop 4 (by decide) (S.x_prev, S.y_prev)
  let x_prev := Function.update xy.1 0 new_val
  let y_prev := Function.update xy.2 0 y
  (y, { S with x_prev := x_prev, y_prev := y_prev })

/-- The local array `tmp_a` of `coefficients_calculating`:
`tmp_a[i] = a_cont[i] / pow(cutoff_freq, 5 - i)` for `i = 0..4`. -/
def tmp_a {K : Type} [Field K] (cutoff_freq : K) : Fin 5 → K :=
  fun i => a_cont i / cutoff_freq ^ (5 - i.val)

/-- The local `a_0` of `coefficients_calculating` (the normalisation term). -/
def a_0 {K : Type} [Field K] (f_s cutoff_freq : K) : K :=
  let tmp_a := tmp_a cutoff_freq
  let f_2 := f_s ^ 2
  let f_3 := f_s ^ 3
  let f_4 := f_s ^ 4
  let f_5 := f_s ^ 5
  1 + tmp_a 4 * 2 * f_s + tmp_a 3 * 4 * f_2 + tmp_a 2 * 8 * f_3 + tmp_a 1 * 16 * f_4 +
    tmp_a 0 * 32 * f_5

/-- `BesselFilterLP5Order::coefficients_calculating`. -/
def coefficients_calculating {K : Type} [Field K] (S : BesselFilterLP5Order K) :
    BesselFilterLP5Order K :=
  let f_s := S.f_s
  let tmp_a := tmp_a S.cutoff_freq
  let f_2 := f_s ^ 2
  let f_3 := f_s ^ 3
  let f_4 := f_s ^ 4
  let f_5 := f_s ^ 5
  let a_0 := a_0 S.f_s S.cutoff_freq
  let a := Function.update S.a 0 1.0
  let a := Function.update a 1
    ((5 + 6 * tmp_a 4 * f_s + 4 * tmp_a 3 * f_2 - tmp_a 2 * 8 * f_3 - 48 * tmp_a 1 * f_4
      - 160 * tmp_a 0 * f_5) / a_0)
  let a := Function.update a 2
    ((10 + 4 * tmp_a 4 * f_s - 8 * tmp_a 3 * f_2 - 16 * tmp_a 2 * f_3 + 32 * tmp_a 1 * f_4
      + 320 * tmp_a 0 * f_5) / a_0)
  let a := Function.update a 3
    ((10 - 4 * tmp_a 4 * f_s - 8 * tmp_a 3 * f_2 + 16 * tmp_a 2 * f_3 + 32 * tmp_a 1 * f_4
      - 320 * tmp_a 0 * f_5) / a_0)
  let a := Function.update a 4
    ((5 - 6 * tmp_a 4 * f_s + 4 * tmp_a 3 * f_2 + 8 * tmp_a 2 * f_3 - 48 * tmp_a 1 * f_4
      + 160 * tmp_a 0 * f_5) / a_0)
  let a := Function.update a 5
    ((1 - 2 * tmp_a 4 * f_s + 4 * tmp_a 3 * f_2 - 8 * tmp_a 2 * f_3 + 16 * tmp_a 1 * f_4
      - 32 * tmp_a 0 * f_5) / a_0)
  let b := Function.update S.b 0 (b_0_cont / a_0)
  let b := Function.update b 1 ((b_0_cont * 5) / a_0)
  let b := Function.update b 2 ((b_0_cont * 10) / a_0)
  let b := Function.update b 3 (b 2)
  let b := Function.update b 4 (b 1)
  let b := Function.update b 5 (b 0)
  { S with a := a, b := b }

/-- `BesselFilterLP5Order::set_cuttoff_frequency`. -/
def set_cuttoff_frequency {K : Type} [Field K] (S : BesselFilterLP5Order K) (new_cutoff : K) :
    BesselFilterLP5Order K :=
  coefficients_calculating { S with cutoff_freq := new_cutoff * 2 * M_PI }

/-- `BesselFilterLP5Order::get_cuttoff_frequency`. -/
def get_cuttoff_frequency {K : Type} (S : BesselFilterLP5Order K) : K := S.cutoff_freq

/-- `BesselFilterLP5Order::set_sample_frequency`. -/
def set_sample_frequency {K : Type} [Field K] (S : BesselFilterLP5Order K) (new_f_s : K) :
    BesselFilterLP5Order K :=
  coefficients_calculating { S with f_s := new_f_s }

/-- `BesselFilterLP5Order::get_sample_frequency`. -/
def get_sample_frequency {K : Type} (S : BesselFilterLP5Order K) : K := S.f_s

/-- The default constructor `BesselFilterLP5Order()`: its member initialiser list
writes `f_s` and `cutoff_freq`, its body is empty; `mem` is what the storage of the
object held before. -/
def construct_default {K : Type} [Field K] (mem : BesselFilterLP5Order K) :
    BesselFilterLP5Order K :=
  { mem with f_s := 1.0, cutoff_freq := 2 * M_PI }

/-- The constructor `BesselFilterLP5Order(float freq_sample, float cut_f)`: writes `f_s`,
then calls `set_cuttoff_frequency(cut_f)`; `mem` is what the storage of the object
held before. -/
def construct {K : Type} [Field K] (mem : BesselFilterLP5Order K) (freq_sample cut_f : K) :
    BesselFilterLP5Order K :=
  set_cuttoff_frequency { mem with f_s := freq_sample } cut_f

/-- A call of one of the three public mutating member functions. -/
inductive Call (K : Type) where
  | step (new_val : K)
  | set_cuttoff_frequency (new_cutoff : K)
  | set_sample_frequency (new_f_s : K)

/-- The object after one call (the value returned by `step` is dropped). -/
def Call.apply {K : Type} [Field K] (S : BesselFilterLP5Order K) : Call K → BesselFilterLP5Order K
  | Call.step v => (Bessel.step S v).2
  | Call.set_cuttoff_frequency f => Bessel.set_cuttoff_frequency S f
  | Call.set_sample_frequency g => Bessel.set_sample_frequency S g

/-- The object after a sequence of calls, first call first. -/
def run {K : Type} [Field K] (S : BesselFilterLP5Order K) (calls : List (Call K)) :
    BesselFilterLP5Order K :=
  calls.foldl Call.apply S

/-- The denominator polynomial of the analog prototype as the specification writes it:
`P(u) = u^5 + 3.810701205349278 u^4 + 6.776673715676871 u^3 + 6.886367652423632 u^2 +
3.936283427035352 u + 1`. -/
def prototype_P {K : Type} [Field K] (u : K) : K :=
  u ^ 5 + 3.810701205349278 * u ^ 4 + 6.776673715676871 * u ^ 3 + 6.886367652423632 * u ^ 2 +
    3.936283427035352 * u + 1

/-- The object with both histories overwritten by the constant `v`. -/
def with_histories {K : Type} (S : BesselFilterLP5Order K) (v : K) : BesselFilterLP5Order K :=
  { S with x_prev := fun _ => v, y_prev := fun _ => v }

/-- Rational storage in which every member is zero (for instance the zero-initialised
storage of an object of static storage duration). -/
def zero_storage : BesselFilterLP5Order ℚ :=
  { f_s := 0, cutoff_freq := 0, a := fun _ => 0, b := fun _ => 0,
    y_prev := fun _ => 0, x_prev := fun _ => 0 }

/-- Rational storage whose `x_prev` bytes hold `1` in every slot, every other member zero. -/
def stale_storage : BesselFilterLP5Order ℚ :=
  { f_s := 0, cutoff_freq := 0, a := fun _ => 0, b := fun _ => 0,
    y_prev := fun _ => 0, x_prev := fun _ => 1 }

/-! ### The program in IEEE 754 arithmetic -/

/-- An IEEE 754 binary floating-point datum: a NaN, a signed infinity, a signed zero or a
non-zero finite value (held as the rational number it denotes). -/
inductive FloatVal where
  | nan
  | inf (neg : Bool)
  | zero (neg : Bool)
  | fin (q : ℚ)
  deriving DecidableEq

/-- A binary interchange format: precision in bits and the exponent range of the normal
numbers. -/
structure Format where
  prec : Nat
  emin : Int
  emax : Int

/-- The format of C++ `float` (IEEE 754 binary32). -/
def binary32 : Format := { prec := 24, emin := -126, emax := 127 }

/-- The format of C++ `double` (IEEE 754 binary64). -/
def binary64 : Format := { prec := 53, emin := -1022, emax := 1023 }

/-- The rational `2 ^ e`. -/
def pow2 (e : ℤ) : ℚ := if 0 ≤ e then ((2 ^ e.toNat : ℕ) : ℚ) else 1 / ((2 ^ (-e).toNat : ℕ) : ℚ)

/-- Whether `2 ^ e ≤ n / d`, for naturals `n` and `d > 0`. -/
def pow2Le (e : ℤ) (n d : ℕ) : Bool :=
  if 0 ≤ e then decide (d * 2 ^ e.toNat ≤ n) else decide (d ≤ n * 2 ^ (-e).toNat)

/-- Bisection for the binary exponent of `n / d`: keeps `2 ^ lo ≤ n / d < 2 ^ hi` when it
holds at the start. -/
def ilog2Aux (n d : ℕ) : Nat → ℤ → ℤ → ℤ
  | 0, lo, _ => lo
  | fuel + 1, lo, hi =>
    if pow2Le ((lo + hi) / 2) n d then ilog2Aux n d fuel ((lo + hi) / 2) hi
    else ilog2Aux n d fuel lo ((lo + hi) / 2)

/-- The exponent `e` with `2 ^ e ≤ n / d < 2 ^ (e + 1)`, for a magnitude `n / d > 0`,
searched in a window that contains the exponent range of the format on both sides (a
magnitude beyond the window is far in the overflow or underflow range, where the window's
end serves). -/
def ilog2 (F : Format) (n d : ℕ) : ℤ :=
  ilog2Aux n d 13 (-(2 * (F.emax + 1))) (2 * (F.emax + 1))

/-- The nearest integer to `N / D`, ties to the even one, for naturals `N` and `D > 0`. -/
def roundNat (N D : ℕ) : ℕ :=
  if D < 2 * (N % D) ∨ (2 * (N % D) = D ∧ (N / D) % 2 = 1) then N / D + 1 else N / D

/-- The multiple of the quantum `2 ^ g` nearest to `n / d`, counted in quanta. -/
def quanta (g : ℤ) (n d : ℕ) : ℕ :=
  if 0 ≤ g then roundNat n (d * 2 ^ g.toNat) else roundNat (n * 2 ^ (-g).toNat) d

/-- The quantum exponent of the format at the magnitude `n / d`: the exponent of the last
place of a normal number, held at the subnormal quantum below `2 ^ emin`. -/
def quantum (F : Format) (n d : ℕ) : ℤ :=
  max (ilog2 F n d) F.emin - ((F.prec : ℤ) - 1)

/-- The rational `z / d`, built in lowest terms. -/
def mkQ (z : ℤ) (d : ℕ) : ℚ :=
  if h : d ≠ 0 ∧ z.natAbs.Coprime d then { num := z, den := d, den_nz := h.1, reduced := h.2 }
  else (z : ℚ) / (d : ℚ)

/-- Evaluate a natural number before it is used. -/
def forceNat {α : Type} (n : ℕ) (k : ℕ → α) : α :=
  match n with
  | 0 => k 0
  | m + 1 => k (m + 1)

/-- The rational `(-1) ^ neg * c * 2 ^ g`, built in lowest terms. -/
def scaled (neg : Bool) (c : ℕ) (g : ℤ) : ℚ :=
  if 0 ≤ g then
    forceNat (c * 2 ^ g.toNat) fun a => mkQ (if neg then -(a : ℤ) else (a : ℤ)) 1
  else
    forceNat (c / Nat.gcd c (2 ^ (-g).toNat)) fun a =>
      forceNat (2 ^ (-g).toNat / Nat.gcd c (2 ^ (-g).toNat)) fun b =>
        mkQ (if neg then -(a : ℤ) else (a : ℤ)) b

/-- Round the non-zero rational `(-1) ^ neg * n / d` to the format, to nearest with ties to
even, given the count `c` of quanta `2 ^ g` of the rounded magnitude. -/
def roundParts (F : Format) (neg : Bool) (c : ℕ) (g : ℤ) : FloatVal :=
  if pow2Le (F.emax + 1 - g) c 1 then FloatVal.inf neg
  else if c = 0 then FloatVal.zero neg
  else FloatVal.fin (scaled neg c g)

/-- Round a rational to the format, to nearest with ties to even: overflow gives an
infinity, underflow a signed zero. -/
def roundTo (F : Format) (q : ℚ) : FloatVal :=
  forceNat q.num.natAbs fun n =>
    forceNat q.den fun d =>
      if n = 0 then FloatVal.zero false
      else roundParts F (decide (q.num < 0)) (quanta (quantum F n d) n d) (quantum F n d)

/-- The sign bit of a datum (`false` for a NaN). -/
def FloatVal.sign : FloatVal → Bool
  | FloatVal.nan => false
  | FloatVal.inf s => s
  | FloatVal.zero s => s
  | FloatVal.fin q => decide (q < 0)

/-- IEEE 754 negation. -/
def FloatVal.neg : FloatVal → FloatVal
  | FloatVal.nan => FloatVal.nan
  | FloatVal.inf s => FloatVal.inf (!s)
  | FloatVal.zero s => FloatVal.zero (!s)
  | FloatVal.fin q => FloatVal.fin (-q)

/-- IEEE 754 addition in the format `F`. -/
def FloatVal.add (F : Format) : FloatVal → FloatVal → FloatVal
  | FloatVal.nan, _ => FloatVal.nan
  | _, FloatVal.nan => FloatVal.nan
  | FloatVal.inf s, FloatVal.inf t => if s = t then FloatVal.inf s else FloatVal.nan
  | FloatVal.inf s, _ => FloatVal.inf s
  | _, FloatVal.inf t => FloatVal.inf t
  | FloatVal.zero s, FloatVal.zero t => FloatVal.zero (s && t)
  | FloatVal.zero _, FloatVal.fin q => roundTo F q
  | FloatVal.fin p, FloatVal.zero _ => roundTo F p
  | FloatVal.fin p, FloatVal.fin q => roundTo F (p + q)

/-- IEEE 754 subtraction in the format `F`. -/
def FloatVal.sub (F : Format) (x y : FloatVal) : FloatVal := FloatVal.add F x y.neg

/-- IEEE 754 multiplication in the format `F`. -/
def FloatVal.mul (F : Format) : FloatVal → FloatVal → FloatVal
  | FloatVal.nan, _ => FloatVal.nan
  | _, FloatVal.nan => FloatVal.nan
  | FloatVal.inf _, FloatVal.zero _ => FloatVal.nan
  | FloatVal.zero _, FloatVal.inf _ => FloatVal.nan
  | FloatVal.inf s, y => FloatVal.inf (xor s y.sign)
  | x, FloatVal.inf t => FloatVal.inf (xor x.sign t)
  | FloatVal.zero s, y => FloatVal.zero (xor s y.sign)
  | x, FloatVal.zero t => FloatVal.zero (xor x.sign t)
  | FloatVal.fin p, FloatVal.fin q =>
    if p * q = 0 then FloatVal.zero (xor (decide (p < 0)) (decide (q < 0)))
    else roundTo F (p * q)

/-- IEEE 754 division in the format `F`. -/
def FloatVal.div (F : Format) : FloatVal → FloatVal → FloatVal
  | FloatVal.nan, _ => FloatVal.nan
  | _, FloatVal.nan => FloatVal.nan
  | FloatVal.inf _, FloatVal.inf _ => FloatVal.nan
  | FloatVal.zero _, FloatVal.zero _ => FloatVal.nan
  | FloatVal.inf s, y => FloatVal.inf (xor s y.sign)
  | x, FloatVal.inf t => FloatVal.zero (xor x.sign t)
  | FloatVal.zero s, y => FloatVal.zero (xor s y.sign)
  | x, FloatVal.zero t => FloatVal.inf (xor x.sign t)
  | FloatVal.fin p, FloatVal.fin q =>
    if q = 0 then FloatVal.nan else roundTo F (p / q)

/-- Conversion of a datum to the format `F` (exact when it is representable there). -/
def FloatVal.convert (F : Format) : FloatVal → FloatVal
  | FloatVal.fin q => roundTo F q
  | x => x

/-- A C++ `float`. -/
structure F32 where
  val : FloatVal
  deriving DecidableEq

/-- A C++ `double`. -/
structure F64 where
  val : FloatVal
  deriving DecidableEq

instance : Add F32 := ⟨fun x y => ⟨FloatVal.add binary32 x.val y.val⟩⟩

instance : Sub F32 := ⟨fun x y => ⟨FloatVal.sub binary32 x.val y.val⟩⟩

instance : Mul F32 := ⟨fun x y => ⟨FloatVal.mul binary32 x.val y.val⟩⟩

instance : Div F32 := ⟨fun x y => ⟨FloatVal.div binary32 x.val y.val⟩⟩

instance : Mul F64 := ⟨fun x y => ⟨FloatVal.mul binary64 x.val y.val⟩⟩

instance : Div F64 := ⟨fun x y => ⟨FloatVal.div binary64 x.val y.val⟩⟩

/-- An integer constant converted to `float`. -/
instance (n : Nat) : OfNat F32 n := ⟨⟨roundTo binary32 n⟩⟩

/-- An integer constant converted to `double`. -/
instance (n : Nat) : OfNat F64 n := ⟨⟨roundTo binary64 n⟩⟩

/-- A decimal floating literal of type `double`. -/
instance : OfScientific F64 :=
  ⟨fun m s e => ⟨roundTo binary64 (OfScientific.ofScientific m s e : ℚ)⟩⟩

/-- The implicit conversion `float → double` (exact). -/
def F32.toDouble (x : F32) : F64 := ⟨FloatVal.convert binary64 x.val⟩

/-- The conversion `double → float` of an initialisation or assignment. -/
def F64.toFloat (x : F64) : F32 := ⟨FloatVal.convert binary32 x.val⟩

/-- Modelled from the spec: the power function `pow` of `math.h`, which the repository calls
but does not define, for a `double` base and the positive integer exponents the program
uses; the value is the correctly rounded power. -/
def pow (x : F64) (n : Nat) : F64 :=
  if n = 0 then 1
  else
    match x.val with
    | FloatVal.nan => ⟨FloatVal.nan⟩
    | FloatVal.inf s => ⟨FloatVal.inf (s && decide (n % 2 = 1))⟩
    | FloatVal.zero s => ⟨FloatVal.zero (s && decide (n % 2 = 1))⟩
    | FloatVal.fin q => ⟨roundTo binary64 (q ^ n)⟩

namespace Binary32

/-- Modelled from the spec: the macro `M_PI` of `math.h`, a `double` literal. -/
def M_PI : F64 := 3.14159265358979323846

/-- The header constant `b_0_cont` (`constexpr float`, initialised from a `double` literal). -/
def b_0_cont : F32 := F64.toFloat 1.0

/-- The header table `a_cont[]` (`constexpr float`, initialised from `double` literals). -/
def a_cont : Fin 5 → F32 :=
  ![F64.toFloat 1.0, F64.toFloat 3.810701205349278, F64.toFloat 6.776673715676871,
    F64.toFloat 6.886367652423632, F64.toFloat 3.936283427035352]

/-- `BesselFilterLP5Order::step` in `float` arithmetic. -/
def step (S : BesselFilterLP5Order F32) (new_val : F32) : F32 × BesselFilterLP5Order F32 :=
  let y := new_val * S.b 0 + S.x_prev 0 * S.b 1 + S.x_prev 1 * S.b 2 +
            S.x_prev 2 * S.b 3 + S.x_prev 3 * S.b 4 + S.x_prev 4 * S.b 5 -
            S.y_prev 0 * S.a 1 - S.y_prev 1 * S.a 2 - S.y_prev 2 * S.a 3 -
            S.y_prev 3 * S.a 4 - S.y_prev 4 * S.a 5
  let y := y / S.a 0
  let xy := delay_loop 4 (by decide) (S.x_prev, S.y_prev)
  let x_prev := Function.update xy.1 0 new_val
  let y_prev := Function.update xy.2 0 y
  (y, { S with x_prev := x_prev, y_prev := y_prev })

/-- The local array `tmp_a` of `coefficients_calculating`: the quotient
`a_cont[i] / pow(cutoff_freq, 5 - i)` is a `double`, stored to a `float`. -/
def tmp_a (cutoff_freq : F32) : Fin 5 → F32 :=
  fun i => F64.toFloat ((a_cont i).toDouble / pow cutoff_freq.toDouble (5 - i.val))

/-- The local `a_0` of `coefficients_calculating`, in `float` arithmetic. -/
def a_0 (f_s cutoff_freq : F32) : F32 :=
  let tmp_a := tmp_a cutoff_freq
  let f_2 := F64.toFloat (pow f_s.toDouble 2)
  let f_3 := F64.toFloat (pow f_s.toDouble 3)
  let f_4 := F64.toFloat (pow f_s.toDouble 4)
  let f_5 := F64.toFloat (pow f_s.toDouble 5)
  1 + tmp_a 4 * 2 * f_s + tmp_a 3 * 4 * f_2 + tmp_a 2 * 8 * f_3 + tmp_a 1 * 16 * f_4 +
    tmp_a 0 * 32 * f_5

/-- `BesselFilterLP5Order::coefficients_calculating` in `float` arithmetic. -/
def coefficients_calculating (S : BesselFilterLP5Order F32) : BesselFilterLP5Order F32 :=
  let f_s := S.f_s
  let tmp_a := tmp_a S.cutoff_freq
  let f_2 := F64.toFloat (pow f_s.toDouble 2)
  let f_3 := F64.toFloat (pow f_s.toDouble 3)
  let f_4 := F64.toFloat (pow f_s.toDouble 4)
  let f_5 := F64.toFloat (pow f_s.toDouble 5)
  let a_0 := a_0 S.f_s S.cutoff_freq
  let a := Function.update S.a 0 (F64.toFloat 1.0)
  let a := Function.update a 1
    ((5 + 6 * tmp_a 4 * f_s + 4 * tmp_a 3 * f_2 - tmp_a 2 * 8 * f_3 - 48 * tmp_a 1 * f_4
      - 160 * tmp_a 0 * f_5) / a_0)
  let a := Function.update a 2
    ((10 + 4 * tmp_a 4 * f_s - 8 * tmp_a 3 * f_2 - 16 * tmp_a 2 * f_3 + 32 * tmp_a 1 * f_4
      + 320 * tmp_a 0 * f_5) / a_0)
  let a := Function.update a 3
    ((10 - 4 * tmp_a 4 * f_s - 8 * tmp_a 3 * f_2 + 16 * tmp_a 2 * f_3 + 32 * tmp_a 1 * f_4
      - 320 * tmp_a 0 * f_5) / a_0)
  let a := Function.update a 4
    ((5 - 6 * tmp_a 4 * f_s + 4 * tmp_a 3 * f_2 + 8 * tmp_a 2 * f_3 - 48 * tmp_a 1 * f_4
      + 160 * tmp_a 0 * f_5) / a_0)
  let a := Function.update a 5
    ((1 - 2 * tmp_a 4 * f_s + 4 * tmp_a 3 * f_2 - 8 * tmp_a 2 * f_3 + 16 * tmp_a 1 * f_4
      - 32 * tmp_a 0 * f_5) / a_0)
  let b := Function.update S.b 0 (b_0_cont / a_0)
  let b := Function.update b 1 ((b_0_cont * 5) / a_0)
  let b := Function.update b 2 ((b_0_cont * 10) / a_0)
  let b := Function.update b 3 (b 2)
  let b := Function.update b 4 (b 1)
  let b := Function.update b 5 (b 0)
  { S with a := a, b := b }

/-- `BesselFilterLP5Order::set_cuttoff_frequency`: `new_cutoff * 2` is a `float` product, the
product with `M_PI` a `double` one, stored to the `float` member. -/
def set_cuttoff_frequency (S : BesselFilterLP5Order F32) (new_cutoff : F32) :
    BesselFilterLP5Order F32 :=
  coefficients_calculating
    { S with cutoff_freq := F64.toFloat ((new_cutoff * 2).toDouble * M_PI) }

/-- `BesselFilterLP5Order::set_sample_frequency`. -/
def set_sample_frequency (S : BesselFilterLP5Order F32) (new_f_s : F32) :
    BesselFilterLP5Order F32 :=
  coefficients_calculating { S with f_s := new_f_s }

/-- The constructor `BesselFilterLP5Order(float freq_sample, float cut_f)`; `mem` is what the
storage of the object held before. -/
def construct (mem : BesselFilterLP5Order F32) (freq_sample cut_f : F32) :
    BesselFilterLP5Order F32 :=
  set_cuttoff_frequency { mem with f_s := freq_sample } cut_f

/-- The object after one call (the value returned by `step` is dropped). -/
def apply (S : BesselFilterLP5Order F32) : Call F32 → BesselFilterLP5Order F32
  | Call.step v => (step S v).2
  | Call.set_cuttoff_frequency f => set_cuttoff_frequency S f
  | Call.set_sample_frequency g => set_sample_frequency S g

/-- The object after a sequence of calls, first call first. -/
def run (S : BesselFilterLP5Order F32) (calls : List (Call F32)) : BesselFilterLP5Order F32 :=
  calls.foldl apply S

/-- The `float` nearest to a rational (what a `float` argument holds). -/
def ofRat (q : ℚ) : F32 := ⟨roundTo binary32 q⟩

/-- Storage in which every member is zero. -/
def zero_storage : BesselFilterLP5Order F32 :=
  { f_s := 0, cutoff_freq := 0, a := fun _ => 0, b := fun _ => 0,
    y_prev := fun _ => 0, x_prev := fun _ => 0 }

end Binary32

/-- A NaN, `+inf`, `+0` or a positive finite value: what sums, products and quotients of
non-negative data can be. -/
def FloatVal.NonNegOrNaN (x : FloatVal) : Prop :=
  x = FloatVal.nan ∨ x = FloatVal.inf false ∨ x = FloatVal.zero false ∨
    ∃ v : ℚ, 0 < v ∧ x = FloatVal.fin v

/-- A finite value at least `2 ^ k`, or `+inf`. -/
def FloatVal.AtLeast (k : ℤ) (x : FloatVal) : Prop :=
  x = FloatVal.inf false ∨ ∃ v : ℚ, pow2 k ≤ v ∧ x = FloatVal.fin v

/-- A finite value in `(0, 1]`, or `+0`. -/
def FloatVal.AtMostOne (x : FloatVal) : Prop :=
  x = FloatVal.zero false ∨ ∃ v : ℚ, 0 < v ∧ v ≤ 1 ∧ x = FloatVal.fin v

/-- Whether a datum is a zero of either sign. -/
def FloatVal.isZero : FloatVal → Bool
  | FloatVal.zero _ => true
  | _ => false

/-- Whether a datum is a zero or a non-zero finite value (neither a NaN nor an infinity). -/
def FloatVal.isFinite : FloatVal → Bool
  | FloatVal.zero _ => true
  | FloatVal.fin q => decide (q ≠ 0)
  | _ => false

/-- A positive finite `float`: a positive rational that binary32 holds exactly. -/
def F32.IsPositive (x : F32) : Prop :=
  ∃ q : ℚ, 0 < q ∧ x.val = FloatVal.fin q ∧ roundTo binary32 q = FloatVal.fin q

/-- The rational held by a finite `float` (`0` for a zero, and for a NaN or an infinity,
which hold none). -/
def F32.toRat (x : F32) : ℚ :=
  match x.val with
  | FloatVal.fin q => q
  | _ => 0

/-- The data `x` and `y` are finite and positive, `y` is `x` times `2 ^ m`, and both lie in
`[2 ^ lo, 2 ^ hi]`. -/
def FloatVal.Scales (m lo hi : ℤ) (x y : FloatVal) : Prop :=
  ∃ v : ℚ, x = FloatVal.fin v ∧ y = FloatVal.fin (v * pow2 m) ∧ pow2 lo ≤ v ∧ v ≤ pow2 hi ∧
    pow2 lo ≤ v * pow2 m ∧ v * pow2 m ≤ pow2 hi

/-- A `float` argument in the range `[2 ^ (-17), 2 ^ 17]` (about `7.6e-6` to `131072`). -/
def F32.InRange (x : F32) : Prop :=
  ∃ q : ℚ, x.val = FloatVal.fin q ∧ pow2 (-17) ≤ q ∧ q ≤ pow2 17

/-- The magnitude of a datum that is not negative, in the rationals with `+inf` adjoined as
the top element; `0` for a zero and for a NaN. -/
def FloatVal.mag : FloatVal → WithTop ℚ
  | FloatVal.inf _ => ⊤
  | FloatVal.fin q => (q : WithTop ℚ)
  | _ => 0

/-- The conditions on a format that the rounding lemmas use; binary32 and binary64 meet
them. -/
def Format.Valid (F : Format) : Prop :=
  -(2 * (F.emax + 1)) ≤ F.emin ∧ 1 ≤ F.prec ∧ 0 ≤ F.emax ∧ 4 * (F.emax + 1) ≤ 8192 ∧
    F.emin ≤ F.emax

/-- A datum that is `+inf`, `+0` or positive and finite (in particular not a NaN). -/
def FloatVal.IsNonNeg (x : FloatVal) : Prop :=
  x = FloatVal.inf false ∨ x = FloatVal.zero false ∨ ∃ v : ℚ, 0 < v ∧ x = FloatVal.fin v

/-- The delay loop started at `i = 4` moves every entry one slot up. -/
theorem delay_loop_four {K : Type} (x y : Fin 5 → K) :
    delay_loop 4 (by decide) (x, y) = (![x 0, x 0, x 1, x 2, x 3], ![y 0, y 0, y 1, y 2, y 3]) := by
  refine Prod.ext ?_ ?_ <;> funext i <;> fin_cases i <;>
    simp [delay_loop, Function.update]

/-- The value computed by `step`, with the products in the order of the specification. -/
theorem step_value {K : Type} [Field K] (S : BesselFilterLP5Order K) (s : K) :
    (step S s).1 =
      (S.b 0 * s + S.b 1 * S.x_prev 0 + S.b 2 * S.x_prev 1 + S.b 3 * S.x_prev 2 +
        S.b 4 * S.x_prev 3 + S.b 5 * S.x_prev 4 - S.a 1 * S.y_prev 0 - S.a 2 * S.y_prev 1 -
        S.a 3 * S.y_prev 2 - S.a 4 * S.y_prev 3 - S.a 5 * S.y_prev 4) / S.a 0 := by
  simp only [step]
  congr 1
  ring

/-- The input history after `step`. -/
theorem step_x_prev {K : Type} [Field K] (S : BesselFilterLP5Order K) (s : K) :
    (step S s).2.x_prev = ![s, S.x_prev 0, S.x_prev 1, S.x_prev 2, S.x_prev 3] := by
  simp only [step, delay_loop_four]
  funext i
  fin_cases i <;> simp [Function.update]

/-- The output history after `step`. -/
theorem step_y_prev {K : Type} [Field K] (S : BesselFilterLP5Order K) (s : K) :
    (step S s).2.y_prev =
      ![(step S s).1, S.y_prev 0, S.y_prev 1, S.y_prev 2, S.y_prev 3] := by
  simp only [step, delay_loop_four]
  funext i
  fin_cases i <;> simp [Function.update]

/-- C1: for every state and every input sample `s`, `step(s)` returns
`(b[0]*s + b[1]*x[0] + ... + b[5]*x[4] - a[1]*y[0] - ... - a[5]*y[4]) / a[0]`,
all values being those held before the call. -/
theorem step_returns_difference_equation {K : Type} [Field K] (S : BesselFilterLP5Order K)
    (s : K) :
    (step S s).1 =
      (S.b 0 * s + S.b 1 * S.x_prev 0 + S.b 2 * S.x_prev 1 + S.b 3 * S.x_prev 2 +
        S.b 4 * S.x_prev 3 + S.b 5 * S.x_prev 4 - S.a 1 * S.y_prev 0 - S.a 2 * S.y_prev 1 -
        S.a 3 * S.y_prev 2 - S.a 4 * S.y_prev 3 - S.a 5 * S.y_prev 4) / S.a 0 :=
  step_value S s

/-- C2: after `step(s)` returns `y`, the input history is `[s, x0, x1, x2, x3]` and the
output history is `[y, y0, y1, y2, y3]`: every entry moved one slot towards the old end,
the oldest entry dropped. -/
theorem step_shifts_histories {K : Type} [Field K] (S : BesselFilterLP5Order K) (s : K) :
    (step S s).2.x_prev = ![s, S.x_prev 0, S.x_prev 1, S.x_prev 2, S.x_prev 3] ∧
    (step S s).2.y_prev =
      ![(step S s).1, S.y_prev 0, S.y_prev 1, S.y_prev 2, S.y_prev 3] :=
  ⟨step_x_prev S s, step_y_prev S s⟩

/-! ### The coefficients written by `coefficients_calculating` -/

theorem tmp_a_zero {K : Type} [Field K] (w : K) : tmp_a w 0 = 1.0 / w ^ 5 := rfl

theorem tmp_a_one {K : Type} [Field K] (w : K) : tmp_a w 1 = 3.810701205349278 / w ^ 4 := rfl

theorem tmp_a_two {K : Type} [Field K] (w : K) : tmp_a w 2 = 6.776673715676871 / w ^ 3 := rfl

theorem tmp_a_three {K : Type} [Field K] (w : K) : tmp_a w 3 = 6.886367652423632 / w ^ 2 := rfl

theorem tmp_a_four {K : Type} [Field K] (w : K) : tmp_a w 4 = 3.936283427035352 / w ^ 1 := rfl

/-- Under `f_s > 0` and `cutoff_freq > 0` the normalisation term exceeds one. -/
theorem a_0_gt_one {K : Type} [LinearOrderedField K] (f_s w : K) (hf : 0 < f_s) (hw : 0 < w) :
    1 < a_0 f_s w := by
  simp only [a_0, tmp_a_zero, tmp_a_one, tmp_a_two, tmp_a_three, tmp_a_four]
  have h : 0 < 3.936283427035352 / w ^ 1 * 2 * f_s + 6.886367652423632 / w ^ 2 * 4 * f_s ^ 2 +
      6.776673715676871 / w ^ 3 * 8 * f_s ^ 3 + 3.810701205349278 / w ^ 4 * 16 * f_s ^ 4 +
      1.0 / w ^ 5 * 32 * f_s ^ 5 := by
    norm_num
    positivity
  linarith

theorem a_0_ne_zero {K : Type} [LinearOrderedField K] (f_s w : K) (hf : 0 < f_s) (hw : 0 < w) :
    a_0 f_s w ≠ 0 :=
  ne_of_gt (lt_trans one_pos (a_0_gt_one f_s w hf hw))

/-- The feedback coefficients after `coefficients_calculating`, entry by entry. -/
theorem coefficients_calculating_a {K : Type} [Field K] (S : BesselFilterLP5Order K) :
    (coefficients_calculating S).a =
      ![1.0,
        (5 + 6 * tmp_a S.cutoff_freq 4 * S.f_s + 4 * tmp_a S.cutoff_freq 3 * S.f_s ^ 2
          - tmp_a S.cutoff_freq 2 * 8 * S.f_s ^ 3 - 48 * tmp_a S.cutoff_freq 1 * S.f_s ^ 4
          - 160 * tmp_a S.cutoff_freq 0 * S.f_s ^ 5) / a_0 S.f_s S.cutoff_freq,
        (10 + 4 * tmp_a S.cutoff_freq 4 * S.f_s - 8 * tmp_a S.cutoff_freq 3 * S.f_s ^ 2
          - 16 * tmp_a S.cutoff_freq 2 * S.f_s ^ 3 + 32 * tmp_a S.cutoff_freq 1 * S.f_s ^ 4
          + 320 * tmp_a S.cutoff_freq 0 * S.f_s ^ 5) / a_0 S.f_s S.cutoff_freq,
        (10 - 4 * tmp_a S.cutoff_freq 4 * S.f_s - 8 * tmp_a S.cutoff_freq 3 * S.f_s ^ 2
          + 16 * tmp_a S.cutoff_freq 2 * S.f_s ^ 3 + 32 * tmp_a S.cutoff_freq 1 * S.f_s ^ 4
          - 320 * tmp_a S.cutoff_freq 0 * S.f_s ^ 5) / a_0 S.f_s S.cutoff_freq,
        (5 - 6 * tmp_a S.cutoff_freq 4 * S.f_s + 4 * tmp_a S.cutoff_freq 3 * S.f_s ^ 2
          + 8 * tmp_a S.cutoff_freq 2 * S.f_s ^ 3 - 48 * tmp_a S.cutoff_freq 1 * S.f_s ^ 4
          + 160 * tmp_a S.cutoff_freq 0 * S.f_s ^ 5) / a_0 S.f_s S.cutoff_freq,
        (1 - 2 * tmp_a S.cutoff_freq 4 * S.f_s + 4 * tmp_a S.cutoff_freq 3 * S.f_s ^ 2
          - 8 * tmp_a S.cutoff_freq 2 * S.f_s ^ 3 + 16 * tmp_a S.cutoff_freq 1 * S.f_s ^ 4
          - 32 * tmp_a S.cutoff_freq 0 * S.f_s ^ 5) / a_0 S.f_s S.cutoff_freq] := by
  funext i
  fin_cases i <;> rfl

/-- The feedforward coefficients after `coefficients_calculating`, entry by entry. -/
theorem coefficients_calculating_b {K : Type} [Field K] (S : BesselFilterLP5Order K) :
    (coefficients_calculating S).b =
      ![b_0_cont / a_0 S.f_s S.cutoff_freq, (b_0_cont * 5) / a_0 S.f_s S.cutoff_freq,
        (b_0_cont * 10) / a_0 S.f_s S.cutoff_freq, (b_0_cont * 10) / a_0 S.f_s S.cutoff_freq,
        (b_0_cont * 5) / a_0 S.f_s S.cutoff_freq, b_0_cont / a_0 S.f_s S.cutoff_freq] := by
  funext i
  fin_cases i <;> rfl

/-- `coefficients_calculating` writes `a` and `b` only. -/
theorem coefficients_calculating_frame {K : Type} [Field K] (S : BesselFilterLP5Order K) :
    (coefficients_calculating S).f_s = S.f_s ∧
    (coefficients_calculating S).cutoff_freq = S.cutoff_freq ∧
    (coefficients_calculating S).x_prev = S.x_prev ∧
    (coefficients_calculating S).y_prev = S.y_prev :=
  ⟨rfl, rfl, rfl, rfl⟩

/-- Normalised polynomial times the normalisation term. -/
theorem normalised_poly {K : Type} [Field K] (N n0 n1 n2 n3 n4 n5 q : K) (hN : N ≠ 0) :
    N * (n0 / N + n1 / N * q + n2 / N * q ^ 2 + n3 / N * q ^ 3 + n4 / N * q ^ 4 +
      n5 / N * q ^ 5) = n0 + n1 * q + n2 * q ^ 2 + n3 * q ^ 3 + n4 * q ^ 4 + n5 * q ^ 5 := by
  field_simp

/-- The pre-expanded bilinear transform, with the prototype constants kept symbolic. -/
theorem bilinear_expansion {K : Type} [Field K] (c1 c2 c3 c4 f w q : K)
    (hq : 1 + q ≠ 0) :
    (1 + c4 / w ^ 1 * 2 * f + c3 / w ^ 2 * 4 * f ^ 2 + c2 / w ^ 3 * 8 * f ^ 3 +
        c1 / w ^ 4 * 16 * f ^ 4 + 1 / w ^ 5 * 32 * f ^ 5) +
      (5 + 6 * (c4 / w ^ 1) * f + 4 * (c3 / w ^ 2) * f ^ 2 - c2 / w ^ 3 * 8 * f ^ 3
        - 48 * (c1 / w ^ 4) * f ^ 4 - 160 * (1 / w ^ 5) * f ^ 5) * q +
      (10 + 4 * (c4 / w ^ 1) * f - 8 * (c3 / w ^ 2) * f ^ 2 - 16 * (c2 / w ^ 3) * f ^ 3
        + 32 * (c1 / w ^ 4) * f ^ 4 + 320 * (1 / w ^ 5) * f ^ 5) * q ^ 2 +
      (10 - 4 * (c4 / w ^ 1) * f - 8 * (c3 / w ^ 2) * f ^ 2 + 16 * (c2 / w ^ 3) * f ^ 3
        + 32 * (c1 / w ^ 4) * f ^ 4 - 320 * (1 / w ^ 5) * f ^ 5) * q ^ 3 +
      (5 - 6 * (c4 / w ^ 1) * f + 4 * (c3 / w ^ 2) * f ^ 2 + 8 * (c2 / w ^ 3) * f ^ 3
        - 48 * (c1 / w ^ 4) * f ^ 4 + 160 * (1 / w ^ 5) * f ^ 5) * q ^ 4 +
      (1 - 2 * (c4 / w ^ 1) * f + 4 * (c3 / w ^ 2) * f ^ 2 - 8 * (c2 / w ^ 3) * f ^ 3
        + 16 * (c1 / w ^ 4) * f ^ 4 - 32 * (1 / w ^ 5) * f ^ 5) * q ^ 5 =
      (1 + q) ^ 5 * ((2 * f * (1 - q) / ((1 + q) * w)) ^ 5 +
        c1 * (2 * f * (1 - q) / ((1 + q) * w)) ^ 4 + c2 * (2 * f * (1 - q) / ((1 + q) * w)) ^ 3 +
        c3 * (2 * f * (1 - q) / ((1 + q) * w)) ^ 2 + c4 * (2 * f * (1 - q) / ((1 + q) * w)) + 1) := by
  have hp : (1 + q) * (1 + q)⁻¹ = 1 := mul_inv_cancel₀ hq
  have h1 : (1 + q) ^ 1 * (1 + q)⁻¹ ^ 1 = 1 := by rw [← mul_pow, hp, one_pow]
  have h2 : (1 + q) ^ 2 * (1 + q)⁻¹ ^ 2 = 1 := by rw [← mul_pow, hp, one_pow]
  have h3 : (1 + q) ^ 3 * (1 + q)⁻¹ ^ 3 = 1 := by rw [← mul_pow, hp, one_pow]
  have h4 : (1 + q) ^ 4 * (1 + q)⁻¹ ^ 4 = 1 := by rw [← mul_pow, hp, one_pow]
  have h5 : (1 + q) ^ 5 * (1 + q)⁻¹ ^ 5 = 1 := by rw [← mul_pow, hp, one_pow]
  have hu : 2 * f * (1 - q) / ((1 + q) * w) = 2 * f * (1 - q) * w⁻¹ * (1 + q)⁻¹ := by
    rw [div_eq_mul_inv, mul_inv]
    ring
  rw [hu]
  linear_combination
    (-(2 * f * (1 - q) * w⁻¹) ^ 5) * h5 - c1 * (2 * f * (1 - q) * w⁻¹) ^ 4 * (1 + q) * h4
      - c2 * (2 * f * (1 - q) * w⁻¹) ^ 3 * (1 + q) ^ 2 * h3
      - c3 * (2 * f * (1 - q) * w⁻¹) ^ 2 * (1 + q) ^ 3 * h2
      - c4 * (2 * f * (1 - q) * w⁻¹) * (1 + q) ^ 4 * h1

theorem vec6_five {K : Type} (x0 x1 x2 x3 x4 x5 : K) :
    (![x0, x1, x2, x3, x4, x5] : Fin 6 → K) 5 = x5 := rfl

/-- The formulas of `coefficients_calculating` in exact arithmetic are the bilinear
transform of the frequency-scaled prototype: for `f_s > 0`, `cutoff_freq > 0` and `q ≠ -1`
(standing for `z⁻¹`), with `norm` the local `a_0`:
`norm * (a[0] + a[1] q + ... + a[5] q^5) = (1+q)^5 * P(2 f_s (1-q) / ((1+q) w_c))` and
`norm * (b[0] + b[1] q + ... + b[5] q^5) = (1+q)^5`.  This is a statement about the
formulas, not about the values the program stores: see `bilinear_identity_lost_in_float`. -/
theorem bilinear_transform_identity {K : Type} [LinearOrderedField K]
    (S : BesselFilterLP5Order K) (q : K) (hf : 0 < S.f_s) (hw : 0 < S.cutoff_freq)
    (hq : q ≠ -1) :
    a_0 S.f_s S.cutoff_freq *
        ((coefficients_calculating S).a 0 + (coefficients_calculating S).a 1 * q +
          (coefficients_calculating S).a 2 * q ^ 2 + (coefficients_calculating S).a 3 * q ^ 3 +
          (coefficients_calculating S).a 4 * q ^ 4 + (coefficients_calculating S).a 5 * q ^ 5) =
      (1 + q) ^ 5 * prototype_P (2 * S.f_s * (1 - q) / ((1 + q) * S.cutoff_freq)) ∧
    a_0 S.f_s S.cutoff_freq *
        ((coefficients_calculating S).b 0 + (coefficients_calculating S).b 1 * q +
          (coefficients_calculating S).b 2 * q ^ 2 + (coefficients_calculating S).b 3 * q ^ 3 +
          (coefficients_calculating S).b 4 * q ^ 4 + (coefficients_calculating S).b 5 * q ^ 5) =
      (1 + q) ^ 5 := by
  have hn : a_0 S.f_s S.cutoff_freq ≠ 0 := a_0_ne_zero _ _ hf hw
  have hq1 : 1 + q ≠ 0 := fun h => hq (by linear_combination h)
  have h10 : (1.0 : K) = a_0 S.f_s S.cutoff_freq / a_0 S.f_s S.cutoff_freq := by
    rw [div_self hn]; norm_num
  constructor
  · rw [coefficients_calculating_a]
    simp only [Matrix.cons_val_zero, Matrix.cons_val_one, Matrix.head_cons, Matrix.cons_val_two,
      Matrix.tail_cons, Matrix.cons_val_three, Matrix.cons_val_four, vec6_five]
    rw [h10, normalised_poly _ _ _ _ _ _ _ _ hn, prototype_P,
      ← bilinear_expansion _ _ _ _ _ _ _ hq1]
    simp only [a_0, tmp_a_zero, tmp_a_one, tmp_a_two, tmp_a_three, tmp_a_four]
    norm_num
  · rw [coefficients_calculating_b]
    simp only [Matrix.cons_val_zero, Matrix.cons_val_one, Matrix.head_cons, Matrix.cons_val_two,
      Matrix.tail_cons, Matrix.cons_val_three, Matrix.cons_val_four, vec6_five]
    rw [normalised_poly _ _ _ _ _ _ _ _ hn, b_0_cont]
    norm_num
    ring

/-- The coefficients written by `coefficients_calculating` are a function of the stored
sample rate and cutoff alone. -/
theorem coefficients_calculating_congr {K : Type} [Field K] (S T : BesselFilterLP5Order K)
    (hf : S.f_s = T.f_s) (hw : S.cutoff_freq = T.cutoff_freq) :
    (coefficients_calculating S).a = (coefficients_calculating T).a ∧
    (coefficients_calculating S).b = (coefficients_calculating T).b := by
  rw [coefficients_calculating_a, coefficients_calculating_a, coefficients_calculating_b,
    coefficients_calculating_b, hf, hw]
  exact ⟨rfl, rfl⟩

/-- The sum of the feedback numerators: `Σ a[i] = 32 / a_0` once `a_0 ≠ 0`. -/
theorem sum_a_eq_sum_b {K : Type} [Field K] (S : BesselFilterLP5Order K)
    (hn : a_0 S.f_s S.cutoff_freq ≠ 0) :
    (coefficients_calculating S).b 0 + (coefficients_calculating S).b 1 +
        (coefficients_calculating S).b 2 + (coefficients_calculating S).b 3 +
        (coefficients_calculating S).b 4 + (coefficients_calculating S).b 5 =
      (coefficients_calculating S).a 0 + (coefficients_calculating S).a 1 +
        (coefficients_calculating S).a 2 + (coefficients_calculating S).a 3 +
        (coefficients_calculating S).a 4 + (coefficients_calculating S).a 5 := by
  have h10 : (1.0 : K) = a_0 S.f_s S.cutoff_freq / a_0 S.f_s S.cutoff_freq := by
    rw [div_self hn]; norm_num
  rw [coefficients_calculating_a, coefficients_calculating_b]
  simp only [Matrix.cons_val_zero, Matrix.cons_val_one, Matrix.head_cons, Matrix.cons_val_two,
    Matrix.tail_cons, Matrix.cons_val_three, Matrix.cons_val_four, vec6_five]
  rw [h10, ← add_div, ← add_div, ← add_div, ← add_div, ← add_div, ← add_div, ← add_div,
    ← add_div, ← add_div, ← add_div]
  congr 1
  simp only [a_0, b_0_cont]
  norm_num
  ring

/-- The formulas of `coefficients_calculating` in exact arithmetic have zero-frequency gain
`1`: for `f_s > 0` and `cutoff_freq > 0` the coefficient sums agree and a filter whose ten
history entries are `v` returns `v` from `step(v)` and keeps its state.  This is a statement
about the formulas, not about the values the program stores: see `dc_gain_lost_in_float`. -/
theorem unit_dc_gain {K : Type} [LinearOrderedField K] (S : BesselFilterLP5Order K)
    (hf : 0 < S.f_s) (hw : 0 < S.cutoff_freq) :
    ((coefficients_calculating S).b 0 + (coefficients_calculating S).b 1 +
        (coefficients_calculating S).b 2 + (coefficients_calculating S).b 3 +
        (coefficients_calculating S).b 4 + (coefficients_calculating S).b 5 =
      (coefficients_calculating S).a 0 + (coefficients_calculating S).a 1 +
        (coefficients_calculating S).a 2 + (coefficients_calculating S).a 3 +
        (coefficients_calculating S).a 4 + (coefficients_calculating S).a 5) ∧
    ∀ v : K, step (with_histories (coefficients_calculating S) v) v =
      (v, with_histories (coefficients_calculating S) v) := by
  have hsum := sum_a_eq_sum_b S (a_0_ne_zero _ _ hf hw)
  refine ⟨hsum, fun v => ?_⟩
  have ha0 : (coefficients_calculating S).a 0 = 1 := by
    show (1.0 : K) = 1
    norm_num
  have hy : (step (with_histories (coefficients_calculating S) v) v).1 = v := by
    rw [step_value]
    simp only [with_histories]
    rw [ha0, div_one]
    linear_combination v * hsum + v * ha0
  refine Prod.ext hy ?_
  have hx := step_x_prev (with_histories (coefficients_calculating S) v) v
  have hy2 := step_y_prev (with_histories (coefficients_calculating S) v) v
  rw [hy] at hy2
  have e1 : (![v, v, v, v, v] : Fin 5 → K) = fun _ => v := by
    funext i; fin_cases i <;> rfl
  simp only [with_histories] at hx hy2 ⊢
  rw [e1] at hx hy2
  show BesselFilterLP5Order.mk _ _ _ _ _ _ = BesselFilterLP5Order.mk _ _ _ _ _ _
  congr 1

/-- C6: after coefficient computation for any (sample rate, cutoff) pair the feedforward
coefficients are symmetric: `b[0] = b[5]`, `b[1] = b[4]`, `b[2] = b[3]`. -/
theorem feedforward_symmetric {K : Type} [Field K] (S : BesselFilterLP5Order K) :
    (coefficients_calculating S).b 0 = (coefficients_calculating S).b 5 ∧
    (coefficients_calculating S).b 1 = (coefficients_calculating S).b 4 ∧
    (coefficients_calculating S).b 2 = (coefficients_calculating S).b 3 :=
  ⟨rfl, rfl, rfl⟩

/-- The leading feedback coefficient is written as the literal `1.0`. -/
theorem coefficients_calculating_a_zero {K : Type} [Field K] (S : BesselFilterLP5Order K) :
    (coefficients_calculating S).a 0 = 1 := by
  show (1.0 : K) = 1
  norm_num

/-- Every call keeps the stored coefficients equal to the recomputed ones. -/
theorem Call.apply_consistent {K : Type} [Field K] (S : BesselFilterLP5Order K) (c : Call K)
    (h : S.a = (coefficients_calculating S).a ∧ S.b = (coefficients_calculating S).b) :
    (Call.apply S c).a = (coefficients_calculating (Call.apply S c)).a ∧
    (Call.apply S c).b = (coefficients_calculating (Call.apply S c)).b := by
  cases c with
  | step v =>
    have e := coefficients_calculating_congr (Call.apply S (Call.step v)) S rfl rfl
    rw [e.1, e.2]
    exact h
  | set_cuttoff_frequency f =>
    exact coefficients_calculating_congr _ _ rfl rfl
  | set_sample_frequency g =>
    exact coefficients_calculating_congr _ _ rfl rfl

/-- Every sequence of calls keeps the stored coefficients equal to the recomputed ones. -/
theorem run_consistent {K : Type} [Field K] (calls : List (Call K)) (S : BesselFilterLP5Order K)
    (h : S.a = (coefficients_calculating S).a ∧ S.b = (coefficients_calculating S).b) :
    (run S calls).a = (coefficients_calculating (run S calls)).a ∧
    (run S calls).b = (coefficients_calculating (run S calls)).b := by
  induction calls generalizing S with
  | nil => exact h
  | cons c cs ih => exact ih (Call.apply S c) (Call.apply_consistent S c h)

/-- C8: in every state reached from `BesselFilterLP5Order(freq_sample, cut_f)` by any
sequence of `set_cuttoff_frequency`, `set_sample_frequency` and `step` calls, the stored
`a[0..5]` and `b[0..5]` are the coefficients that `coefficients_calculating` computes from
the currently stored `f_s` and `cutoff_freq` (on any object `T` holding that pair). -/
theorem coefficients_consistent {K : Type} [Field K] (mem : BesselFilterLP5Order K)
    (freq_sample cut_f : K) (calls : List (Call K)) (T : BesselFilterLP5Order K)
    (hf : T.f_s = (run (construct mem freq_sample cut_f) calls).f_s)
    (hw : T.cutoff_freq = (run (construct mem freq_sample cut_f) calls).cutoff_freq) :
    (run (construct mem freq_sample cut_f) calls).a = (coefficients_calculating T).a ∧
    (run (construct mem freq_sample cut_f) calls).b = (coefficients_calculating T).b := by
  have h := run_consistent calls (construct mem freq_sample cut_f)
    (coefficients_calculating_congr _ _ rfl rfl)
  have e := coefficients_calculating_congr T _ hf hw
  rw [e.1, e.2]
  exact h

theorem coefficients_consistent_witness :
    (run (construct zero_storage 100 10)
        [Call.step 1, Call.set_sample_frequency 50, Call.step 2]).a =
      (coefficients_calculating (run (construct zero_storage 100 10)
        [Call.step 1, Call.set_sample_frequency 50, Call.step 2])).a ∧
    (run (construct zero_storage 100 10)
        [Call.step 1, Call.set_sample_frequency 50, Call.step 2]).b =
      (coefficients_calculating (run (construct zero_storage 100 10)
        [Call.step 1, Call.set_sample_frequency 50, Call.step 2])).b :=
  coefficients_consistent zero_storage 100 10
    [Call.step 1, Call.set_sample_frequency 50, Call.step 2] _ rfl rfl

/-- C9 (the code at the failing input): the default constructor writes neither `a` nor `b`;
built in zeroed storage the object has `a[0] = 0`, the divisor of `step`, where the
coefficient computation gives `1`, and its `b` is not the computed `b`. -/
theorem default_constructor_leaves_coefficients :
    (∀ mem : BesselFilterLP5Order ℚ,
      (construct_default mem).a = mem.a ∧ (construct_default mem).b = mem.b) ∧
    (construct_default zero_storage).a 0 = 0 ∧
    (coefficients_calculating (construct_default zero_storage)).a 0 = 1 ∧
    (construct_default zero_storage).b 0 = 0 ∧
    (coefficients_calculating (construct_default zero_storage)).b 0 ≠ 0 := by
  refine ⟨fun mem => ⟨rfl, rfl⟩, rfl, coefficients_calculating_a_zero _, rfl, ?_⟩
  decide!

/-- C10 (the code at the failing input): neither constructor writes `x_prev` or `y_prev`;
built with `(100, 10)` in storage whose `x_prev` holds ones, the object has `x_prev[0] = 1`,
and its first output on input `0` is neither `b[0] * 0` nor the first output of the same
filter built in zeroed storage. -/
theorem constructors_leave_histories :
    (∀ (mem : BesselFilterLP5Order ℚ) (freq_sample cut_f : ℚ),
      (construct mem freq_sample cut_f).x_prev = mem.x_prev ∧
      (construct mem freq_sample cut_f).y_prev = mem.y_prev ∧
      (construct_default mem).x_prev = mem.x_prev ∧
      (construct_default mem).y_prev = mem.y_prev) ∧
    (construct stale_storage 100 10).x_prev 0 = 1 ∧
    (step (construct stale_storage 100 10) 0).1 ≠ (construct stale_storage 100 10).b 0 * 0 ∧
    (step (construct stale_storage 100 10) 0).1 ≠ (step (construct zero_storage 100 10) 0).1 := by
  refine ⟨fun mem fs cut => ⟨rfl, rfl, rfl, rfl⟩, rfl, ?_, ?_⟩
  · decide!
  · decide!

/-- C11: `set_cuttoff_frequency` and `set_sample_frequency` leave the history buffers
untouched: for every state and every argument `x_prev` and `y_prev` after the setter equal
those before it. -/
theorem setters_keep_histories {K : Type} [Field K] (S : BesselFilterLP5Order K) (f g : K) :
    (set_cuttoff_frequency S f).x_prev = S.x_prev ∧
    (set_cuttoff_frequency S f).y_prev = S.y_prev ∧
    (set_sample_frequency S g).x_prev = S.x_prev ∧
    (set_sample_frequency S g).y_prev = S.y_prev :=
  ⟨rfl, rfl, rfl, rfl⟩

/-- C12: `step` mutates the histories only: the coefficients `a`, `b`, the sample rate and
the cutoff angular frequency after `step` equal those before it. -/
theorem step_keeps_configuration {K : Type} [Field K] (S : BesselFilterLP5Order K) (s : K) :
    (step S s).2.a = S.a ∧ (step S s).2.b = S.b ∧ (step S s).2.f_s = S.f_s ∧
    (step S s).2.cutoff_freq = S.cutoff_freq :=
  ⟨rfl, rfl, rfl, rfl⟩

/-- The constant `M_PI` is positive. -/
theorem M_PI_pos {K : Type} [LinearOrderedField K] : (0 : K) < M_PI := by
  unfold M_PI
  norm_num

/-- C13: after `set_cuttoff_frequency(f)` the getter returns `f * 2 * M_PI` (rad/s, which is
not `f` unless `f = 0`) and the sample rate is unchanged; after `set_sample_frequency(g)` the
getter returns `g` and the cutoff is unchanged. -/
theorem setter_getter_units {K : Type} [LinearOrderedField K] (S : BesselFilterLP5Order K)
    (f g : K) :
    get_cuttoff_frequency (set_cuttoff_frequency S f) = f * 2 * M_PI ∧
    (f ≠ 0 → get_cuttoff_frequency (set_cuttoff_frequency S f) ≠ f) ∧
    get_sample_frequency (set_cuttoff_frequency S f) = get_sample_frequency S ∧
    get_sample_frequency (set_sample_frequency S g) = g ∧
    get_cuttoff_frequency (set_sample_frequency S g) = get_cuttoff_frequency S := by
  refine ⟨rfl, ?_, rfl, rfl, rfl⟩
  intro hf h
  have h1 : get_cuttoff_frequency (set_cuttoff_frequency S f) = f * 2 * M_PI := rfl
  rw [h1] at h
  have h2 : f * (2 * M_PI - 1) = 0 := by linear_combination h
  have h3 : (2 : K) * M_PI - 1 ≠ 0 := by
    unfold M_PI
    norm_num
  exact (mul_ne_zero hf h3) h2

theorem setter_getter_units_witness :
    get_cuttoff_frequency (set_cuttoff_frequency zero_storage 1) ≠ 1 :=
  (setter_getter_units zero_storage 1 0).2.1 one_ne_zero

/-- The state after `set_cuttoff_frequency` is determined by the argument, the stored
sample rate and the histories. -/
theorem set_cuttoff_frequency_congr {K : Type} [Field K] (S T : BesselFilterLP5Order K) (f : K)
    (hf : S.f_s = T.f_s) (hx : S.x_prev = T.x_prev) (hy : S.y_prev = T.y_prev) :
    set_cuttoff_frequency S f = set_cuttoff_frequency T f := by
  have e := coefficients_calculating_congr
    { S with cutoff_freq := f * 2 * M_PI } { T with cutoff_freq := f * 2 * M_PI } hf rfl
  exact BesselFilterLP5Order.ext hf rfl e.1 e.2 hy hx

/-- C14: `set_cuttoff_frequency(f)` twice in a row leaves exactly the state of calling it
once, and the coefficients after a setter depend only on the stored (sample rate, cutoff)
pair: two objects holding the same pair get the same `a` and `b`, whatever their previous
coefficients. -/
theorem set_cuttoff_frequency_idempotent {K : Type} [Field K] (S : BesselFilterLP5Order K)
    (f g : K) :
    set_cuttoff_frequency (set_cuttoff_frequency S f) f = set_cuttoff_frequency S f ∧
    ∀ T : BesselFilterLP5Order K, T.f_s = S.f_s → T.cutoff_freq = S.cutoff_freq →
      (set_cuttoff_frequency T f).a = (set_cuttoff_frequency S f).a ∧
      (set_cuttoff_frequency T f).b = (set_cuttoff_frequency S f).b ∧
      (set_sample_frequency T g).a = (set_sample_frequency S g).a ∧
      (set_sample_frequency T g).b = (set_sample_frequency S g).b := by
  refine ⟨set_cuttoff_frequency_congr _ _ f rfl rfl rfl, fun T hT hw => ?_⟩
  have e := coefficients_calculating_congr
    { T with cutoff_freq := f * 2 * M_PI } { S with cutoff_freq := f * 2 * M_PI } hT rfl
  have e2 := coefficients_calculating_congr { T with f_s := g } { S with f_s := g } rfl hw
  exact ⟨e.1, e.2, e2.1, e2.2⟩

theorem set_cuttoff_frequency_idempotent_witness :
    (set_cuttoff_frequency stale_storage 10).a = (set_cuttoff_frequency zero_storage 10).a :=
  ((set_cuttoff_frequency_idempotent zero_storage 10 0).2 stale_storage rfl rfl).1

/-- C15: a default-constructed filter reports `get_sample_frequency() = 1.0` and
`get_cuttoff_frequency() = 2 * M_PI`, the angular frequency of 1 Hz. -/
theorem default_constructor_getters {K : Type} [Field K] (mem : BesselFilterLP5Order K) :
    get_sample_frequency (construct_default mem) = 1 ∧
    get_cuttoff_frequency (construct_default mem) = 2 * M_PI ∧
    get_cuttoff_frequency (construct_default mem) = 1 * 2 * M_PI := by
  refine ⟨?_, rfl, ?_⟩
  · show (1.0 : K) = 1
    norm_num
  · show 2 * M_PI = 1 * 2 * (M_PI : K)
    ring

/-! ### Stability: the prototype is Hurwitz and the bilinear transform keeps it stable -/

/-- The prototype polynomial has real coefficients: it commutes with complex conjugation. -/
theorem conj_prototype_P (u : ℂ) :
    prototype_P ((starRingEnd ℂ) u) = (starRingEnd ℂ) (prototype_P u) := by
  simp only [prototype_P, map_add, map_mul, map_pow, map_one]
  norm_num [map_ofNat]

/-- The Bezout form of the prototype polynomial as a sum of squares with positive weights (the
`LDLᵀ` decomposition of its Hermite matrix). -/
theorem prototype_P_bezout (u v : ℂ) :
    prototype_P u * prototype_P v - prototype_P (-u) * prototype_P (-v) =
      (u + v) *
        ((1905350602674639 / 250000000000000) *
          ((u ^ 4 + (3443183826211816 / 1905350602674639) * u ^ 2 + (500000000000000 / 1905350602674639)) *
            (v ^ 4 + (3443183826211816 / 1905350602674639) * v ^ 2 + (500000000000000 / 1905350602674639))) +
        (9468755522082495376196870574569 /
          250000000000000000000000000000) *
          ((u ^ 3 + (7000000000000001323413606837928 /
          9468755522082495376196870574569) * u) *
            (v ^ 3 + (7000000000000001323413606837928 /
          9468755522082495376196870574569) * v)) +
        (1204075728079112019696210163644497532651749957 /
          29771103166791234375000000000000000000000000) *
          ((u ^ 2 + (295898610065077980506152205455281250000000000 /
          1204075728079112019696210163644497532651749957)) *
            (v ^ 2 + (295898610065077980506152205455281250000000000 /
          1204075728079112019696210163644497532651749957))) +
        (369140625000000017060966772428385021869821196261577162934983 /
          18493663129067373781634512840955078125000000000000000000000) * (u * v) +
        (369140625000000017060966772428385021869821196261577162934983 /
          75254733004944501231013135227781095790734372312500000000000)) := by
  simp only [prototype_P]
  ring

/-- The prototype polynomial has no root on the imaginary axis. -/
theorem prototype_P_ne_zero_of_re_eq_zero (u : ℂ) (hre : u.re = 0) : prototype_P u ≠ 0 := by
  intro h
  have hconj : (starRingEnd ℂ) u = -u := by
    apply Complex.ext
    · simp [hre]
    · simp
  have hneg : prototype_P (-u) = 0 := by
    rw [← hconj, conj_prototype_P, h, map_zero]
  simp only [prototype_P] at h hneg
  have hE : 3.810701205349278 * (u ^ 2) ^ 2 + 6.886367652423632 * u ^ 2 + 1 = 0 := by
    linear_combination (1 / 2 : ℂ) * h + (1 / 2 : ℂ) * hneg
  have hO : u * ((u ^ 2) ^ 2 + 6.776673715676871 * u ^ 2 + 3.936283427035352) = 0 := by
    linear_combination (1 / 2 : ℂ) * h - (1 / 2 : ℂ) * hneg
  have hu : u ≠ 0 := by
    intro h0
    rw [h0] at hE
    norm_num at hE
  have hG : (u ^ 2) ^ 2 + 6.776673715676871 * u ^ 2 + 3.936283427035352 = 0 :=
    (mul_eq_zero.mp hO).resolve_left hu
  have hR : ((1 - 3.810701205349278 * 3.936283427035352) ^ 2 -
      6.776673715676871 * (6.886367652423632 - 3.810701205349278 * 6.776673715676871) *
        (1 - 3.810701205349278 * 3.936283427035352) +
      3.936283427035352 * (6.886367652423632 - 3.810701205349278 * 6.776673715676871) ^ 2 : ℂ)
      = 0 := by
    linear_combination
      (6.886367652423632 - 3.810701205349278 * 6.776673715676871) ^ 2 * hG -
      ((6.886367652423632 - 3.810701205349278 * 6.776673715676871) * u ^ 2 -
        (1 - 3.810701205349278 * 3.936283427035352) +
        6.776673715676871 * (6.886367652423632 - 3.810701205349278 * 6.776673715676871)) *
        (hE - 3.810701205349278 * hG)
  norm_num at hR

/-- Every complex root of the prototype polynomial lies in the open left half plane. -/
theorem prototype_P_hurwitz (u : ℂ) (h : prototype_P u = 0) : u.re < 0 := by
  have hc : prototype_P ((starRingEnd ℂ) u) = 0 := by rw [conj_prototype_P, h, map_zero]
  have hm : prototype_P (-(starRingEnd ℂ) u) = (starRingEnd ℂ) (prototype_P (-u)) := by
    rw [← conj_prototype_P, map_neg]
  have e4 : (starRingEnd ℂ) u ^ 4 + (3443183826211816 / 1905350602674639) * (starRingEnd ℂ) u ^ 2 + (500000000000000 / 1905350602674639) =
      (starRingEnd ℂ) (u ^ 4 + (3443183826211816 / 1905350602674639) * u ^ 2 + (500000000000000 / 1905350602674639)) := by
    simp only [map_add, map_mul, map_pow, map_div₀, map_ofNat]
  have e3 : (starRingEnd ℂ) u ^ 3 + (7000000000000001323413606837928 /
          9468755522082495376196870574569) * (starRingEnd ℂ) u =
      (starRingEnd ℂ) (u ^ 3 + (7000000000000001323413606837928 /
          9468755522082495376196870574569) * u) := by
    simp only [map_add, map_mul, map_pow, map_div₀, map_ofNat]
  have e2 : (starRingEnd ℂ) u ^ 2 + (295898610065077980506152205455281250000000000 /
          1204075728079112019696210163644497532651749957) =
      (starRingEnd ℂ) (u ^ 2 + (295898610065077980506152205455281250000000000 /
          1204075728079112019696210163644497532651749957)) := by
    simp only [map_add, map_mul, map_pow, map_div₀, map_ofNat]
  have key := prototype_P_bezout u ((starRingEnd ℂ) u)
  rw [h, hc, hm, zero_mul, zero_sub, e4, e3, e2, Complex.mul_conj, Complex.mul_conj,
    Complex.mul_conj, Complex.mul_conj, Complex.mul_conj, Complex.add_conj] at key
  have keyR : -Complex.normSq (prototype_P (-u)) =
      2 * u.re *
        ((1905350602674639 / 250000000000000) * Complex.normSq (u ^ 4 + (3443183826211816 / 1905350602674639) * u ^ 2 + (500000000000000 / 1905350602674639)) +
          (9468755522082495376196870574569 /
          250000000000000000000000000000) * Complex.normSq (u ^ 3 + (7000000000000001323413606837928 /
          9468755522082495376196870574569) * u) +
          (1204075728079112019696210163644497532651749957 /
          29771103166791234375000000000000000000000000) * Complex.normSq (u ^ 2 + (295898610065077980506152205455281250000000000 /
          1204075728079112019696210163644497532651749957)) +
          (369140625000000017060966772428385021869821196261577162934983 /
          18493663129067373781634512840955078125000000000000000000000) * Complex.normSq u +
          (369140625000000017060966772428385021869821196261577162934983 /
          75254733004944501231013135227781095790734372312500000000000)) := by
    apply Complex.ofReal_injective
    simp only [Complex.ofReal_neg, Complex.ofReal_mul, Complex.ofReal_add, Complex.ofReal_div,
      Complex.ofReal_ofNat] at key ⊢
    exact key
  have h4 := Complex.normSq_nonneg (u ^ 4 + (3443183826211816 / 1905350602674639) * u ^ 2 + (500000000000000 / 1905350602674639))
  have h3 := Complex.normSq_nonneg (u ^ 3 + (7000000000000001323413606837928 /
          9468755522082495376196870574569) * u)
  have h2 := Complex.normSq_nonneg (u ^ 2 + (295898610065077980506152205455281250000000000 /
          1204075728079112019696210163644497532651749957))
  have h1 := Complex.normSq_nonneg u
  have h0 := Complex.normSq_nonneg (prototype_P (-u))
  have hS : 0 < (1905350602674639 / 250000000000000) * Complex.normSq (u ^ 4 + (3443183826211816 / 1905350602674639) * u ^ 2 + (500000000000000 / 1905350602674639)) +
          (9468755522082495376196870574569 /
          250000000000000000000000000000) * Complex.normSq (u ^ 3 + (7000000000000001323413606837928 /
          9468755522082495376196870574569) * u) +
          (1204075728079112019696210163644497532651749957 /
          29771103166791234375000000000000000000000000) * Complex.normSq (u ^ 2 + (295898610065077980506152205455281250000000000 /
          1204075728079112019696210163644497532651749957)) +
          (369140625000000017060966772428385021869821196261577162934983 /
          18493663129067373781634512840955078125000000000000000000000) * Complex.normSq u +
          (369140625000000017060966772428385021869821196261577162934983 /
          75254733004944501231013135227781095790734372312500000000000) := by
    positivity
  rcases lt_trichotomy u.re 0 with hlt | heq | hgt
  · exact hlt
  · exact absurd h (prototype_P_ne_zero_of_re_eq_zero u heq)
  · have hpos := mul_pos (mul_pos two_pos hgt) hS
    linarith

/-- The pre-expanded bilinear transform in the variable `z`, with the prototype constants
kept symbolic. -/
theorem bilinear_expansion_z {K : Type} [Field K] (c1 c2 c3 c4 f w z : K) (hz : z + 1 ≠ 0) :
    (1 + c4 / w ^ 1 * 2 * f + c3 / w ^ 2 * 4 * f ^ 2 + c2 / w ^ 3 * 8 * f ^ 3 +
        c1 / w ^ 4 * 16 * f ^ 4 + 1 / w ^ 5 * 32 * f ^ 5) * z ^ 5 +
      (5 + 6 * (c4 / w ^ 1) * f + 4 * (c3 / w ^ 2) * f ^ 2 - c2 / w ^ 3 * 8 * f ^ 3
        - 48 * (c1 / w ^ 4) * f ^ 4 - 160 * (1 / w ^ 5) * f ^ 5) * z ^ 4 +
      (10 + 4 * (c4 / w ^ 1) * f - 8 * (c3 / w ^ 2) * f ^ 2 - 16 * (c2 / w ^ 3) * f ^ 3
        + 32 * (c1 / w ^ 4) * f ^ 4 + 320 * (1 / w ^ 5) * f ^ 5) * z ^ 3 +
      (10 - 4 * (c4 / w ^ 1) * f - 8 * (c3 / w ^ 2) * f ^ 2 + 16 * (c2 / w ^ 3) * f ^ 3
        + 32 * (c1 / w ^ 4) * f ^ 4 - 320 * (1 / w ^ 5) * f ^ 5) * z ^ 2 +
      (5 - 6 * (c4 / w ^ 1) * f + 4 * (c3 / w ^ 2) * f ^ 2 + 8 * (c2 / w ^ 3) * f ^ 3
        - 48 * (c1 / w ^ 4) * f ^ 4 + 160 * (1 / w ^ 5) * f ^ 5) * z +
      (1 - 2 * (c4 / w ^ 1) * f + 4 * (c3 / w ^ 2) * f ^ 2 - 8 * (c2 / w ^ 3) * f ^ 3
        + 16 * (c1 / w ^ 4) * f ^ 4 - 32 * (1 / w ^ 5) * f ^ 5) =
      (z + 1) ^ 5 * ((2 * f * (z - 1) / ((z + 1) * w)) ^ 5 +
        c1 * (2 * f * (z - 1) / ((z + 1) * w)) ^ 4 + c2 * (2 * f * (z - 1) / ((z + 1) * w)) ^ 3 +
        c3 * (2 * f * (z - 1) / ((z + 1) * w)) ^ 2 + c4 * (2 * f * (z - 1) / ((z + 1) * w)) + 1) := by
  have hp : (z + 1) * (z + 1)⁻¹ = 1 := mul_inv_cancel₀ hz
  have h1 : (z + 1) ^ 1 * (z + 1)⁻¹ ^ 1 = 1 := by rw [← mul_pow, hp, one_pow]
  have h2 : (z + 1) ^ 2 * (z + 1)⁻¹ ^ 2 = 1 := by rw [← mul_pow, hp, one_pow]
  have h3 : (z + 1) ^ 3 * (z + 1)⁻¹ ^ 3 = 1 := by rw [← mul_pow, hp, one_pow]
  have h4 : (z + 1) ^ 4 * (z + 1)⁻¹ ^ 4 = 1 := by rw [← mul_pow, hp, one_pow]
  have h5 : (z + 1) ^ 5 * (z + 1)⁻¹ ^ 5 = 1 := by rw [← mul_pow, hp, one_pow]
  have hu : 2 * f * (z - 1) / ((z + 1) * w) = 2 * f * (z - 1) * w⁻¹ * (z + 1)⁻¹ := by
    rw [div_eq_mul_inv, mul_inv]
    ring
  rw [hu]
  linear_combination
    (-(2 * f * (z - 1) * w⁻¹) ^ 5) * h5 - c1 * (2 * f * (z - 1) * w⁻¹) ^ 4 * (z + 1) * h4
      - c2 * (2 * f * (z - 1) * w⁻¹) ^ 3 * (z + 1) ^ 2 * h3
      - c3 * (2 * f * (z - 1) * w⁻¹) ^ 2 * (z + 1) ^ 3 * h2
      - c4 * (2 * f * (z - 1) * w⁻¹) * (z + 1) ^ 4 * h1

/-- Clearing the common denominator of a monic polynomial equation. -/
theorem clear_denominator {K : Type} [Field K] (N n1 n2 n3 n4 n5 z : K) (hN : N ≠ 0)
    (h : z ^ 5 + n1 / N * z ^ 4 + n2 / N * z ^ 3 + n3 / N * z ^ 2 + n4 / N * z + n5 / N = 0) :
    N * z ^ 5 + n1 * z ^ 4 + n2 * z ^ 3 + n3 * z ^ 2 + n4 * z + n5 = 0 := by
  have e : N * z ^ 5 + n1 * z ^ 4 + n2 * z ^ 3 + n3 * z ^ 2 + n4 * z + n5 =
      N * (z ^ 5 + n1 / N * z ^ 4 + n2 / N * z ^ 3 + n3 / N * z ^ 2 + n4 / N * z + n5 / N) := by
    field_simp
    ring
  rw [e, h, mul_zero]

/-- A point whose bilinear image has negative real part lies inside the unit circle. -/
theorem abs_lt_one_of_bilinear_re_neg (r : ℝ) (z : ℂ) (hr : 0 < r) (hz : z + 1 ≠ 0)
    (h : ((r : ℂ) * ((z - 1) / (z + 1))).re < 0) : Complex.abs z < 1 := by
  rw [Complex.re_ofReal_mul, Complex.div_re] at h
  have hn : 0 < Complex.normSq (z + 1) := Complex.normSq_pos.mpr hz
  have h2 : (z - 1).re * (z + 1).re / Complex.normSq (z + 1) +
      (z - 1).im * (z + 1).im / Complex.normSq (z + 1) < 0 := by
    by_contra hc
    push_neg at hc
    have := mul_nonneg (le_of_lt hr) hc
    linarith
  rw [← add_div, div_lt_iff₀ hn, zero_mul] at h2
  simp only [Complex.sub_re, Complex.add_re, Complex.one_re, Complex.sub_im, Complex.add_im,
    Complex.one_im, sub_zero, add_zero] at h2
  have h3 : Complex.normSq z < 1 := by
    rw [Complex.normSq_apply]
    nlinarith
  have h4 : Complex.abs z ^ 2 < 1 := by rw [Complex.sq_abs]; exact h3
  have h5 : 0 ≤ Complex.abs z := Complex.abs.nonneg z
  by_contra hc
  push_neg at hc
  nlinarith

/-- The formulas of `coefficients_calculating` in exact real arithmetic give a stable
filter: for `f_s > 0` and cutoff angular frequency `w_c > 0`, every complex root `z` of
`z^5 + a[1] z^4 + a[2] z^3 + a[3] z^2 + a[4] z + a[5]` satisfies `|z| < 1`.  This is a
statement about the formulas, not about the values the program stores: see
`unstable_root_in_float`. -/
theorem discrete_filter_stable (S : BesselFilterLP5Order ℝ) (hf : 0 < S.f_s)
    (hw : 0 < S.cutoff_freq) (z : ℂ)
    (hz : z ^ 5 + ((coefficients_calculating S).a 1 : ℂ) * z ^ 4 +
      ((coefficients_calculating S).a 2 : ℂ) * z ^ 3 +
      ((coefficients_calculating S).a 3 : ℂ) * z ^ 2 +
      ((coefficients_calculating S).a 4 : ℂ) * z + ((coefficients_calculating S).a 5 : ℂ) = 0) :
    Complex.abs z < 1 := by
  have hN : ((a_0 S.f_s S.cutoff_freq : ℝ) : ℂ) ≠ 0 := by
    exact_mod_cast a_0_ne_zero _ _ hf hw
  have hfc : (S.f_s : ℂ) ≠ 0 := by exact_mod_cast (ne_of_gt hf)
  have hwc : (S.cutoff_freq : ℂ) ≠ 0 := by exact_mod_cast (ne_of_gt hw)
  rw [coefficients_calculating_a] at hz
  simp only [Matrix.cons_val_one, Matrix.head_cons, Matrix.cons_val_two, Matrix.tail_cons,
    Matrix.cons_val_three, Matrix.cons_val_four, vec6_five] at hz
  push_cast at hz
  have hclear := clear_denominator _ _ _ _ _ _ z hN hz
  simp only [a_0, tmp_a_zero, tmp_a_one, tmp_a_two, tmp_a_three, tmp_a_four] at hclear
  push_cast at hclear
  have hc0 : ((1.0 : ℝ) : ℂ) = 1 := by norm_num
  have hc1 : ((3.810701205349278 : ℝ) : ℂ) = 3.810701205349278 := by norm_num
  have hc2 : ((6.776673715676871 : ℝ) : ℂ) = 6.776673715676871 := by norm_num
  have hc3 : ((6.886367652423632 : ℝ) : ℂ) = 6.886367652423632 := by norm_num
  have hc4 : ((3.936283427035352 : ℝ) : ℂ) = 3.936283427035352 := by norm_num
  rw [hc0, hc1, hc2, hc3, hc4] at hclear
  have hz1 : z + 1 ≠ 0 := by
    intro h
    have hz2 : z = -1 := by linear_combination h
    rw [hz2] at hclear
    have h0 : (1024 : ℂ) * (1 / (S.cutoff_freq : ℂ) ^ 5) * (S.f_s : ℂ) ^ 5 = 0 := by
      linear_combination -hclear
    have h1 : (1024 : ℂ) * (1 / (S.cutoff_freq : ℂ) ^ 5) * (S.f_s : ℂ) ^ 5 ≠ 0 :=
      mul_ne_zero (mul_ne_zero (by norm_num) (one_div_ne_zero (pow_ne_zero 5 hwc)))
        (pow_ne_zero 5 hfc)
    exact h1 h0
  have hexp := bilinear_expansion_z (3.810701205349278 : ℂ) 6.776673715676871
    6.886367652423632 3.936283427035352 (S.f_s : ℂ) (S.cutoff_freq : ℂ) z hz1
  have hP : prototype_P (2 * (S.f_s : ℂ) * (z - 1) / ((z + 1) * (S.cutoff_freq : ℂ))) = 0 := by
    have h0 : (z + 1) ^ 5 *
        prototype_P (2 * (S.f_s : ℂ) * (z - 1) / ((z + 1) * (S.cutoff_freq : ℂ))) = 0 := by
      unfold prototype_P
      rw [← hexp]
      exact hclear
    exact (mul_eq_zero.mp h0).resolve_left (pow_ne_zero 5 hz1)
  have hre := prototype_P_hurwitz _ hP
  have hU : 2 * (S.f_s : ℂ) * (z - 1) / ((z + 1) * (S.cutoff_freq : ℂ)) =
      ((2 * S.f_s / S.cutoff_freq : ℝ) : ℂ) * ((z - 1) / (z + 1)) := by
    push_cast
    rw [div_mul_div_comm, mul_comm (z + 1)]
  rw [hU] at hre
  exact abs_lt_one_of_bilinear_re_neg (2 * S.f_s / S.cutoff_freq) z (by positivity) hz1 hre

/-! ### Rounding to a binary format -/

theorem forceNat_eq {α : Type} (n : ℕ) (k : ℕ → α) : forceNat n k = k n := by
  cases n <;> rfl

theorem mkQ_eq (z : ℤ) (d : ℕ) : mkQ z d = (z : ℚ) / (d : ℚ) := by
  unfold mkQ
  split_ifs with h
  · show Rat.mk' z d h.1 h.2 = _
    rw [Rat.mk'_eq_divInt, Rat.divInt_eq_div]
    push_cast
    rfl
  · rfl

theorem pow2_eq (e : ℤ) : pow2 e = (2 : ℚ) ^ e := by
  unfold pow2
  split_ifs with h
  · obtain ⟨n, rfl⟩ := Int.eq_ofNat_of_zero_le h
    simp
  · push_neg at h
    obtain ⟨n, hn⟩ := Int.exists_eq_neg_ofNat (le_of_lt h)
    subst hn
    simp

theorem pow2_pos (e : ℤ) : 0 < pow2 e := by
  rw [pow2_eq]
  positivity

theorem scaled_eq (neg : Bool) (c : ℕ) (g : ℤ) :
    scaled neg c g = (if neg then -1 else 1) * (c : ℚ) * pow2 g := by
  by_cases hg : 0 ≤ g
  · simp only [scaled, if_pos hg, forceNat_eq, mkQ_eq, pow2]
    cases neg <;> simp
  · simp only [scaled, if_neg hg, forceNat_eq, mkQ_eq, pow2]
    have hpos : 0 < Nat.gcd c (2 ^ (-g).toNat) :=
      Nat.gcd_pos_of_pos_right _ (by positivity)
    have h1 : Nat.gcd c (2 ^ (-g).toNat) ∣ c := Nat.gcd_dvd_left _ _
    have h2 : Nat.gcd c (2 ^ (-g).toNat) ∣ 2 ^ (-g).toNat := Nat.gcd_dvd_right _ _
    have hne : ((Nat.gcd c (2 ^ (-g).toNat) : ℕ) : ℚ) ≠ 0 := by exact_mod_cast hpos.ne'
    have e1 : ((c / Nat.gcd c (2 ^ (-g).toNat) : ℕ) : ℚ) =
        (c : ℚ) / (Nat.gcd c (2 ^ (-g).toNat) : ℕ) := Nat.cast_div h1 hne
    have e2 : ((2 ^ (-g).toNat / Nat.gcd c (2 ^ (-g).toNat) : ℕ) : ℚ) =
        ((2 ^ (-g).toNat : ℕ) : ℚ) / (Nat.gcd c (2 ^ (-g).toNat) : ℕ) := Nat.cast_div h2 hne
    have h2' : ((2 ^ (-g).toNat : ℕ) : ℚ) ≠ 0 := by positivity
    cases neg
    · simp only [Bool.false_eq_true, if_false, Int.cast_natCast, e1, e2]
      field_simp
    · simp only [if_true, Int.cast_neg, Int.cast_natCast, e1, e2]
      field_simp
      ring

theorem pow2_add (a b : ℤ) : pow2 (a + b) = pow2 a * pow2 b := by
  rw [pow2_eq, pow2_eq, pow2_eq, zpow_add₀ (by norm_num)]

theorem pow2_le_pow2 {a b : ℤ} (h : a ≤ b) : pow2 a ≤ pow2 b := by
  rw [pow2_eq, pow2_eq]
  exact zpow_le_zpow_right₀ (by norm_num) h

theorem pow2_natCast (k : ℕ) : pow2 (k : ℤ) = ((2 ^ k : ℕ) : ℚ) := by
  rw [pow2_eq]
  simp

theorem pow2Le_iff (e : ℤ) (n d : ℕ) (hd : 0 < d) :
    pow2Le e n d = true ↔ pow2 e ≤ (n : ℚ) / (d : ℚ) := by
  have hd' : (0 : ℚ) < d := by exact_mod_cast hd
  by_cases he : 0 ≤ e
  · simp only [pow2Le, pow2, if_pos he, decide_eq_true_eq]
    rw [le_div_iff₀ hd']
    constructor
    · intro h
      have : ((d * 2 ^ e.toNat : ℕ) : ℚ) ≤ (n : ℚ) := by exact_mod_cast h
      push_cast at this ⊢
      linarith
    · intro h
      have : ((d * 2 ^ e.toNat : ℕ) : ℚ) ≤ (n : ℚ) := by
        push_cast at h ⊢
        linarith
      exact_mod_cast this
  · simp only [pow2Le, pow2, if_neg he, decide_eq_true_eq]
    have hp : (0 : ℚ) < ((2 ^ (-e).toNat : ℕ) : ℚ) := by positivity
    rw [div_le_div_iff hp hd']
    constructor
    · intro h
      have : ((d : ℕ) : ℚ) ≤ ((n * 2 ^ (-e).toNat : ℕ) : ℚ) := by exact_mod_cast h
      push_cast at this ⊢
      linarith
    · intro h
      have : ((d : ℕ) : ℚ) ≤ ((n * 2 ^ (-e).toNat : ℕ) : ℚ) := by
        push_cast at h ⊢
        linarith
      exact_mod_cast this

theorem ilog2Aux_spec (n d : ℕ) (hd : 0 < d) (L : ℤ) :
    ∀ (fuel : ℕ) (lo hi : ℤ), (pow2 lo ≤ (n : ℚ) / (d : ℚ) ∨ lo = L) →
      (pow2 (ilog2Aux n d fuel lo hi) ≤ (n : ℚ) / (d : ℚ) ∨ ilog2Aux n d fuel lo hi = L) := by
  intro fuel
  induction fuel with
  | zero => intro lo hi h; exact h
  | succ f ih =>
    intro lo hi h
    by_cases hm : pow2Le ((lo + hi) / 2) n d = true
    · simp only [ilog2Aux, hm, if_true]
      exact ih _ _ (Or.inl ((pow2Le_iff _ n d hd).mp hm))
    · simp only [ilog2Aux, hm]
      exact ih _ _ h

theorem ilog2_spec (F : Format) (n d : ℕ) (hd : 0 < d) :
    pow2 (ilog2 F n d) ≤ (n : ℚ) / (d : ℚ) ∨ ilog2 F n d = -(2 * (F.emax + 1)) :=
  ilog2Aux_spec n d hd _ 13 _ _ (Or.inr rfl)

theorem le_roundNat (N D X : ℕ) (hD : 0 < D) (h : X * D ≤ N) : X ≤ roundNat N D := by
  have h1 : X ≤ N / D := (Nat.le_div_iff_mul_le hD).mpr h
  unfold roundNat
  split_ifs <;> omega

theorem le_quanta (g : ℤ) (n d X : ℕ) (hd : 0 < d)
    (h : (X : ℚ) * pow2 g ≤ (n : ℚ) / (d : ℚ)) : X ≤ quanta g n d := by
  have hd' : (0 : ℚ) < d := by exact_mod_cast hd
  by_cases hg : 0 ≤ g
  · simp only [quanta, if_pos hg]
    apply le_roundNat _ _ _ (by positivity)
    simp only [pow2, if_pos hg] at h
    rw [le_div_iff₀ hd'] at h
    have : ((X * (d * 2 ^ g.toNat) : ℕ) : ℚ) ≤ (n : ℚ) := by
      push_cast at h ⊢
      linarith
    exact_mod_cast this
  · simp only [quanta, if_neg hg]
    apply le_roundNat _ _ _ hd
    simp only [pow2, if_neg hg] at h
    have hp : (0 : ℚ) < ((2 ^ (-g).toNat : ℕ) : ℚ) := by positivity
    rw [mul_one_div, div_le_div_iff hp hd'] at h
    have : ((X * d : ℕ) : ℚ) ≤ ((n * 2 ^ (-g).toNat : ℕ) : ℚ) := by
      push_cast at h ⊢
      linarith
    exact_mod_cast this

theorem roundTo_of_pos (F : Format) (q : ℚ) (hq : 0 < q) :
    roundTo F q = roundParts F false
      (quanta (quantum F q.num.natAbs q.den) q.num.natAbs q.den)
      (quantum F q.num.natAbs q.den) := by
  have hn : 0 < q.num := Rat.num_pos.mpr hq
  have hn' : q.num.natAbs ≠ 0 := by omega
  have hneg : decide (q.num < 0) = false := by
    rw [decide_eq_false_iff_not]
    omega
  simp only [roundTo, forceNat_eq, if_neg hn', hneg]

theorem num_natAbs_div_den (q : ℚ) (hq : 0 < q) : (q.num.natAbs : ℚ) / (q.den : ℚ) = q := by
  have hn : 0 < q.num := Rat.num_pos.mpr hq
  have e : ((q.num.natAbs : ℕ) : ℚ) = ((q.num : ℤ) : ℚ) := by
    rw [Nat.cast_natAbs, abs_of_pos hn]
  rw [e, Rat.num_div_den]

/-- The three possible results of rounding a non-zero magnitude. -/
theorem roundParts_cases (F : Format) (neg : Bool) (c : ℕ) (g : ℤ) :
    roundParts F neg c g = FloatVal.inf neg ∨
      (c = 0 ∧ roundParts F neg c g = FloatVal.zero neg) ∨
      (c ≠ 0 ∧ roundParts F neg c g = FloatVal.fin (scaled neg c g)) := by
  unfold roundParts
  split_ifs with h1 h2
  · exact Or.inl rfl
  · exact Or.inr (Or.inl ⟨h2, rfl⟩)
  · exact Or.inr (Or.inr ⟨h2, rfl⟩)

/-- Rounding a positive rational gives `+inf`, `+0` or a positive finite value. -/
theorem roundTo_pos_cases (F : Format) (q : ℚ) (hq : 0 < q) :
    roundTo F q = FloatVal.inf false ∨ roundTo F q = FloatVal.zero false ∨
      ∃ v : ℚ, 0 < v ∧ roundTo F q = FloatVal.fin v := by
  rw [roundTo_of_pos F q hq]
  rcases roundParts_cases F false _ (quantum F q.num.natAbs q.den) with h | ⟨_, h⟩ | ⟨hc, h⟩
  · exact Or.inl h
  · exact Or.inr (Or.inl h)
  · refine Or.inr (Or.inr ⟨_, ?_, h⟩)
    rw [scaled_eq]
    have : (0 : ℚ) < (quanta (quantum F q.num.natAbs q.den) q.num.natAbs q.den : ℕ) := by
      exact_mod_cast Nat.pos_of_ne_zero hc
    have := pow2_pos (quantum F q.num.natAbs q.den)
    simp only [Bool.false_eq_true, if_false, one_mul]
    positivity

/-- Rounding never falls below a power of two that the format holds: a rational at least
`2 ^ k`, with `k` not below the exponent of the least subnormal, rounds to `+inf` or to a
finite value at least `2 ^ k`. -/
theorem roundTo_ge_pow2 (F : Format) (q : ℚ) (k : ℤ) (hq : pow2 k ≤ q)
    (hk : F.emin - ((F.prec : ℤ) - 1) ≤ k) (hF : -(2 * (F.emax + 1)) ≤ F.emin)
    (hp : 1 ≤ F.prec) :
    roundTo F q = FloatVal.inf false ∨ ∃ v : ℚ, pow2 k ≤ v ∧ roundTo F q = FloatVal.fin v := by
  have hq0 : 0 < q := lt_of_lt_of_le (pow2_pos k) hq
  have hd : 0 < q.den := q.den_pos
  have hnd := num_natAbs_div_den q hq0
  -- an exponent `t` between the quantum and the magnitude
  have ht : ∃ t : ℤ, quantum F q.num.natAbs q.den ≤ t ∧ pow2 t ≤ q ∧ pow2 k ≤ pow2 t := by
    by_cases hgk : quantum F q.num.natAbs q.den ≤ k
    · exact ⟨k, hgk, hq, le_refl _⟩
    · push_neg at hgk
      have hp' : (1 : ℤ) ≤ (F.prec : ℤ) := by exact_mod_cast hp
      have hl : F.emin < ilog2 F q.num.natAbs q.den := by
        by_contra hcon
        push_neg at hcon
        have : quantum F q.num.natAbs q.den = F.emin - ((F.prec : ℤ) - 1) := by
          unfold quantum
          rw [max_eq_right hcon]
        omega
      have hg : quantum F q.num.natAbs q.den = ilog2 F q.num.natAbs q.den - ((F.prec : ℤ) - 1) := by
        unfold quantum
        rw [max_eq_left (le_of_lt hl)]
      rcases ilog2_spec F q.num.natAbs q.den hd with h | h
      · rw [hnd] at h
        exact ⟨ilog2 F q.num.natAbs q.den, by omega, h, pow2_le_pow2 (by omega)⟩
      · omega
  obtain ⟨t, hgt, htq, hkt⟩ := ht
  obtain ⟨j, hj⟩ := Int.eq_ofNat_of_zero_le (sub_nonneg.mpr hgt)
  have hX : ((2 ^ j : ℕ) : ℚ) * pow2 (quantum F q.num.natAbs q.den) = pow2 t := by
    rw [← pow2_natCast, ← pow2_add, ← hj]
    congr 1
    ring
  have hle : 2 ^ j ≤ quanta (quantum F q.num.natAbs q.den) q.num.natAbs q.den := by
    apply le_quanta _ _ _ _ hd
    rw [hX, hnd]
    exact htq
  rw [roundTo_of_pos F q hq0]
  rcases roundParts_cases F false _ (quantum F q.num.natAbs q.den) with h | ⟨hc, _⟩ | ⟨_, h⟩
  · exact Or.inl h
  · exfalso
    have : 0 < 2 ^ j := by positivity
    omega
  · refine Or.inr ⟨_, ?_, h⟩
    rw [scaled_eq]
    simp only [Bool.false_eq_true, if_false, one_mul]
    have h1 : ((2 ^ j : ℕ) : ℚ) ≤
        (quanta (quantum F q.num.natAbs q.den) q.num.natAbs q.den : ℕ) := by exact_mod_cast hle
    calc pow2 k ≤ pow2 t := hkt
      _ = ((2 ^ j : ℕ) : ℚ) * pow2 (quantum F q.num.natAbs q.den) := hX.symm
      _ ≤ _ := mul_le_mul_of_nonneg_right h1 (le_of_lt (pow2_pos _))

theorem roundNat_le (N D Y : ℕ) (hD : 0 < D) (h : N ≤ Y * D) : roundNat N D ≤ Y := by
  have h1 : N / D ≤ Y := by
    have := Nat.div_le_div_right (c := D) h
    rwa [Nat.mul_div_cancel _ hD] at this
  have h3 := Nat.div_add_mod N D
  have h4 := Nat.mod_lt N hD
  unfold roundNat
  split_ifs with hc
  · by_contra hcon
    have h5 : N / D = Y := by omega
    have h6 : D * (N / D) = Y * D := by rw [h5, Nat.mul_comm]
    have h7 : N % D = 0 := by omega
    rcases hc with hc | ⟨hc, _⟩ <;> omega
  · exact h1

theorem quanta_le (g : ℤ) (n d Y : ℕ) (hd : 0 < d)
    (h : (n : ℚ) / (d : ℚ) ≤ (Y : ℚ) * pow2 g) : quanta g n d ≤ Y := by
  have hd' : (0 : ℚ) < d := by exact_mod_cast hd
  by_cases hg : 0 ≤ g
  · simp only [quanta, if_pos hg]
    apply roundNat_le _ _ _ (by positivity)
    simp only [pow2, if_pos hg] at h
    rw [div_le_iff₀ hd'] at h
    have : ((n : ℕ) : ℚ) ≤ ((Y * (d * 2 ^ g.toNat) : ℕ) : ℚ) := by
      push_cast at h ⊢
      linarith
    exact_mod_cast this
  · simp only [quanta, if_neg hg]
    apply roundNat_le _ _ _ hd
    simp only [pow2, if_neg hg] at h
    have hp : (0 : ℚ) < ((2 ^ (-g).toNat : ℕ) : ℚ) := by positivity
    rw [mul_one_div, div_le_div_iff hd' hp] at h
    have : ((n * 2 ^ (-g).toNat : ℕ) : ℚ) ≤ ((Y * d : ℕ) : ℚ) := by
      push_cast at h ⊢
      linarith
    exact_mod_cast this

/-- Rounding never rises above a power of two that the format holds. -/
theorem roundTo_le_pow2 (F : Format) (q : ℚ) (k : ℤ) (hq0 : 0 < q) (hq : q ≤ pow2 k)
    (hk : F.emin - ((F.prec : ℤ) - 1) ≤ k) (hF : -(2 * (F.emax + 1)) ≤ F.emin)
    (hp : 1 ≤ F.prec) (hmax : k ≤ F.emax) :
    roundTo F q = FloatVal.zero false ∨
      ∃ v : ℚ, 0 < v ∧ v ≤ pow2 k ∧ roundTo F q = FloatVal.fin v := by
  have hd : 0 < q.den := q.den_pos
  have hnd := num_natAbs_div_den q hq0
  have hp' : (1 : ℤ) ≤ (F.prec : ℤ) := by exact_mod_cast hp
  have hgk : quantum F q.num.natAbs q.den ≤ k := by
    by_cases hl : ilog2 F q.num.natAbs q.den ≤ F.emin
    · unfold quantum
      rw [max_eq_right hl]
      exact hk
    · push_neg at hl
      have hg : quantum F q.num.natAbs q.den =
          ilog2 F q.num.natAbs q.den - ((F.prec : ℤ) - 1) := by
        unfold quantum
        rw [max_eq_left (le_of_lt hl)]
      rcases ilog2_spec F q.num.natAbs q.den hd with h | h
      · rw [hnd] at h
        have h2 : pow2 (ilog2 F q.num.natAbs q.den) ≤ pow2 k := le_trans h hq
        have h3 : ilog2 F q.num.natAbs q.den ≤ k := by
          by_contra hcon
          push_neg at hcon
          have h4 : pow2 (k + 1) ≤ pow2 (ilog2 F q.num.natAbs q.den) := pow2_le_pow2 (by omega)
          have h5 : pow2 k < pow2 (k + 1) := by
            rw [pow2_add]
            have := pow2_pos k
            have e : pow2 1 = 2 := by rw [pow2_eq]; norm_num
            rw [e]
            linarith
          linarith
        omega
      · omega
  obtain ⟨j, hj⟩ := Int.eq_ofNat_of_zero_le (sub_nonneg.mpr hgk)
  have hX : ((2 ^ j : ℕ) : ℚ) * pow2 (quantum F q.num.natAbs q.den) = pow2 k := by
    rw [← pow2_natCast, ← pow2_add, ← hj]
    congr 1
    ring
  have hle : quanta (quantum F q.num.natAbs q.den) q.num.natAbs q.den ≤ 2 ^ j := by
    apply quanta_le _ _ _ _ hd
    rw [hX, hnd]
    exact hq
  have hv : ((quanta (quantum F q.num.natAbs q.den) q.num.natAbs q.den : ℕ) : ℚ) *
      pow2 (quantum F q.num.natAbs q.den) ≤ pow2 k := by
    rw [← hX]
    have h1 : ((quanta (quantum F q.num.natAbs q.den) q.num.natAbs q.den : ℕ) : ℚ) ≤
        ((2 ^ j : ℕ) : ℚ) := by exact_mod_cast hle
    exact mul_le_mul_of_nonneg_right h1 (le_of_lt (pow2_pos _))
  rw [roundTo_of_pos F q hq0]
  rcases roundParts_cases F false _ (quantum F q.num.natAbs q.den) with h | ⟨_, h⟩ | ⟨hc, h⟩
  · -- no overflow: the rounded magnitude is at most `2 ^ k ≤ 2 ^ emax`
    exfalso
    unfold roundParts at h
    split_ifs at h with h1
    have h2 := (pow2Le_iff _ _ 1 Nat.one_pos).mp h1
    have h3 : pow2 (F.emax + 1) ≤
        ((quanta (quantum F q.num.natAbs q.den) q.num.natAbs q.den : ℕ) : ℚ) *
          pow2 (quantum F q.num.natAbs q.den) := by
      have e : pow2 (F.emax + 1) =
          pow2 (F.emax + 1 - quantum F q.num.natAbs q.den) *
            pow2 (quantum F q.num.natAbs q.den) := by
        rw [← pow2_add]
        congr 1
        ring
      rw [e]
      apply mul_le_mul_of_nonneg_right _ (le_of_lt (pow2_pos _))
      simpa using h2
    have h4 : pow2 k < pow2 (F.emax + 1) := by
      have h5 : pow2 (k + 1) ≤ pow2 (F.emax + 1) := pow2_le_pow2 (by omega)
      have h6 : pow2 k < pow2 (k + 1) := by
        rw [pow2_add]
        have := pow2_pos k
        have e : pow2 1 = 2 := by rw [pow2_eq]; norm_num
        rw [e]
        linarith
      linarith
    linarith
  · exact Or.inl h
  · refine Or.inr ⟨_, ?_, ?_, h⟩
    · rw [scaled_eq]
      have : (0 : ℚ) < (quanta (quantum F q.num.natAbs q.den) q.num.natAbs q.den : ℕ) := by
        exact_mod_cast Nat.pos_of_ne_zero hc
      have := pow2_pos (quantum F q.num.natAbs q.den)
      simp only [Bool.false_eq_true, if_false, one_mul]
      positivity
    · rw [scaled_eq]
      simp only [Bool.false_eq_true, if_false, one_mul]
      exact hv

/-! ### Signs and lower bounds of the operations -/

theorem roundTo_nonNegOrNaN (F : Format) (q : ℚ) (hq : 0 < q) :
    (roundTo F q).NonNegOrNaN := by
  rcases roundTo_pos_cases F q hq with h | h | ⟨v, hv, h⟩
  · exact Or.inr (Or.inl h)
  · exact Or.inr (Or.inr (Or.inl h))
  · exact Or.inr (Or.inr (Or.inr ⟨v, hv, h⟩))

theorem roundTo_atLeast (F : Format) (q : ℚ) (k : ℤ) (hq : pow2 k ≤ q)
    (hk : F.emin - ((F.prec : ℤ) - 1) ≤ k) (hF : -(2 * (F.emax + 1)) ≤ F.emin)
    (hp : 1 ≤ F.prec) : (roundTo F q).AtLeast k :=
  roundTo_ge_pow2 F q k hq hk hF hp

theorem atLeast_nonNegOrNaN {k : ℤ} {x : FloatVal} (h : x.AtLeast k) :
    x.NonNegOrNaN := by
  rcases h with h | ⟨v, hv, h⟩
  · exact Or.inr (Or.inl h)
  · exact Or.inr (Or.inr (Or.inr ⟨v, lt_of_lt_of_le (pow2_pos k) hv, h⟩))

theorem atLeast_not_isZero {k : ℤ} {x : FloatVal} (h : x.AtLeast k) : x.isZero = false := by
  rcases h with h | ⟨v, _, h⟩ <;> rw [h] <;> rfl

theorem mul_nonNegOrNaN (F : Format) {x y : FloatVal} (hx : x.NonNegOrNaN)
    (hy : y.NonNegOrNaN) : (FloatVal.mul F x y).NonNegOrNaN := by
  rcases hx with rfl | rfl | rfl | ⟨p, hp, rfl⟩ <;>
    rcases hy with rfl | rfl | rfl | ⟨q, hq, rfl⟩
  all_goals first
    | exact Or.inl rfl
    | exact Or.inr (Or.inl rfl)
    | exact Or.inr (Or.inr (Or.inl rfl))
    | skip
  · exact Or.inr (Or.inl (by simp [FloatVal.mul, FloatVal.sign, not_lt.mpr (le_of_lt hq)]))
  · exact Or.inr (Or.inr (Or.inl (by simp [FloatVal.mul, FloatVal.sign, not_lt.mpr (le_of_lt hq)])))
  · exact Or.inr (Or.inl (by simp [FloatVal.mul, FloatVal.sign, not_lt.mpr (le_of_lt hp)]))
  · exact Or.inr (Or.inr (Or.inl (by simp [FloatVal.mul, FloatVal.sign, not_lt.mpr (le_of_lt hp)])))
  · have h : p * q ≠ 0 := ne_of_gt (mul_pos hp hq)
    simp only [FloatVal.mul, if_neg h]
    exact roundTo_nonNegOrNaN F _ (mul_pos hp hq)

theorem convert_nonNegOrNaN (F : Format) {x : FloatVal} (hx : x.NonNegOrNaN) :
    (FloatVal.convert F x).NonNegOrNaN := by
  rcases hx with rfl | rfl | rfl | ⟨p, hp, rfl⟩
  · exact Or.inl rfl
  · exact Or.inr (Or.inl rfl)
  · exact Or.inr (Or.inr (Or.inl rfl))
  · exact roundTo_nonNegOrNaN F p hp

/-- A positive finite dividend over a non-negative divisor. -/
theorem div_nonNegOrNaN (F : Format) {p : ℚ} {y : FloatVal} (hp : 0 < p)
    (hy : y.NonNegOrNaN) : (FloatVal.div F (FloatVal.fin p) y).NonNegOrNaN := by
  rcases hy with rfl | rfl | rfl | ⟨q, hq, rfl⟩
  · exact Or.inl rfl
  · exact Or.inr (Or.inr (Or.inl (by
      simp [FloatVal.div, FloatVal.sign, not_lt.mpr (le_of_lt hp)])))
  · exact Or.inr (Or.inl (by simp [FloatVal.div, FloatVal.sign, not_lt.mpr (le_of_lt hp)]))
  · have h : q ≠ 0 := ne_of_gt hq
    simp only [FloatVal.div, if_neg h]
    exact roundTo_nonNegOrNaN F _ (div_pos hp hq)

/-- A sum whose first term is a NaN, `+inf` or at least `1` and whose second term is not
negative is again a NaN, `+inf` or at least `1`. -/
theorem add_geOne (F : Format) {x y : FloatVal}
    (hk : F.emin - ((F.prec : ℤ) - 1) ≤ 0) (hF : -(2 * (F.emax + 1)) ≤ F.emin)
    (hp : 1 ≤ F.prec) (hx : x = FloatVal.nan ∨ x.AtLeast 0) (hy : y.NonNegOrNaN) :
    FloatVal.add F x y = FloatVal.nan ∨ (FloatVal.add F x y).AtLeast 0 := by
  have h1 : pow2 0 = 1 := by rw [pow2_eq]; norm_num
  rcases hx with rfl | rfl | ⟨v, hv, rfl⟩
  · exact Or.inl (by cases y <;> rfl)
  · rcases hy with rfl | rfl | rfl | ⟨q, hq, rfl⟩
    · exact Or.inl rfl
    · exact Or.inr (Or.inl (by simp [FloatVal.add]))
    · exact Or.inr (Or.inl rfl)
    · exact Or.inr (Or.inl rfl)
  · rcases hy with rfl | rfl | rfl | ⟨q, hq, rfl⟩
    · exact Or.inl rfl
    · exact Or.inr (Or.inl rfl)
    · exact Or.inr (roundTo_atLeast F v 0 hv hk hF hp)
    · exact Or.inr (roundTo_atLeast F (v + q) 0 (by linarith) hk hF hp)

theorem mul_atLeast (F : Format) {a b : ℤ} {x y : FloatVal} (hx : x.AtLeast a)
    (hy : y.AtLeast b) (hk : F.emin - ((F.prec : ℤ) - 1) ≤ a + b)
    (hF : -(2 * (F.emax + 1)) ≤ F.emin) (hp : 1 ≤ F.prec) :
    (FloatVal.mul F x y).AtLeast (a + b) := by
  rcases hx with rfl | ⟨p, hp', rfl⟩ <;> rcases hy with rfl | ⟨q, hq, rfl⟩
  · exact Or.inl rfl
  · have hq0 : 0 < q := lt_of_lt_of_le (pow2_pos b) hq
    exact Or.inl (by simp [FloatVal.mul, FloatVal.sign, not_lt.mpr (le_of_lt hq0)])
  · have hp0 : 0 < p := lt_of_lt_of_le (pow2_pos a) hp'
    exact Or.inl (by simp [FloatVal.mul, FloatVal.sign, not_lt.mpr (le_of_lt hp0)])
  · have hp0 : 0 < p := lt_of_lt_of_le (pow2_pos a) hp'
    have hq0 : 0 < q := lt_of_lt_of_le (pow2_pos b) hq
    have h : p * q ≠ 0 := ne_of_gt (mul_pos hp0 hq0)
    simp only [FloatVal.mul, if_neg h]
    apply roundTo_atLeast F _ _ _ hk hF hp
    rw [pow2_add]
    exact mul_le_mul hp' hq (le_of_lt (pow2_pos b)) (le_of_lt hp0)

theorem convert_atLeast (F : Format) {a : ℤ} {x : FloatVal} (hx : x.AtLeast a)
    (hk : F.emin - ((F.prec : ℤ) - 1) ≤ a) (hF : -(2 * (F.emax + 1)) ≤ F.emin)
    (hp : 1 ≤ F.prec) : (FloatVal.convert F x).AtLeast a := by
  rcases hx with rfl | ⟨p, hp', rfl⟩
  · exact Or.inl rfl
  · exact roundTo_atLeast F p a hp' hk hF hp

theorem pow2_pow (a : ℤ) (n : ℕ) : pow2 a ^ n = pow2 ((n : ℤ) * a) := by
  rw [pow2_eq, pow2_eq, ← zpow_natCast, ← zpow_mul, mul_comm]

theorem pow_exponent_zero (x : F64) : pow x 0 = 1 := rfl

theorem pow_succ_val (x : F64) (m : ℕ) :
    (pow x (m + 1)).val =
      match x.val with
      | FloatVal.nan => FloatVal.nan
      | FloatVal.inf s => FloatVal.inf (s && decide ((m + 1) % 2 = 1))
      | FloatVal.zero s => FloatVal.zero (s && decide ((m + 1) % 2 = 1))
      | FloatVal.fin q => roundTo binary64 (q ^ (m + 1)) := by
  unfold pow
  rw [if_neg (Nat.succ_ne_zero m)]
  cases x.val <;> rfl

theorem pow_atLeast (x : F64) (n : ℕ) (a : ℤ) (hx : x.val.AtLeast a) (hn : 0 < n)
    (hk : -1074 ≤ (n : ℤ) * a) : (pow x n).val.AtLeast ((n : ℤ) * a) := by
  obtain ⟨m, rfl⟩ := Nat.exists_eq_succ_of_ne_zero (Nat.pos_iff_ne_zero.mp hn)
  rw [pow_succ_val]
  rcases hx with h | ⟨p, hp', h⟩
  · rw [h]
    exact Or.inl (by simp)
  · rw [h]
    have hp0 : 0 < p := lt_of_lt_of_le (pow2_pos a) hp'
    apply roundTo_atLeast binary64 _ _ _ (by simpa [binary64] using hk) (by decide) (by decide)
    rw [← pow2_pow]
    exact pow_le_pow_left (le_of_lt (pow2_pos a)) hp' _

theorem ofNat_nonNegOrNaN (n : ℕ) (hn : 0 < n) :
    (@OfNat.ofNat F32 n _).val.NonNegOrNaN :=
  roundTo_nonNegOrNaN binary32 (n : ℚ) (Nat.cast_pos.mpr hn)

theorem ofNat_double_nonNegOrNaN (n : ℕ) (hn : 0 < n) :
    (@OfNat.ofNat F64 n _).val.NonNegOrNaN :=
  roundTo_nonNegOrNaN binary64 (n : ℚ) (Nat.cast_pos.mpr hn)

theorem pow_nonNegOrNaN (x : F64) (n : ℕ) (hx : x.val.NonNegOrNaN) :
    (pow x n).val.NonNegOrNaN := by
  rcases Nat.eq_zero_or_pos n with rfl | hn
  · rw [pow_exponent_zero]
    exact ofNat_double_nonNegOrNaN 1 Nat.one_pos
  · obtain ⟨m, rfl⟩ := Nat.exists_eq_succ_of_ne_zero (Nat.pos_iff_ne_zero.mp hn)
    rw [pow_succ_val]
    rcases hx with h | h | h | ⟨p, hp, h⟩ <;> rw [h]
    · exact Or.inl rfl
    · exact Or.inr (Or.inl (by simp))
    · exact Or.inr (Or.inr (Or.inl (by simp)))
    · exact roundTo_nonNegOrNaN _ _ (pow_pos hp _)

/-- A positive finite `float` is at least the least subnormal `2 ^ (-149)`. -/
theorem isPositive_atLeast {x : F32} (h : x.IsPositive) : x.val.AtLeast (-149) := by
  obtain ⟨q, hq, hx, hr⟩ := h
  rw [hx]
  refine Or.inr ⟨q, ?_, rfl⟩
  rw [roundTo_of_pos binary32 q hq] at hr
  rcases roundParts_cases binary32 false
    (quanta (quantum binary32 q.num.natAbs q.den) q.num.natAbs q.den)
    (quantum binary32 q.num.natAbs q.den) with h | ⟨_, h⟩ | ⟨hc, h⟩
  · rw [h] at hr; exact FloatVal.noConfusion hr
  · rw [h] at hr; exact FloatVal.noConfusion hr
  · rw [h] at hr
    have e : scaled false (quanta (quantum binary32 q.num.natAbs q.den) q.num.natAbs q.den)
        (quantum binary32 q.num.natAbs q.den) = q := FloatVal.fin.inj hr
    rw [scaled_eq] at e
    simp only [Bool.false_eq_true, if_false, one_mul] at e
    rw [← e]
    have hc1 : (1 : ℚ) ≤ (quanta (quantum binary32 q.num.natAbs q.den) q.num.natAbs q.den : ℕ) := by
      exact_mod_cast Nat.pos_of_ne_zero hc
    have hg : (-149 : ℤ) ≤ quantum binary32 q.num.natAbs q.den := by
      unfold quantum
      have := le_max_right (ilog2 binary32 q.num.natAbs q.den) binary32.emin
      simp only [binary32] at this ⊢
      push_cast
      omega
    have h2 := pow2_le_pow2 hg
    have h3 := pow2_pos (quantum binary32 q.num.natAbs q.den)
    nlinarith

/-! ### The normalisation term and the divisors -/

theorem a_cont_toDouble_val : ∀ i : Fin 5, (Binary32.a_cont i).toDouble.val =
    FloatVal.fin (![1, 15983239 / 4194304, 14211715 / 2097152, 451305 / 65536,
      16509969 / 4194304] i) := by
  decide!

theorem M_PI_val :
    Binary32.M_PI.val = FloatVal.fin (884279719003555 / 281474976710656) := by
  decide!

theorem one_literal_val : (F64.toFloat 1.0).val = FloatVal.fin 1 := by
  decide!

theorem a_cont_pos (i : Fin 5) :
    (0 : ℚ) < ![1, 15983239 / 4194304, 14211715 / 2097152, 451305 / 65536,
      16509969 / 4194304] i := by
  fin_cases i <;> norm_num

theorem tmp_a_nonNegOrNaN (w : F32) (hw : w.val.NonNegOrNaN) (i : Fin 5) :
    (Binary32.tmp_a w i).val.NonNegOrNaN := by
  show (FloatVal.convert binary32 (FloatVal.div binary64 (Binary32.a_cont i).toDouble.val
    (pow w.toDouble (5 - i.val)).val)).NonNegOrNaN
  rw [a_cont_toDouble_val]
  exact convert_nonNegOrNaN _ (div_nonNegOrNaN _ (a_cont_pos i)
    (pow_nonNegOrNaN _ _ (convert_nonNegOrNaN _ hw)))

theorem f_k_nonNegOrNaN (f_s : F32) (hf : f_s.val.NonNegOrNaN) (k : ℕ) :
    (F64.toFloat (pow f_s.toDouble k)).val.NonNegOrNaN :=
  convert_nonNegOrNaN _ (pow_nonNegOrNaN _ _ (convert_nonNegOrNaN _ hf))

theorem float_mul_nonNegOrNaN {x y : F32} (hx : x.val.NonNegOrNaN) (hy : y.val.NonNegOrNaN) :
    (x * y).val.NonNegOrNaN :=
  mul_nonNegOrNaN binary32 hx hy

theorem float_add_geOne {x y : F32} (hx : x.val = FloatVal.nan ∨ x.val.AtLeast 0)
    (hy : y.val.NonNegOrNaN) : (x + y).val = FloatVal.nan ∨ (x + y).val.AtLeast 0 :=
  add_geOne binary32 (by decide) (by decide) (by decide) hx hy

theorem float_one_atLeast : (1 : F32).val.AtLeast 0 :=
  roundTo_atLeast binary32 ((1 : ℕ) : ℚ) 0 (by rw [pow2_eq]; norm_num) (by decide) (by decide)
    (by decide)

/-- The normalisation term of non-negative arguments is a NaN, `+inf` or at least `1`. -/
theorem float_a_0_geOne (f_s w : F32) (hf : f_s.val.NonNegOrNaN) (hw : w.val.NonNegOrNaN) :
    (Binary32.a_0 f_s w).val = FloatVal.nan ∨ (Binary32.a_0 f_s w).val.AtLeast 0 := by
  have t := tmp_a_nonNegOrNaN w hw
  have f := f_k_nonNegOrNaN f_s hf
  have c := fun n hn => ofNat_nonNegOrNaN n hn
  unfold Binary32.a_0
  exact float_add_geOne (float_add_geOne (float_add_geOne (float_add_geOne (float_add_geOne
    (Or.inr float_one_atLeast)
    (float_mul_nonNegOrNaN (float_mul_nonNegOrNaN (t 4) (c 2 (by decide))) hf))
    (float_mul_nonNegOrNaN (float_mul_nonNegOrNaN (t 3) (c 4 (by decide))) (f 2)))
    (float_mul_nonNegOrNaN (float_mul_nonNegOrNaN (t 2) (c 8 (by decide))) (f 3)))
    (float_mul_nonNegOrNaN (float_mul_nonNegOrNaN (t 1) (c 16 (by decide))) (f 4)))
    (float_mul_nonNegOrNaN (float_mul_nonNegOrNaN (t 0) (c 32 (by decide))) (f 5))

/-- The cutoff stored for a positive finite argument is `+inf` or at least `2 ^ (-147)`. -/
theorem stored_cutoff_atLeast (new_cutoff : F32) (h : new_cutoff.IsPositive) :
    (F64.toFloat ((new_cutoff * 2).toDouble * Binary32.M_PI)).val.AtLeast (-147) := by
  have h2 : (2 : F32).val.AtLeast 1 :=
    roundTo_atLeast binary32 ((2 : ℕ) : ℚ) 1 (by rw [pow2_eq]; norm_num) (by decide) (by decide)
      (by decide)
  have h3 : (new_cutoff * 2).val.AtLeast (-149 + 1) :=
    mul_atLeast binary32 (isPositive_atLeast h) h2 (by decide) (by decide) (by decide)
  have h4 : (new_cutoff * 2).toDouble.val.AtLeast (-149 + 1) :=
    convert_atLeast binary64 h3 (by decide) (by decide) (by decide)
  have h5 : Binary32.M_PI.val.AtLeast 1 := by
    rw [M_PI_val]
    exact Or.inr ⟨_, by rw [pow2_eq]; norm_num, rfl⟩
  have h6 : ((new_cutoff * 2).toDouble * Binary32.M_PI).val.AtLeast (-149 + 1 + 1) :=
    mul_atLeast binary64 h4 h5 (by decide) (by decide) (by decide)
  exact convert_atLeast binary32 h6 (by decide) (by decide) (by decide)

theorem divisor_pow_atLeast (w : F32) (hw : w.val.AtLeast (-147)) (i : Fin 5) :
    (pow w.toDouble (5 - i.val)).val.AtLeast (((5 - i.val : ℕ) : ℤ) * (-147)) := by
  apply pow_atLeast _ _ _ (convert_atLeast binary64 hw (by decide) (by decide) (by decide))
  · omega
  · have := i.isLt
    omega

theorem first_b_cases (a0 : F32) (h : a0.val = FloatVal.nan ∨ a0.val.AtLeast 0) :
    (Binary32.b_0_cont / a0).val = FloatVal.nan ∨ (Binary32.b_0_cont / a0).val.AtMostOne := by
  show FloatVal.div binary32 (F64.toFloat 1.0).val a0.val = FloatVal.nan ∨
    (FloatVal.div binary32 (F64.toFloat 1.0).val a0.val).AtMostOne
  rw [one_literal_val]
  rcases h with h | h | ⟨v, hv, h⟩ <;> rw [h]
  · exact Or.inl rfl
  · exact Or.inr (Or.inl (by simp [FloatVal.div, FloatVal.sign]))
  · have e : pow2 0 = 1 := by rw [pow2_eq]; norm_num
    rw [e] at hv
    have hv0 : (0 : ℚ) < v := by linarith
    have hne : v ≠ 0 := ne_of_gt hv0
    simp only [FloatVal.div, if_neg hne]
    right
    rcases roundTo_le_pow2 binary32 (1 / v) 0 (by positivity)
      (by rw [e, div_le_one hv0]; exact hv) (by decide) (by decide) (by decide) (by decide)
      with h | ⟨u, hu, hu1, h⟩
    · exact Or.inl h
    · exact Or.inr ⟨u, hu, by rwa [e] at hu1, h⟩

theorem isPositive_nonNegOrNaN {x : F32} (h : x.IsPositive) : x.val.NonNegOrNaN :=
  atLeast_nonNegOrNaN (isPositive_atLeast h)

/-- The normalisation term computed by the two-argument constructor from positive finite
arguments is a NaN, `+inf` or at least `1`. -/
theorem constructed_a_0_geOne (mem : BesselFilterLP5Order F32) (freq_sample cut_f : F32)
    (hs : freq_sample.IsPositive) (hc : cut_f.IsPositive) :
    (Binary32.a_0 (Binary32.construct mem freq_sample cut_f).f_s
        (Binary32.construct mem freq_sample cut_f).cutoff_freq).val = FloatVal.nan ∨
      (Binary32.a_0 (Binary32.construct mem freq_sample cut_f).f_s
        (Binary32.construct mem freq_sample cut_f).cutoff_freq).val.AtLeast 0 :=
  float_a_0_geOne freq_sample (F64.toFloat ((cut_f * 2).toDouble * Binary32.M_PI))
    (isPositive_nonNegOrNaN hs) (atLeast_nonNegOrNaN (stored_cutoff_atLeast cut_f hc))

theorem geOne_not_isZero {x : FloatVal} (h : x = FloatVal.nan ∨ x.AtLeast 0) :
    x.isZero = false := by
  rcases h with h | h
  · rw [h]
    rfl
  · exact atLeast_not_isZero h

/-- C17 (amended): for positive finite `float` arguments `sampleRate` and `cutoffHz` of the
two-argument constructor, every power `pow(cutoff_freq, 5 - i)` used as a divisor is
non-zero, and the normalisation term is a NaN, `+inf` or a finite value at least `1`, hence
non-zero; `b[0]` is a NaN or lies in `[0, 1]`. -/
theorem no_zero_divisor_float (mem : BesselFilterLP5Order F32) (freq_sample cut_f : F32)
    (hs : freq_sample.IsPositive) (hc : cut_f.IsPositive) :
    (∀ i : Fin 5, (pow (Binary32.construct mem freq_sample cut_f).cutoff_freq.toDouble
      (5 - i.val)).val.isZero = false) ∧
    ((Binary32.a_0 (Binary32.construct mem freq_sample cut_f).f_s
        (Binary32.construct mem freq_sample cut_f).cutoff_freq).val = FloatVal.nan ∨
      (Binary32.a_0 (Binary32.construct mem freq_sample cut_f).f_s
        (Binary32.construct mem freq_sample cut_f).cutoff_freq).val.AtLeast 0) ∧
    (Binary32.a_0 (Binary32.construct mem freq_sample cut_f).f_s
        (Binary32.construct mem freq_sample cut_f).cutoff_freq).val.isZero = false ∧
    (((Binary32.construct mem freq_sample cut_f).b 0).val = FloatVal.nan ∨
      ((Binary32.construct mem freq_sample cut_f).b 0).val.AtMostOne) :=
  ⟨fun i => atLeast_not_isZero (divisor_pow_atLeast _ (stored_cutoff_atLeast cut_f hc) i),
    constructed_a_0_geOne mem freq_sample cut_f hs hc,
    geOne_not_isZero (constructed_a_0_geOne mem freq_sample cut_f hs hc),
    first_b_cases _ (constructed_a_0_geOne mem freq_sample cut_f hs hc)⟩

theorem float_apply_a_zero (S : BesselFilterLP5Order F32) (c : Call F32)
    (h : S.a 0 = F64.toFloat 1.0) : (Binary32.apply S c).a 0 = F64.toFloat 1.0 := by
  cases c with
  | step v => exact h
  | set_cuttoff_frequency f => rfl
  | set_sample_frequency g => rfl

theorem float_run_a_zero (calls : List (Call F32)) (S : BesselFilterLP5Order F32)
    (h : S.a 0 = F64.toFloat 1.0) : (Binary32.run S calls).a 0 = F64.toFloat 1.0 := by
  induction calls generalizing S with
  | nil => exact h
  | cons c cs ih => exact ih (Binary32.apply S c) (float_apply_a_zero S c h)

theorem roundTo_one : roundTo binary32 1 = FloatVal.fin 1 := by
  decide!

/-- The quotient of a `float` by itself is `1` exactly when the `float` is finite and not
zero; it is a NaN otherwise. -/
theorem self_div_eq_one_iff (x : F32) (h0 : x.val ≠ FloatVal.fin 0) :
    x / x = F64.toFloat 1.0 ↔ x.val.isFinite = true ∧ x.val.isZero = false := by
  obtain ⟨v⟩ := x
  have e : ∀ y : F32, y = F64.toFloat 1.0 ↔ y.val = FloatVal.fin 1 := by
    intro y
    obtain ⟨w⟩ := y
    constructor
    · intro h
      rw [h]
      exact one_literal_val
    · intro h
      have h2 := one_literal_val
      cases hv : F64.toFloat 1.0
      rw [hv] at h2
      simp only at h h2
      rw [h, h2]
  rw [e]
  show FloatVal.div binary32 v v = FloatVal.fin 1 ↔ _
  cases v with
  | nan => simp [FloatVal.div, FloatVal.isFinite]
  | inf s => simp [FloatVal.div, FloatVal.isFinite]
  | zero s => simp [FloatVal.div, FloatVal.isZero]
  | fin q =>
    have hq : q ≠ 0 := fun h => h0 (by rw [h])
    simp only [FloatVal.div, if_neg hq, div_self hq, roundTo_one]
    simp [hq, FloatVal.isFinite, FloatVal.isZero]

/-- C7 (amended): after every call of `set_cuttoff_frequency` or `set_sample_frequency`,
with any arguments, `a[0]` is the `float` `1`; for positive finite `sampleRate` and
`cutoffHz` this `a[0]` equals `norm / norm` exactly when the computed normalisation term is
finite (the quotient is a NaN when the term has overflowed or is a NaN); and in every state
reached from `BesselFilterLP5Order(sampleRate, cutoffHz)` by setters and steps `a[0]` is
`1`, so `step` never divides by zero. -/
theorem leading_coefficient_float (S mem : BesselFilterLP5Order F32)
    (f g freq_sample cut_f : F32) (calls : List (Call F32)) :
    (Binary32.set_cuttoff_frequency S f).a 0 = F64.toFloat 1.0 ∧
    (Binary32.set_sample_frequency S g).a 0 = F64.toFloat 1.0 ∧
    (F64.toFloat 1.0).val = FloatVal.fin 1 ∧
    (freq_sample.IsPositive → cut_f.IsPositive →
      ((Binary32.construct mem freq_sample cut_f).a 0 =
          Binary32.a_0 (Binary32.construct mem freq_sample cut_f).f_s
              (Binary32.construct mem freq_sample cut_f).cutoff_freq /
            Binary32.a_0 (Binary32.construct mem freq_sample cut_f).f_s
              (Binary32.construct mem freq_sample cut_f).cutoff_freq ↔
        (Binary32.a_0 (Binary32.construct mem freq_sample cut_f).f_s
          (Binary32.construct mem freq_sample cut_f).cutoff_freq).val.isFinite = true)) ∧
    (Binary32.run (Binary32.construct mem freq_sample cut_f) calls).a 0 = F64.toFloat 1.0 ∧
    ((Binary32.run (Binary32.construct mem freq_sample cut_f) calls).a 0).val.isZero = false := by
  have hrun := float_run_a_zero calls (Binary32.construct mem freq_sample cut_f) rfl
  refine ⟨rfl, rfl, one_literal_val, ?_, hrun, ?_⟩
  · intro hs hc
    have ha := constructed_a_0_geOne mem freq_sample cut_f hs hc
    have hz := geOne_not_isZero ha
    have h0 : (Binary32.a_0 (Binary32.construct mem freq_sample cut_f).f_s
        (Binary32.construct mem freq_sample cut_f).cutoff_freq).val ≠ FloatVal.fin 0 := by
      intro h
      rw [h] at ha
      rcases ha with ha | ha | ⟨v, hv, ha⟩
      · exact FloatVal.noConfusion ha
      · exact FloatVal.noConfusion ha
      · have := FloatVal.fin.inj ha
        have := pow2_pos 0
        linarith
    have e1 : (Binary32.construct mem freq_sample cut_f).a 0 = F64.toFloat 1.0 := rfl
    rw [e1, eq_comm, self_div_eq_one_iff _ h0]
    exact ⟨fun h => h.1, fun h => ⟨h, hz⟩⟩
  · rw [hrun, one_literal_val]
    rfl

theorem mul_isZero (F : Format) {x y : FloatVal} (hx : x.isZero = true)
    (hy : y.isFinite = true) : (FloatVal.mul F x y).isZero = true := by
  cases x <;> cases y <;> simp_all [FloatVal.isZero, FloatVal.isFinite, FloatVal.mul]

theorem add_isZero (F : Format) {x y : FloatVal} (hx : x.isZero = true) (hy : y.isZero = true) :
    (FloatVal.add F x y).isZero = true := by
  cases x <;> cases y <;> simp_all [FloatVal.isZero, FloatVal.add]

theorem sub_isZero (F : Format) {x y : FloatVal} (hx : x.isZero = true) (hy : y.isZero = true) :
    (FloatVal.sub F x y).isZero = true := by
  cases x <;> cases y <;> simp_all [FloatVal.isZero, FloatVal.sub, FloatVal.add, FloatVal.neg]

theorem div_isZero (F : Format) {x y : FloatVal} (hx : x.isZero = true)
    (hy : y.isFinite = true) (hy0 : y.isZero = false) :
    (FloatVal.div F x y).isZero = true := by
  cases x <;> cases y <;> simp_all [FloatVal.isZero, FloatVal.isFinite, FloatVal.div]

theorem float_step_x_prev (S : BesselFilterLP5Order F32) (s : F32) :
    (Binary32.step S s).2.x_prev = ![s, S.x_prev 0, S.x_prev 1, S.x_prev 2, S.x_prev 3] := by
  simp only [Binary32.step, delay_loop_four]
  funext i
  fin_cases i <;> simp [Function.update]

theorem float_step_y_prev (S : BesselFilterLP5Order F32) (s : F32) :
    (Binary32.step S s).2.y_prev =
      ![(Binary32.step S s).1, S.y_prev 0, S.y_prev 1, S.y_prev 2, S.y_prev 3] := by
  simp only [Binary32.step, delay_loop_four]
  funext i
  fin_cases i <;> simp [Function.update]

theorem float_step_zero (S : BesselFilterLP5Order F32) (s : F32)
    (ha : ∀ i, (S.a i).val.isFinite = true) (hb : ∀ i, (S.b i).val.isFinite = true)
    (ha0 : (S.a 0).val.isZero = false) (hx : ∀ i, (S.x_prev i).val.isZero = true)
    (hy : ∀ i, (S.y_prev i).val.isZero = true) (hs : s.val.isZero = true) :
    (Binary32.step S s).1.val.isZero = true := by
  have m : ∀ {x y : F32}, x.val.isZero = true → y.val.isFinite = true →
      (x * y).val.isZero = true :=
    fun hx hy => mul_isZero binary32 hx hy
  have p : ∀ {x y : F32}, x.val.isZero = true → y.val.isZero = true →
      (x + y).val.isZero = true :=
    fun hx hy => add_isZero binary32 hx hy
  have d : ∀ {x y : F32}, x.val.isZero = true → y.val.isZero = true →
      (x - y).val.isZero = true :=
    fun hx hy => sub_isZero binary32 hx hy
  exact div_isZero binary32
    (d (d (d (d (d (p (p (p (p (p (m hs (hb 0)) (m (hx 0) (hb 1))) (m (hx 1) (hb 2)))
      (m (hx 2) (hb 3))) (m (hx 3) (hb 4))) (m (hx 4) (hb 5))) (m (hy 0) (ha 1)))
      (m (hy 1) (ha 2))) (m (hy 2) (ha 3))) (m (hy 3) (ha 4))) (m (hy 4) (ha 5))) (ha 0) ha0

/-- C20 (amended): when the stored coefficients are finite and `a[0]` is not zero, a filter
whose ten history entries are zeros (of either sign), stepped on a zero, returns a zero and
is left with all-zero histories. -/
theorem zero_state_float (S : BesselFilterLP5Order F32) (s : F32)
    (ha : ∀ i, (S.a i).val.isFinite = true) (hb : ∀ i, (S.b i).val.isFinite = true)
    (ha0 : (S.a 0).val.isZero = false) (hx : ∀ i, (S.x_prev i).val.isZero = true)
    (hy : ∀ i, (S.y_prev i).val.isZero = true) (hs : s.val.isZero = true) :
    (Binary32.step S s).1.val.isZero = true ∧
    (∀ i, ((Binary32.step S s).2.x_prev i).val.isZero = true) ∧
    (∀ i, ((Binary32.step S s).2.y_prev i).val.isZero = true) := by
  have h := float_step_zero S s ha hb ha0 hx hy hs
  refine ⟨h, ?_, ?_⟩
  · intro i
    rw [float_step_x_prev]
    fin_cases i
    · exact hs
    · exact hx 0
    · exact hx 1
    · exact hx 2
    · exact hx 3
  · intro i
    rw [float_step_y_prev]
    fin_cases i
    · exact h
    · exact hy 0
    · exact hy 1
    · exact hy 2
    · exact hy 3

/-! ### Rounding commutes with scaling by a power of two -/

theorem pow2_lt_pow2 {a b : ℤ} (h : a < b) : pow2 a < pow2 b := by
  rw [pow2_eq, pow2_eq]
  exact zpow_lt_zpow_right₀ (by norm_num) h

theorem pow2_lt_pow2_iff {a b : ℤ} : pow2 a < pow2 b ↔ a < b := by
  constructor
  · intro h
    by_contra hcon
    push_neg at hcon
    exact absurd h (not_lt.mpr (pow2_le_pow2 hcon))
  · exact pow2_lt_pow2

theorem pow2_zero : pow2 0 = 1 := by
  rw [pow2_eq]
  norm_num

theorem pow2_neg (a : ℤ) : pow2 (-a) = (pow2 a)⁻¹ := by
  rw [pow2_eq, pow2_eq, zpow_neg]

theorem pow2_mul_neg (a : ℤ) : pow2 a * pow2 (-a) = 1 := by
  rw [← pow2_add, add_neg_cancel, pow2_zero]

/-- The bisection ends just below the first power of two above the magnitude. -/
theorem ilog2Aux_upper (n d : ℕ) (hd : 0 < d) :
    ∀ (fuel : ℕ) (lo hi : ℤ), lo ≤ hi → hi - lo ≤ 2 ^ fuel →
      (n : ℚ) / (d : ℚ) < pow2 hi →
      (n : ℚ) / (d : ℚ) < pow2 (ilog2Aux n d fuel lo hi + 1) := by
  intro fuel
  induction fuel with
  | zero =>
    intro lo hi h1 h2 h3
    simp only [pow_zero] at h2
    exact lt_of_lt_of_le h3 (pow2_le_pow2 (by simp only [ilog2Aux]; omega))
  | succ f ih =>
    intro lo hi h1 h2 h3
    have hP : (2 : ℤ) ^ (f + 1) = 2 * 2 ^ f := by ring
    rw [hP] at h2
    by_cases hm : pow2Le ((lo + hi) / 2) n d = true
    · simp only [ilog2Aux, hm, if_true]
      exact ih _ _ (by omega) (by omega) h3
    · simp only [ilog2Aux, hm]
      have hlt : (n : ℚ) / (d : ℚ) < pow2 ((lo + hi) / 2) := by
        by_contra hcon
        push_neg at hcon
        exact hm ((pow2Le_iff _ n d hd).mpr hcon)
      exact ih _ _ (by omega) (by omega) hlt

theorem ilog2_upper (F : Format) (n d : ℕ) (hd : 0 < d) (h0 : 0 ≤ F.emax + 1)
    (h1 : 4 * (F.emax + 1) ≤ 8192) (h : (n : ℚ) / (d : ℚ) < pow2 (2 * (F.emax + 1))) :
    (n : ℚ) / (d : ℚ) < pow2 (ilog2 F n d + 1) :=
  ilog2Aux_upper n d hd 13 _ _ (by omega) (by norm_num; omega) h

/-- The exponent search finds the binary exponent of a magnitude in range. -/
theorem ilog2_eq (F : Format) (n d : ℕ) (hd : 0 < d) (h0 : 0 ≤ F.emax + 1)
    (h1 : 4 * (F.emax + 1) ≤ 8192) (l : ℤ) (hl : -(2 * (F.emax + 1)) ≤ l)
    (hl2 : l < 2 * (F.emax + 1)) (hlo : pow2 l ≤ (n : ℚ) / (d : ℚ))
    (hhi : (n : ℚ) / (d : ℚ) < pow2 (l + 1)) : ilog2 F n d = l := by
  have hup := ilog2_upper F n d hd h0 h1
    (lt_of_lt_of_le hhi (pow2_le_pow2 (by omega)))
  have hlow : pow2 (ilog2 F n d) ≤ (n : ℚ) / (d : ℚ) := by
    rcases ilog2_spec F n d hd with h | h
    · exact h
    · rw [h]
      exact le_trans (pow2_le_pow2 hl) hlo
  have h2 : ilog2 F n d < l + 1 := pow2_lt_pow2_iff.mp (lt_of_le_of_lt hlow hhi)
  have h3 : l < ilog2 F n d + 1 := pow2_lt_pow2_iff.mp (lt_of_le_of_lt hlo hup)
  omega

theorem roundNat_mul_left (k N D : ℕ) (hk : 0 < k) :
    roundNat (k * N) (k * D) = roundNat N D := by
  unfold roundNat
  rw [Nat.mul_mod_mul_left, Nat.mul_div_mul_left _ _ hk]
  have e1 : (k * D < 2 * (k * (N % D))) ↔ (D < 2 * (N % D)) := by
    constructor
    · intro h
      have : k * D < k * (2 * (N % D)) := by nlinarith
      exact Nat.lt_of_mul_lt_mul_left this
    · intro h
      nlinarith
  have e2 : (2 * (k * (N % D)) = k * D) ↔ (2 * (N % D) = D) := by
    constructor
    · intro h
      have : k * (2 * (N % D)) = k * D := by nlinarith
      exact Nat.eq_of_mul_eq_mul_left hk this
    · intro h
      nlinarith
  simp only [e1, e2]

theorem roundNat_congr (N D N2 D2 : ℕ) (hD : 0 < D) (hD2 : 0 < D2) (h : N * D2 = N2 * D) :
    roundNat N D = roundNat N2 D2 := by
  rw [← roundNat_mul_left D2 N D hD2, ← roundNat_mul_left D N2 D2 hD]
  have e1 : D2 * N = D * N2 := by nlinarith
  have e2 : D2 * D = D * D2 := by ring
  rw [e1, e2]

/-- The count of quanta is the rounding of a ratio of naturals equal to the magnitude divided
by the quantum. -/
theorem quanta_ratio (g : ℤ) (n d : ℕ) (hd : 0 < d) :
    ∃ N D : ℕ, 0 < D ∧ quanta g n d = roundNat N D ∧
      (N : ℚ) / (D : ℚ) = (n : ℚ) / (d : ℚ) * pow2 (-g) := by
  have hd' : (d : ℚ) ≠ 0 := by exact_mod_cast (ne_of_gt hd)
  by_cases hg : 0 ≤ g
  · refine ⟨n, d * 2 ^ g.toNat, by positivity, by simp only [quanta, if_pos hg], ?_⟩
    rw [pow2_neg, pow2, if_pos hg]
    push_cast
    field_simp
  · refine ⟨n * 2 ^ (-g).toNat, d, hd, by simp only [quanta, if_neg hg], ?_⟩
    have hg2 : 0 ≤ -g := by omega
    rw [pow2, if_pos hg2]
    push_cast
    ring

theorem quanta_congr (g g2 : ℤ) (n d n2 d2 : ℕ) (hd : 0 < d) (hd2 : 0 < d2)
    (h : (n : ℚ) / (d : ℚ) * pow2 (-g) = (n2 : ℚ) / (d2 : ℚ) * pow2 (-g2)) :
    quanta g n d = quanta g2 n2 d2 := by
  obtain ⟨N, D, hD, e, r⟩ := quanta_ratio g n d hd
  obtain ⟨N2, D2, hD2, e2, r2⟩ := quanta_ratio g2 n2 d2 hd2
  rw [e, e2]
  apply roundNat_congr _ _ _ _ hD hD2
  have hDq : (D : ℚ) ≠ 0 := by exact_mod_cast (ne_of_gt hD)
  have hD2q : (D2 : ℚ) ≠ 0 := by exact_mod_cast (ne_of_gt hD2)
  have hr : (N : ℚ) / (D : ℚ) = (N2 : ℚ) / (D2 : ℚ) := by rw [r, r2, h]
  rw [div_eq_div_iff hDq hD2q] at hr
  exact_mod_cast hr

/-- In the normal range a positive rational rounds to a finite value: the count of quanta
times the quantum, with the quantum `2 ^ (e - (prec - 1))` for the binary exponent `e`. -/
theorem roundTo_normal (F : Format) (q : ℚ) (l : ℤ) (hF : -(2 * (F.emax + 1)) ≤ F.emin)
    (hp : 1 ≤ F.prec) (h0 : 0 ≤ F.emax + 1) (h1 : 4 * (F.emax + 1) ≤ 8192)
    (hlo : pow2 F.emin ≤ q) (hhi : q ≤ pow2 F.emax) (hl : pow2 l ≤ q)
    (hl2 : q < pow2 (l + 1)) :
    roundTo F q = FloatVal.fin
      ((quanta (l - ((F.prec : ℤ) - 1)) q.num.natAbs q.den : ℚ) *
        pow2 (l - ((F.prec : ℤ) - 1))) := by
  have hq0 : 0 < q := lt_of_lt_of_le (pow2_pos _) hlo
  have hd : 0 < q.den := q.den_pos
  have hnd := num_natAbs_div_den q hq0
  have hp' : (1 : ℤ) ≤ (F.prec : ℤ) := by exact_mod_cast hp
  have hel : F.emin ≤ l := by
    have := pow2_lt_pow2_iff.mp (lt_of_le_of_lt hlo hl2)
    omega
  have hle : l ≤ F.emax := by
    by_contra hcon
    push_neg at hcon
    have h3 : pow2 (F.emax + 1) ≤ pow2 l := pow2_le_pow2 (by omega)
    have h4 : pow2 F.emax < pow2 (F.emax + 1) := pow2_lt_pow2 (by omega)
    linarith
  have hil : ilog2 F q.num.natAbs q.den = l :=
    ilog2_eq F _ _ hd h0 h1 l (by omega) (by omega) (by rw [hnd]; exact hl)
      (by rw [hnd]; exact hl2)
  have hg : quantum F q.num.natAbs q.den = l - ((F.prec : ℤ) - 1) := by
    unfold quantum
    rw [hil, max_eq_left hel]
  have hge := roundTo_ge_pow2 F q F.emin hlo (by omega) hF hp
  have hle2 := roundTo_le_pow2 F q F.emax hq0 hhi (by omega) hF hp (le_refl _)
  rw [roundTo_of_pos F q hq0, hg] at hge hle2 ⊢
  rcases roundParts_cases F false (quanta (l - ((F.prec : ℤ) - 1)) q.num.natAbs q.den)
    (l - ((F.prec : ℤ) - 1)) with h | ⟨_, h⟩ | ⟨_, h⟩
  · rw [h] at hle2
    rcases hle2 with h2 | ⟨v, _, _, h2⟩ <;> exact FloatVal.noConfusion h2
  · rw [h] at hge
    rcases hge with h2 | ⟨v, _, h2⟩ <;> exact FloatVal.noConfusion h2
  · rw [h, scaled_eq]
    simp only [Bool.false_eq_true, if_false, one_mul]

/-- Every positive rational lies between two consecutive powers of two. -/
theorem exists_pow2_bracket (q : ℚ) (hq : 0 < q) : ∃ l : ℤ, pow2 l ≤ q ∧ q < pow2 (l + 1) := by
  obtain ⟨l, h1, h2⟩ := exists_mem_Ico_zpow hq (by norm_num : (1 : ℚ) < 2)
  exact ⟨l, by rw [pow2_eq]; exact h1, by rw [pow2_eq]; exact h2⟩

/-- Rounding commutes with a scaling by a power of two that keeps the value in the normal
range. -/
theorem roundTo_scale (F : Format) (q : ℚ) (m : ℤ) (hF : -(2 * (F.emax + 1)) ≤ F.emin)
    (hp : 1 ≤ F.prec) (h0 : 0 ≤ F.emax + 1) (h1 : 4 * (F.emax + 1) ≤ 8192)
    (hlo : pow2 F.emin ≤ q) (hhi : q ≤ pow2 F.emax) (hlo2 : pow2 F.emin ≤ q * pow2 m)
    (hhi2 : q * pow2 m ≤ pow2 F.emax) :
    ∃ v : ℚ, roundTo F q = FloatVal.fin v ∧ roundTo F (q * pow2 m) = FloatVal.fin (v * pow2 m) := by
  have hq0 : 0 < q := lt_of_lt_of_le (pow2_pos _) hlo
  have hq2 : 0 < q * pow2 m := lt_of_lt_of_le (pow2_pos _) hlo2
  obtain ⟨l, hl1, hl2⟩ := exists_pow2_bracket q hq0
  have hm := pow2_pos m
  have hl1' : pow2 (l + m) ≤ q * pow2 m := by
    rw [pow2_add]
    exact mul_le_mul_of_nonneg_right hl1 (le_of_lt hm)
  have hl2' : q * pow2 m < pow2 (l + m + 1) := by
    have e : l + m + 1 = (l + 1) + m := by ring
    rw [e, pow2_add]
    exact mul_lt_mul_of_pos_right hl2 hm
  have e1 := roundTo_normal F q l hF hp h0 h1 hlo hhi hl1 hl2
  have e2 := roundTo_normal F (q * pow2 m) (l + m) hF hp h0 h1 hlo2 hhi2 hl1' hl2'
  refine ⟨_, e1, ?_⟩
  rw [e2]
  have hc : quanta (l + m - ((F.prec : ℤ) - 1)) (q * pow2 m).num.natAbs (q * pow2 m).den =
      quanta (l - ((F.prec : ℤ) - 1)) q.num.natAbs q.den := by
    apply quanta_congr _ _ _ _ _ _ (q * pow2 m).den_pos q.den_pos
    rw [num_natAbs_div_den _ hq2, num_natAbs_div_den _ hq0]
    have e : -(l + m - ((F.prec : ℤ) - 1)) = -m + -(l - ((F.prec : ℤ) - 1)) := by ring
    rw [e, pow2_add, ← mul_assoc, mul_assoc q, pow2_mul_neg, mul_one]
  rw [hc]
  have e : l + m - ((F.prec : ℤ) - 1) = (l - ((F.prec : ℤ) - 1)) + m := by ring
  rw [e, pow2_add, mul_assoc]

theorem scales_weaken {m lo hi lo2 hi2 : ℤ} {x y : FloatVal} (h : FloatVal.Scales m lo hi x y)
    (h1 : lo2 ≤ lo) (h2 : hi ≤ hi2) : FloatVal.Scales m lo2 hi2 x y := by
  obtain ⟨v, hx, hy, a, b, c, d⟩ := h
  exact ⟨v, hx, hy, le_trans (pow2_le_pow2 h1) a, le_trans b (pow2_le_pow2 h2),
    le_trans (pow2_le_pow2 h1) c, le_trans d (pow2_le_pow2 h2)⟩

/-- Rounding keeps a pair of scaled values scaled, and within the same binades. -/
theorem scales_round (F : Format) (m lo hi : ℤ) (q : ℚ) (hF : -(2 * (F.emax + 1)) ≤ F.emin)
    (hp : 1 ≤ F.prec) (h0 : 0 ≤ F.emax + 1) (h1 : 4 * (F.emax + 1) ≤ 8192)
    (hlo : F.emin ≤ lo) (hhi : hi ≤ F.emax)
    (a : pow2 lo ≤ q) (b : q ≤ pow2 hi) (c : pow2 lo ≤ q * pow2 m) (d : q * pow2 m ≤ pow2 hi) :
    FloatVal.Scales m lo hi (roundTo F q) (roundTo F (q * pow2 m)) := by
  have hp' : (1 : ℤ) ≤ (F.prec : ℤ) := by exact_mod_cast hp
  obtain ⟨v, e1, e2⟩ := roundTo_scale F q m hF hp h0 h1 (le_trans (pow2_le_pow2 hlo) a)
    (le_trans b (pow2_le_pow2 hhi)) (le_trans (pow2_le_pow2 hlo) c)
    (le_trans d (pow2_le_pow2 hhi))
  have hq0 : 0 < q := lt_of_lt_of_le (pow2_pos _) a
  have hq2 : 0 < q * pow2 m := lt_of_lt_of_le (pow2_pos _) c
  have hlh : lo ≤ hi := by
    by_contra hcon
    push_neg at hcon
    have := pow2_lt_pow2 hcon
    linarith
  refine ⟨v, e1, e2, ?_, ?_, ?_, ?_⟩
  · rcases roundTo_ge_pow2 F q lo a (by omega) hF hp with h | ⟨u, hu, h⟩
    · rw [e1] at h; exact FloatVal.noConfusion h
    · rw [e1] at h; rw [FloatVal.fin.inj h]; exact hu
  · rcases roundTo_le_pow2 F q hi hq0 b (by omega) hF hp hhi with h | ⟨u, _, hu, h⟩
    · rw [e1] at h; exact FloatVal.noConfusion h
    · rw [e1] at h; rw [FloatVal.fin.inj h]; exact hu
  · rcases roundTo_ge_pow2 F (q * pow2 m) lo c (by omega) hF hp with h | ⟨u, hu, h⟩
    · rw [e2] at h; exact FloatVal.noConfusion h
    · rw [e2] at h; rw [FloatVal.fin.inj h]; exact hu
  · rcases roundTo_le_pow2 F (q * pow2 m) hi hq2 d (by omega) hF hp hhi with h | ⟨u, _, hu, h⟩
    · rw [e2] at h; exact FloatVal.noConfusion h
    · rw [e2] at h; rw [FloatVal.fin.inj h]; exact hu

theorem scales_convert (F : Format) {m lo hi : ℤ} {x y : FloatVal}
    (h : FloatVal.Scales m lo hi x y) (hF : -(2 * (F.emax + 1)) ≤ F.emin)
    (hp : 1 ≤ F.prec) (h0 : 0 ≤ F.emax + 1) (h1 : 4 * (F.emax + 1) ≤ 8192)
    (hlo : F.emin ≤ lo) (hhi : hi ≤ F.emax) :
    FloatVal.Scales m lo hi (FloatVal.convert F x) (FloatVal.convert F y) := by
  obtain ⟨v, rfl, rfl, a, b, c, d⟩ := h
  exact scales_round F m lo hi v hF hp h0 h1 hlo hhi a b c d

theorem pow2_le_pow {lo : ℤ} {v : ℚ} (k : ℕ) (h : pow2 lo ≤ v) : pow2 ((k : ℤ) * lo) ≤ v ^ k := by
  rw [← pow2_pow]
  exact pow_le_pow_left (le_of_lt (pow2_pos lo)) h k

theorem pow_le_pow2 {hi : ℤ} {v : ℚ} (k : ℕ) (h0 : 0 ≤ v) (h : v ≤ pow2 hi) :
    v ^ k ≤ pow2 ((k : ℤ) * hi) := by
  rw [← pow2_pow]
  exact pow_le_pow_left h0 h k

theorem scales_pow (x y : F64) (k : ℕ) (m lo hi : ℤ) (h : FloatVal.Scales m lo hi x.val y.val)
    (hk : 0 < k) (hlo : -1022 ≤ (k : ℤ) * lo) (hhi : (k : ℤ) * hi ≤ 1023) :
    FloatVal.Scales ((k : ℤ) * m) ((k : ℤ) * lo) ((k : ℤ) * hi) (pow x k).val (pow y k).val := by
  obtain ⟨j, rfl⟩ := Nat.exists_eq_succ_of_ne_zero (Nat.pos_iff_ne_zero.mp hk)
  obtain ⟨v, hx, hy, a, b, c, d⟩ := h
  have hv0 : 0 < v := lt_of_lt_of_le (pow2_pos _) a
  have hv2 : 0 < v * pow2 m := lt_of_lt_of_le (pow2_pos _) c
  rw [pow_succ_val, pow_succ_val, hx, hy]
  have e : (v * pow2 m) ^ (j + 1) = v ^ (j + 1) * pow2 (((j + 1 : ℕ) : ℤ) * m) := by
    rw [mul_pow, pow2_pow]
  show FloatVal.Scales _ _ _ (roundTo binary64 (v ^ (j + 1)))
    (roundTo binary64 ((v * pow2 m) ^ (j + 1)))
  rw [e]
  apply scales_round binary64 _ _ _ _ (by decide) (by decide) (by decide) (by decide)
    (by simpa [binary64] using hlo) (by simpa [binary64] using hhi)
  · exact pow2_le_pow _ a
  · exact pow_le_pow2 _ (le_of_lt hv0) b
  · rw [← e]
    exact pow2_le_pow _ c
  · rw [← e]
    exact pow_le_pow2 _ (le_of_lt hv2) d

/-- A constant divided by a pair of scaled values gives a pair scaled the other way. -/
theorem scales_const_div (F : Format) (cq : ℚ) (a b : ℤ) {m lo hi : ℤ} {y y2 : FloatVal}
    (h : FloatVal.Scales m lo hi y y2) (ha : pow2 a ≤ cq) (hb : cq ≤ pow2 b)
    (hF : -(2 * (F.emax + 1)) ≤ F.emin) (hp : 1 ≤ F.prec) (h0 : 0 ≤ F.emax + 1)
    (h1 : 4 * (F.emax + 1) ≤ 8192) (hlo : F.emin ≤ a - hi) (hhi : b - lo ≤ F.emax) :
    FloatVal.Scales (-m) (a - hi) (b - lo) (FloatVal.div F (FloatVal.fin cq) y)
      (FloatVal.div F (FloatVal.fin cq) y2) := by
  obtain ⟨v, rfl, rfl, a1, b1, c1, d1⟩ := h
  have hc0 : 0 < cq := lt_of_lt_of_le (pow2_pos _) ha
  have hv0 : 0 < v := lt_of_lt_of_le (pow2_pos _) a1
  have hv2 : 0 < v * pow2 m := lt_of_lt_of_le (pow2_pos _) c1
  have hm := pow2_pos m
  simp only [FloatVal.div, if_neg (ne_of_gt hv0), if_neg (ne_of_gt hv2)]
  have e : cq / (v * pow2 m) = cq / v * pow2 (-m) := by
    rw [pow2_neg]
    field_simp
  have lower : ∀ u : ℚ, 0 < u → u ≤ pow2 hi → pow2 (a - hi) ≤ cq / u := by
    intro u hu0 hu
    rw [sub_eq_add_neg, pow2_add, pow2_neg, le_div_iff₀ hu0]
    have h3 := pow2_pos hi
    have h4 := pow2_pos a
    calc pow2 a * (pow2 hi)⁻¹ * u ≤ pow2 a * (pow2 hi)⁻¹ * pow2 hi :=
          mul_le_mul_of_nonneg_left hu (by positivity)
      _ = pow2 a := by field_simp
      _ ≤ cq := ha
  have upper : ∀ u : ℚ, pow2 lo ≤ u → cq / u ≤ pow2 (b - lo) := by
    intro u hu
    have hu0 : 0 < u := lt_of_lt_of_le (pow2_pos _) hu
    rw [sub_eq_add_neg, pow2_add, pow2_neg, div_le_iff₀ hu0]
    have h3 := pow2_pos lo
    have h4 := pow2_pos b
    calc cq ≤ pow2 b := hb
      _ = pow2 b * (pow2 lo)⁻¹ * pow2 lo := by field_simp
      _ ≤ pow2 b * (pow2 lo)⁻¹ * u := mul_le_mul_of_nonneg_left hu (by positivity)
  rw [e]
  apply scales_round F _ _ _ _ hF hp h0 h1 hlo hhi
  · exact lower v hv0 b1
  · exact upper v a1
  · rw [← e]
    exact lower _ hv2 d1
  · rw [← e]
    exact upper _ c1

/-- A constant times a pair of scaled values gives a pair scaled the same way. -/
theorem scales_const_mul (F : Format) (cq : ℚ) (a b : ℤ) {m lo hi : ℤ} {x x2 : FloatVal}
    (h : FloatVal.Scales m lo hi x x2) (ha : pow2 a ≤ cq) (hb : cq ≤ pow2 b)
    (hF : -(2 * (F.emax + 1)) ≤ F.emin) (hp : 1 ≤ F.prec) (h0 : 0 ≤ F.emax + 1)
    (h1 : 4 * (F.emax + 1) ≤ 8192) (hlo : F.emin ≤ a + lo) (hhi : b + hi ≤ F.emax) :
    FloatVal.Scales m (a + lo) (b + hi) (FloatVal.mul F (FloatVal.fin cq) x)
        (FloatVal.mul F (FloatVal.fin cq) x2) ∧
      FloatVal.Scales m (a + lo) (b + hi) (FloatVal.mul F x (FloatVal.fin cq))
        (FloatVal.mul F x2 (FloatVal.fin cq)) := by
  obtain ⟨v, rfl, rfl, a1, b1, c1, d1⟩ := h
  have hc0 : 0 < cq := lt_of_lt_of_le (pow2_pos _) ha
  have hv0 : 0 < v := lt_of_lt_of_le (pow2_pos _) a1
  have hv2 : 0 < v * pow2 m := lt_of_lt_of_le (pow2_pos _) c1
  have n1 : cq * v ≠ 0 := ne_of_gt (mul_pos hc0 hv0)
  have n2 : cq * (v * pow2 m) ≠ 0 := ne_of_gt (mul_pos hc0 hv2)
  have n3 : v * cq ≠ 0 := ne_of_gt (mul_pos hv0 hc0)
  have n4 : v * pow2 m * cq ≠ 0 := ne_of_gt (mul_pos hv2 hc0)
  simp only [FloatVal.mul, if_neg n1, if_neg n2, if_neg n3, if_neg n4]
  have e : cq * (v * pow2 m) = cq * v * pow2 m := by ring
  have e2 : v * pow2 m * cq = cq * v * pow2 m := by ring
  have e3 : v * cq = cq * v := by ring
  have lower : ∀ u : ℚ, pow2 lo ≤ u → pow2 (a + lo) ≤ cq * u := by
    intro u hu
    rw [pow2_add]
    exact mul_le_mul ha hu (le_of_lt (pow2_pos _)) (le_of_lt hc0)
  have upper : ∀ u : ℚ, 0 < u → u ≤ pow2 hi → cq * u ≤ pow2 (b + hi) := by
    intro u hu0 hu
    rw [pow2_add]
    exact mul_le_mul hb hu (le_of_lt hu0) (le_of_lt (pow2_pos _))
  have key : FloatVal.Scales m (a + lo) (b + hi) (roundTo F (cq * v))
      (roundTo F (cq * v * pow2 m)) := by
    apply scales_round F _ _ _ _ hF hp h0 h1 hlo hhi
    · exact lower v a1
    · exact upper v hv0 b1
    · rw [← e]
      exact lower _ c1
    · rw [← e]
      exact upper _ hv2 d1
  rw [e, e2, e3]
  exact ⟨key, key⟩

/-- The product of a pair scaled by `2 ^ m` with a pair scaled by `2 ^ (-m)` is the same. -/
theorem scales_mul_cancel (F : Format) {m lo hi lo2 hi2 : ℤ} {x x2 y y2 : FloatVal}
    (hx : FloatVal.Scales m lo hi x x2) (hy : FloatVal.Scales (-m) lo2 hi2 y y2) :
    FloatVal.mul F x2 y2 = FloatVal.mul F x y := by
  obtain ⟨v, rfl, rfl, a1, b1, c1, d1⟩ := hx
  obtain ⟨u, rfl, rfl, a2, b2, c2, d2⟩ := hy
  have hv0 : 0 < v := lt_of_lt_of_le (pow2_pos _) a1
  have hu0 : 0 < u := lt_of_lt_of_le (pow2_pos _) a2
  have e : v * pow2 m * (u * pow2 (-m)) = v * u := by
    have := pow2_mul_neg m
    calc v * pow2 m * (u * pow2 (-m)) = v * u * (pow2 m * pow2 (-m)) := by ring
      _ = v * u := by rw [this, mul_one]
  have n1 : v * u ≠ 0 := ne_of_gt (mul_pos hv0 hu0)
  have n2 : v * pow2 m * (u * pow2 (-m)) ≠ 0 := by rw [e]; exact n1
  simp only [FloatVal.mul, if_neg n1, if_neg n2, e]

/-! ### Coefficients under scaling by a power of two -/

theorem float_ext {x y : F32} (h : x.val = y.val) : x = y := by
  cases x
  cases y
  simp only at h
  rw [h]

theorem a_cont_bounds (i : Fin 5) :
    pow2 0 ≤ ![(1 : ℚ), 15983239 / 4194304, 14211715 / 2097152, 451305 / 65536,
        16509969 / 4194304] i ∧
      ![(1 : ℚ), 15983239 / 4194304, 14211715 / 2097152, 451305 / 65536,
        16509969 / 4194304] i ≤ pow2 3 := by
  have e0 : pow2 0 = 1 := pow2_zero
  have e3 : pow2 3 = 8 := by rw [pow2_eq]; norm_num
  rw [e0, e3]
  fin_cases i <;> constructor <;> norm_num

/-- The entries of `tmp_a` for two cutoffs that differ by the factor `2 ^ n` differ by the
factor `2 ^ (-(5 - i) n)`. -/
theorem tmp_a_scales (w w2 : F32) (n : ℤ) (i : Fin 5)
    (hw : FloatVal.Scales n (-20) 20 w.val w2.val) :
    FloatVal.Scales (-(((5 - i.val : ℕ) : ℤ) * n)) (-100) 103 (Binary32.tmp_a w i).val
      (Binary32.tmp_a w2 i).val := by
  have hi := i.isLt
  have hwd : FloatVal.Scales n (-20) 20 w.toDouble.val w2.toDouble.val :=
    scales_convert binary64 hw (by decide) (by decide) (by decide) (by decide) (by decide)
      (by decide)
  have hpw := scales_pow w.toDouble w2.toDouble (5 - i.val) n (-20) 20 hwd (by omega)
    (by omega) (by omega)
  have hpw2 : FloatVal.Scales (((5 - i.val : ℕ) : ℤ) * n) (-100) 100
      (pow w.toDouble (5 - i.val)).val (pow w2.toDouble (5 - i.val)).val :=
    scales_weaken hpw (by omega) (by omega)
  have hdiv := scales_const_div binary64 _ 0 3 hpw2 (a_cont_bounds i).1 (a_cont_bounds i).2
    (by decide) (by decide) (by decide) (by decide) (by decide) (by decide)
  have hconv := scales_convert binary32 hdiv (by decide) (by decide) (by decide) (by decide)
    (by decide) (by decide)
  show FloatVal.Scales _ _ _
    (FloatVal.convert binary32 (FloatVal.div binary64 (Binary32.a_cont i).toDouble.val
      (pow w.toDouble (5 - i.val)).val))
    (FloatVal.convert binary32 (FloatVal.div binary64 (Binary32.a_cont i).toDouble.val
      (pow w2.toDouble (5 - i.val)).val))
  rw [a_cont_toDouble_val]
  exact hconv

/-- The stored powers of two sample rates that differ by the factor `2 ^ n` differ by the
factor `2 ^ (k n)`. -/
theorem f_k_scales (f f2 : F32) (n : ℤ) (k : ℕ) (hk : 0 < k) (hk5 : k ≤ 5)
    (hf : FloatVal.Scales n (-20) 20 f.val f2.val) :
    FloatVal.Scales ((k : ℤ) * n) (-100) 100 (F64.toFloat (pow f.toDouble k)).val
      (F64.toFloat (pow f2.toDouble k)).val := by
  have hfd : FloatVal.Scales n (-20) 20 f.toDouble.val f2.toDouble.val :=
    scales_convert binary64 hf (by decide) (by decide) (by decide) (by decide) (by decide)
      (by decide)
  have hpw := scales_pow f.toDouble f2.toDouble k n (-20) 20 hfd hk (by omega) (by omega)
  have hpw2 : FloatVal.Scales ((k : ℤ) * n) (-100) 100 (pow f.toDouble k).val
      (pow f2.toDouble k).val :=
    scales_weaken hpw (by omega) (by omega)
  exact scales_convert binary32 hpw2 (by decide) (by decide) (by decide) (by decide)
    (by decide) (by decide)

/-- A term `tmp_a[i] * c * f^(5-i)` of the coefficient formulas, in either order of the
constant, is the same for two configurations that differ by the factor `2 ^ n`. -/
theorem scaled_product (w w2 f f2 c : F32) (cq : ℚ) (i : Fin 5) (n : ℤ)
    (hc : c.val = FloatVal.fin cq) (hc1 : pow2 0 ≤ cq) (hc2 : cq ≤ pow2 9)
    (hw : FloatVal.Scales n (-20) 20 w.val w2.val)
    (hf : FloatVal.Scales (((5 - i.val : ℕ) : ℤ) * n) (-100) 100 f.val f2.val) :
    Binary32.tmp_a w2 i * c * f2 = Binary32.tmp_a w i * c * f ∧
      c * Binary32.tmp_a w2 i * f2 = c * Binary32.tmp_a w i * f := by
  have ht := tmp_a_scales w w2 n i hw
  have hct := scales_const_mul binary32 cq 0 9 ht hc1 hc2 (by decide) (by decide) (by decide)
    (by decide) (by decide) (by decide)
  have hf2 : FloatVal.Scales (-(-(((5 - i.val : ℕ) : ℤ) * n))) (-100) 100 f.val f2.val := by
    rw [neg_neg]
    exact hf
  constructor
  · apply float_ext
    show FloatVal.mul binary32 (FloatVal.mul binary32 (Binary32.tmp_a w2 i).val c.val) f2.val =
      FloatVal.mul binary32 (FloatVal.mul binary32 (Binary32.tmp_a w i).val c.val) f.val
    rw [hc]
    exact scales_mul_cancel binary32 hct.2 hf2
  · apply float_ext
    show FloatVal.mul binary32 (FloatVal.mul binary32 c.val (Binary32.tmp_a w2 i).val) f2.val =
      FloatVal.mul binary32 (FloatVal.mul binary32 c.val (Binary32.tmp_a w i).val) f.val
    rw [hc]
    exact scales_mul_cancel binary32 hct.1 hf2

theorem literal_vals :
    (2 : F32).val = FloatVal.fin 2 ∧ (4 : F32).val = FloatVal.fin 4 ∧
    (6 : F32).val = FloatVal.fin 6 ∧ (8 : F32).val = FloatVal.fin 8 ∧
    (16 : F32).val = FloatVal.fin 16 ∧ (32 : F32).val = FloatVal.fin 32 ∧
    (48 : F32).val = FloatVal.fin 48 ∧ (160 : F32).val = FloatVal.fin 160 ∧
    (320 : F32).val = FloatVal.fin 320 := by
  decide!

/-- The feedback coefficients after `coefficients_calculating` in `float` arithmetic, entry
by entry. -/
theorem float_coefficients_a_entries (S : BesselFilterLP5Order F32) :
    (Binary32.coefficients_calculating S).a =
      ![F64.toFloat 1.0,
        (5 + 6 * Binary32.tmp_a S.cutoff_freq 4 * S.f_s
          + 4 * Binary32.tmp_a S.cutoff_freq 3 * F64.toFloat (pow S.f_s.toDouble 2)
          - Binary32.tmp_a S.cutoff_freq 2 * 8 * F64.toFloat (pow S.f_s.toDouble 3)
          - 48 * Binary32.tmp_a S.cutoff_freq 1 * F64.toFloat (pow S.f_s.toDouble 4)
          - 160 * Binary32.tmp_a S.cutoff_freq 0 * F64.toFloat (pow S.f_s.toDouble 5)) /
          Binary32.a_0 S.f_s S.cutoff_freq,
        (10 + 4 * Binary32.tmp_a S.cutoff_freq 4 * S.f_s
          - 8 * Binary32.tmp_a S.cutoff_freq 3 * F64.toFloat (pow S.f_s.toDouble 2)
          - 16 * Binary32.tmp_a S.cutoff_freq 2 * F64.toFloat (pow S.f_s.toDouble 3)
          + 32 * Binary32.tmp_a S.cutoff_freq 1 * F64.toFloat (pow S.f_s.toDouble 4)
          + 320 * Binary32.tmp_a S.cutoff_freq 0 * F64.toFloat (pow S.f_s.toDouble 5)) /
          Binary32.a_0 S.f_s S.cutoff_freq,
        (10 - 4 * Binary32.tmp_a S.cutoff_freq 4 * S.f_s
          - 8 * Binary32.tmp_a S.cutoff_freq 3 * F64.toFloat (pow S.f_s.toDouble 2)
          + 16 * Binary32.tmp_a S.cutoff_freq 2 * F64.toFloat (pow S.f_s.toDouble 3)
          + 32 * Binary32.tmp_a S.cutoff_freq 1 * F64.toFloat (pow S.f_s.toDouble 4)
          - 320 * Binary32.tmp_a S.cutoff_freq 0 * F64.toFloat (pow S.f_s.toDouble 5)) /
          Binary32.a_0 S.f_s S.cutoff_freq,
        (5 - 6 * Binary32.tmp_a S.cutoff_freq 4 * S.f_s
          + 4 * Binary32.tmp_a S.cutoff_freq 3 * F64.toFloat (pow S.f_s.toDouble 2)
          + 8 * Binary32.tmp_a S.cutoff_freq 2 * F64.toFloat (pow S.f_s.toDouble 3)
          - 48 * Binary32.tmp_a S.cutoff_freq 1 * F64.toFloat (pow S.f_s.toDouble 4)
          + 160 * Binary32.tmp_a S.cutoff_freq 0 * F64.toFloat (pow S.f_s.toDouble 5)) /
          Binary32.a_0 S.f_s S.cutoff_freq,
        (1 - 2 * Binary32.tmp_a S.cutoff_freq 4 * S.f_s
          + 4 * Binary32.tmp_a S.cutoff_freq 3 * F64.toFloat (pow S.f_s.toDouble 2)
          - 8 * Binary32.tmp_a S.cutoff_freq 2 * F64.toFloat (pow S.f_s.toDouble 3)
          + 16 * Binary32.tmp_a S.cutoff_freq 1 * F64.toFloat (pow S.f_s.toDouble 4)
          - 32 * Binary32.tmp_a S.cutoff_freq 0 * F64.toFloat (pow S.f_s.toDouble 5)) /
          Binary32.a_0 S.f_s S.cutoff_freq] := by
  funext i
  fin_cases i <;> rfl

/-- The feedforward coefficients after `coefficients_calculating` in `float` arithmetic,
entry by entry. -/
theorem float_coefficients_b_entries (S : BesselFilterLP5Order F32) :
    (Binary32.coefficients_calculating S).b =
      ![Binary32.b_0_cont / Binary32.a_0 S.f_s S.cutoff_freq,
        (Binary32.b_0_cont * 5) / Binary32.a_0 S.f_s S.cutoff_freq,
        (Binary32.b_0_cont * 10) / Binary32.a_0 S.f_s S.cutoff_freq,
        (Binary32.b_0_cont * 10) / Binary32.a_0 S.f_s S.cutoff_freq,
        (Binary32.b_0_cont * 5) / Binary32.a_0 S.f_s S.cutoff_freq,
        Binary32.b_0_cont / Binary32.a_0 S.f_s S.cutoff_freq] := by
  funext i
  fin_cases i <;> rfl

theorem float_a_0_def (f_s w : F32) :
    Binary32.a_0 f_s w =
      1 + Binary32.tmp_a w 4 * 2 * f_s + Binary32.tmp_a w 3 * 4 * F64.toFloat (pow f_s.toDouble 2)
        + Binary32.tmp_a w 2 * 8 * F64.toFloat (pow f_s.toDouble 3)
        + Binary32.tmp_a w 1 * 16 * F64.toFloat (pow f_s.toDouble 4)
        + Binary32.tmp_a w 0 * 32 * F64.toFloat (pow f_s.toDouble 5) := rfl

/-- Scaling the stored sample rate and the stored cutoff by the same power of two, within
`[2 ^ (-20), 2 ^ 20]`, leaves every coefficient unchanged. -/
theorem coefficients_scale_stored (S T : BesselFilterLP5Order F32) (n : ℤ)
    (hf : FloatVal.Scales n (-20) 20 S.f_s.val T.f_s.val)
    (hw : FloatVal.Scales n (-20) 20 S.cutoff_freq.val T.cutoff_freq.val) :
    (Binary32.coefficients_calculating T).a = (Binary32.coefficients_calculating S).a ∧
    (Binary32.coefficients_calculating T).b = (Binary32.coefficients_calculating S).b := by
  have e0 : pow2 0 = 1 := pow2_zero
  have e9 : pow2 9 = 512 := by rw [pow2_eq]; norm_num
  obtain ⟨l2, l4, l6, l8, l16, l32, l48, l160, l320⟩ := literal_vals
  have f1 : FloatVal.Scales (((5 - (4 : Fin 5).val : ℕ) : ℤ) * n) (-100) 100 S.f_s.val
      T.f_s.val := by
    have : (((5 - (4 : Fin 5).val : ℕ) : ℤ)) * n = n := by
      show ((1 : ℕ) : ℤ) * n = n
      simp
    rw [this]
    exact scales_weaken hf (by decide) (by decide)
  have f2 : FloatVal.Scales (((5 - (3 : Fin 5).val : ℕ) : ℤ) * n) (-100) 100
      (F64.toFloat (pow S.f_s.toDouble 2)).val (F64.toFloat (pow T.f_s.toDouble 2)).val :=
    f_k_scales S.f_s T.f_s n 2 (by decide) (by decide) hf
  have f3 : FloatVal.Scales (((5 - (2 : Fin 5).val : ℕ) : ℤ) * n) (-100) 100
      (F64.toFloat (pow S.f_s.toDouble 3)).val (F64.toFloat (pow T.f_s.toDouble 3)).val :=
    f_k_scales S.f_s T.f_s n 3 (by decide) (by decide) hf
  have f4 : FloatVal.Scales (((5 - (1 : Fin 5).val : ℕ) : ℤ) * n) (-100) 100
      (F64.toFloat (pow S.f_s.toDouble 4)).val (F64.toFloat (pow T.f_s.toDouble 4)).val :=
    f_k_scales S.f_s T.f_s n 4 (by decide) (by decide) hf
  have f5 : FloatVal.Scales (((5 - (0 : Fin 5).val : ℕ) : ℤ) * n) (-100) 100
      (F64.toFloat (pow S.f_s.toDouble 5)).val (F64.toFloat (pow T.f_s.toDouble 5)).val :=
    f_k_scales S.f_s T.f_s n 5 (by decide) (by decide) hf
  have p := fun (c : F32) (cq : ℚ) (hc : c.val = FloatVal.fin cq) (h1 : pow2 0 ≤ cq)
      (h2 : cq ≤ pow2 9) (i : Fin 5) (f f2 : F32)
      (h : FloatVal.Scales (((5 - i.val : ℕ) : ℤ) * n) (-100) 100 f.val f2.val) =>
    scaled_product S.cutoff_freq T.cutoff_freq f f2 c cq i n hc h1 h2 hw h
  have b1 : ∀ q : ℚ, 1 ≤ q → pow2 0 ≤ q := fun q h => by rw [e0]; exact h
  have b2 : ∀ q : ℚ, q ≤ 512 → q ≤ pow2 9 := fun q h => by rw [e9]; exact h
  have a42 := (p 2 2 l2 (b1 _ (by norm_num)) (b2 _ (by norm_num)) 4 _ _ f1)
  have a46 := (p 6 6 l6 (b1 _ (by norm_num)) (b2 _ (by norm_num)) 4 _ _ f1)
  have a44 := (p 4 4 l4 (b1 _ (by norm_num)) (b2 _ (by norm_num)) 4 _ _ f1)
  have a34 := (p 4 4 l4 (b1 _ (by norm_num)) (b2 _ (by norm_num)) 3 _ _ f2)
  have a38 := (p 8 8 l8 (b1 _ (by norm_num)) (b2 _ (by norm_num)) 3 _ _ f2)
  have a28 := (p 8 8 l8 (b1 _ (by norm_num)) (b2 _ (by norm_num)) 2 _ _ f3)
  have a216 := (p 16 16 l16 (b1 _ (by norm_num)) (b2 _ (by norm_num)) 2 _ _ f3)
  have a116 := (p 16 16 l16 (b1 _ (by norm_num)) (b2 _ (by norm_num)) 1 _ _ f4)
  have a148 := (p 48 48 l48 (b1 _ (by norm_num)) (b2 _ (by norm_num)) 1 _ _ f4)
  have a132 := (p 32 32 l32 (b1 _ (by norm_num)) (b2 _ (by norm_num)) 1 _ _ f4)
  have a032 := (p 32 32 l32 (b1 _ (by norm_num)) (b2 _ (by norm_num)) 0 _ _ f5)
  have a0160 := (p 160 160 l160 (b1 _ (by norm_num)) (b2 _ (by norm_num)) 0 _ _ f5)
  have a0320 := (p 320 320 l320 (b1 _ (by norm_num)) (b2 _ (by norm_num)) 0 _ _ f5)
  have hA : Binary32.a_0 T.f_s T.cutoff_freq = Binary32.a_0 S.f_s S.cutoff_freq := by
    rw [float_a_0_def, float_a_0_def, a42.1, a34.1, a28.1, a116.1, a032.1]
  constructor
  · rw [float_coefficients_a_entries, float_coefficients_a_entries, hA, a46.2, a34.2, a28.1,
      a148.2, a0160.2, a44.2, a38.2, a216.2, a132.2, a0320.2, a42.2, a28.2, a116.2, a032.2]
  · rw [float_coefficients_b_entries, float_coefficients_b_entries, hA]

/-- Two arguments in range whose values differ by the factor `2 ^ n`. -/
theorem inRange_scales (x y : F32) (n : ℤ) (hx : x.InRange) (hy : y.InRange)
    (e : y.toRat = x.toRat * pow2 n) : FloatVal.Scales n (-17) 17 x.val y.val := by
  obtain ⟨p, hp, a, b⟩ := hx
  obtain ⟨q, hq, c, d⟩ := hy
  have e1 : x.toRat = p := by rw [F32.toRat, hp]
  have e2 : y.toRat = q := by rw [F32.toRat, hq]
  rw [e1, e2] at e
  rw [e] at hq c d
  exact ⟨p, hp, hq, a, b, c, d⟩

/-- The cutoffs stored for two arguments in range that differ by the factor `2 ^ n` differ by
the same factor. -/
theorem stored_cutoff_scales (c c2 : F32) (n : ℤ) (h : FloatVal.Scales n (-17) 17 c.val c2.val) :
    FloatVal.Scales n (-20) 20 (F64.toFloat ((c * 2).toDouble * Binary32.M_PI)).val
      (F64.toFloat ((c2 * 2).toDouble * Binary32.M_PI)).val := by
  have e1 : pow2 1 = 2 := by rw [pow2_eq]; norm_num
  have e2 : pow2 2 = 4 := by rw [pow2_eq]; norm_num
  have h2 := (scales_const_mul binary32 2 1 1 h (by rw [e1]) (by rw [e1]) (by decide)
    (by decide) (by decide) (by decide) (by decide) (by decide)).2
  have h3 := scales_convert binary64 h2 (by decide) (by decide) (by decide) (by decide)
    (by decide) (by decide)
  have h4 := (scales_const_mul binary64 (884279719003555 / 281474976710656) 1 2 h3
    (by rw [e1]; norm_num) (by rw [e2]; norm_num) (by decide) (by decide) (by decide)
    (by decide) (by decide) (by decide)).2
  have h5 := scales_convert binary32 h4 (by decide) (by decide) (by decide) (by decide)
    (by decide) (by decide)
  have h6 := scales_weaken h5 (show (-20 : ℤ) ≤ 1 + (1 + -17) by decide)
    (show (2 : ℤ) + (1 + 17) ≤ 20 by decide)
  have l2 : (2 : F32).val = FloatVal.fin 2 := literal_vals.1
  show FloatVal.Scales n (-20) 20
    (FloatVal.convert binary32 (FloatVal.mul binary64
      (FloatVal.convert binary64 (FloatVal.mul binary32 c.val (2 : F32).val))
      Binary32.M_PI.val))
    (FloatVal.convert binary32 (FloatVal.mul binary64
      (FloatVal.convert binary64 (FloatVal.mul binary32 c2.val (2 : F32).val))
      Binary32.M_PI.val))
  rw [l2, M_PI_val]
  exact h6

/-- C19 (amended): the coefficients are unchanged when sample rate and cutoff are both
scaled by a power of two `k = 2 ^ n`: `coefficients_calculating` at stored values
`(k * f_s, k * w_c)` yields the same `a` and `b` as at `(f_s, w_c)` when the four stored
values lie in `[2 ^ (-20), 2 ^ 20]`, and a filter built with `(k * sampleRate, k * cutoffHz)`
has the coefficients of one built with `(sampleRate, cutoffHz)` when the four arguments lie
in `[2 ^ (-17), 2 ^ 17]`. -/
theorem coefficients_scale_power_of_two (n : ℤ) :
    (∀ S T : BesselFilterLP5Order F32,
      FloatVal.Scales n (-20) 20 S.f_s.val T.f_s.val →
      FloatVal.Scales n (-20) 20 S.cutoff_freq.val T.cutoff_freq.val →
      (Binary32.coefficients_calculating T).a = (Binary32.coefficients_calculating S).a ∧
      (Binary32.coefficients_calculating T).b = (Binary32.coefficients_calculating S).b) ∧
    (∀ (mem mem2 : BesselFilterLP5Order F32) (sampleRate cutoffHz sampleRate2 cutoffHz2 : F32),
      sampleRate.InRange → cutoffHz.InRange → sampleRate2.InRange → cutoffHz2.InRange →
      sampleRate2.toRat = sampleRate.toRat * pow2 n →
      cutoffHz2.toRat = cutoffHz.toRat * pow2 n →
      (Binary32.construct mem2 sampleRate2 cutoffHz2).a =
        (Binary32.construct mem sampleRate cutoffHz).a ∧
      (Binary32.construct mem2 sampleRate2 cutoffHz2).b =
        (Binary32.construct mem sampleRate cutoffHz).b) := by
  refine ⟨fun S T hf hw => coefficients_scale_stored S T n hf hw, ?_⟩
  intro mem mem2 s c s2 c2 hs hc hs2 hc2 es ec
  exact coefficients_scale_stored
    { mem with f_s := s, cutoff_freq := F64.toFloat ((c * 2).toDouble * Binary32.M_PI) }
    { mem2 with f_s := s2, cutoff_freq := F64.toFloat ((c2 * 2).toDouble * Binary32.M_PI) } n
    (scales_weaken (inRange_scales s s2 n hs hs2 es) (by decide) (by decide))
    (stored_cutoff_scales c c2 n (inRange_scales c c2 n hc hc2 ec))

theorem coefficients_scale_power_of_two_witness :
    (100 : F32).InRange ∧ (10 : F32).InRange ∧ (200 : F32).InRange ∧ (20 : F32).InRange ∧
    (200 : F32).toRat = (100 : F32).toRat * pow2 1 ∧
    (20 : F32).toRat = (10 : F32).toRat * pow2 1 ∧
    (Binary32.construct Binary32.zero_storage 200 20).a =
      (Binary32.construct Binary32.zero_storage 100 10).a ∧
    (Binary32.construct Binary32.zero_storage 200 20).b =
      (Binary32.construct Binary32.zero_storage 100 10).b :=
  ⟨⟨100, by decide!, by decide!, by decide!⟩, ⟨10, by decide!, by decide!, by decide!⟩,
    ⟨200, by decide!, by decide!, by decide!⟩, ⟨20, by decide!, by decide!, by decide!⟩,
    by decide!, by decide!,
    (coefficients_scale_power_of_two 1).2 Binary32.zero_storage Binary32.zero_storage 100 10 200
      20 ⟨100, by decide!, by decide!, by decide!⟩ ⟨10, by decide!, by decide!, by decide!⟩
      ⟨200, by decide!, by decide!, by decide!⟩ ⟨20, by decide!, by decide!, by decide!⟩
      (by decide!) (by decide!)⟩

/-! ### Rounding is monotone -/

theorem ilog2Aux_step (n d fuel : ℕ) (lo hi : ℤ) :
    ilog2Aux n d (fuel + 1) lo hi =
      if pow2Le ((lo + hi) / 2) n d = true then ilog2Aux n d fuel ((lo + hi) / 2) hi
      else ilog2Aux n d fuel lo ((lo + hi) / 2) := rfl

/-- The bisection stays inside the interval it starts from. -/
theorem ilog2Aux_mem (n d : ℕ) :
    ∀ (fuel : ℕ) (lo hi : ℤ), lo ≤ hi → lo ≤ ilog2Aux n d fuel lo hi ∧
      (lo < hi → ilog2Aux n d fuel lo hi < hi) ∧ (lo = hi → ilog2Aux n d fuel lo hi = lo) := by
  intro fuel
  induction fuel with
  | zero =>
    intro lo hi h
    exact ⟨le_refl _, fun h2 => h2, fun _ => rfl⟩
  | succ f ih =>
    intro lo hi h
    have hmid1 : lo ≤ (lo + hi) / 2 := by omega
    have hmid2 : (lo + hi) / 2 ≤ hi := by omega
    by_cases hm : pow2Le ((lo + hi) / 2) n d = true
    · rw [ilog2Aux_step, if_pos hm]
      obtain ⟨a, b, c⟩ := ih ((lo + hi) / 2) hi hmid2
      refine ⟨le_trans hmid1 a, fun h2 => b (by omega), fun h2 => ?_⟩
      have := c (by omega)
      omega
    · rw [ilog2Aux_step, if_neg hm]
      obtain ⟨a, b, c⟩ := ih lo ((lo + hi) / 2) hmid1
      refine ⟨a, fun h2 => ?_, fun h2 => ?_⟩
      · by_cases h3 : lo < (lo + hi) / 2
        · exact lt_of_lt_of_le (b h3) hmid2
        · rw [c (by omega)]
          exact h2
      · exact c (by omega)

/-- The bisection ends just below the first power of two above the magnitude, unless it ends
at the top of the interval it started from. -/
theorem ilog2Aux_upper_top (n d : ℕ) (hd : 0 < d) (H : ℤ) :
    ∀ (fuel : ℕ) (lo hi : ℤ), lo < hi → hi - lo ≤ 2 ^ fuel →
      ((n : ℚ) / (d : ℚ) < pow2 hi ∨ hi = H) →
      ((n : ℚ) / (d : ℚ) < pow2 (ilog2Aux n d fuel lo hi + 1) ∨
        ilog2Aux n d fuel lo hi + 1 = H) := by
  intro fuel
  induction fuel with
  | zero =>
    intro lo hi h1 h2 h3
    simp only [pow_zero] at h2
    have e : hi = lo + 1 := by omega
    simp only [ilog2Aux]
    rw [← e]
    exact h3
  | succ f ih =>
    intro lo hi h1 h2 h3
    have hP : (2 : ℤ) ^ (f + 1) = 2 * 2 ^ f := by ring
    rw [hP] at h2
    by_cases hm : pow2Le ((lo + hi) / 2) n d = true
    · rw [ilog2Aux_step, if_pos hm]
      exact ih _ _ (by omega) (by omega) h3
    · rw [ilog2Aux_step, if_neg hm]
      have hlt : (n : ℚ) / (d : ℚ) < pow2 ((lo + hi) / 2) := by
        by_contra hcon
        push_neg at hcon
        exact hm ((pow2Le_iff _ n d hd).mpr hcon)
      by_cases h4 : lo < (lo + hi) / 2
      · exact ih _ _ h4 (by omega) (Or.inl hlt)
      · have e : (lo + hi) / 2 = lo := by omega
        rw [e] at hlt ⊢
        rw [(ilog2Aux_mem n d f lo lo (le_refl _)).2.2 rfl]
        exact Or.inl (lt_of_lt_of_le hlt (pow2_le_pow2 (by omega)))

theorem ilog2_upper_top (F : Format) (n d : ℕ) (hd : 0 < d) (h0 : 0 ≤ F.emax)
    (h1 : 4 * (F.emax + 1) ≤ 8192) :
    (n : ℚ) / (d : ℚ) < pow2 (ilog2 F n d + 1) ∨ ilog2 F n d + 1 = 2 * (F.emax + 1) :=
  ilog2Aux_upper_top n d hd _ 13 _ _ (by omega) (by norm_num; omega) (Or.inr rfl)

theorem ilog2_lt_top (F : Format) (n d : ℕ) (h0 : 0 ≤ F.emax) :
    ilog2 F n d < 2 * (F.emax + 1) :=
  (ilog2Aux_mem n d 13 _ _ (by omega)).2.1 (by omega)

theorem ilog2_ge_bot (F : Format) (n d : ℕ) (h0 : 0 ≤ F.emax) :
    -(2 * (F.emax + 1)) ≤ ilog2 F n d :=
  (ilog2Aux_mem n d 13 _ _ (by omega)).1

/-- The exponent search is monotone in the magnitude. -/
theorem ilog2_mono (F : Format) (n d n2 d2 : ℕ) (hd : 0 < d) (hd2 : 0 < d2) (h0 : 0 ≤ F.emax)
    (h1 : 4 * (F.emax + 1) ≤ 8192) (h : (n : ℚ) / (d : ℚ) ≤ (n2 : ℚ) / (d2 : ℚ)) :
    ilog2 F n d ≤ ilog2 F n2 d2 := by
  by_contra hcon
  push_neg at hcon
  have hb := ilog2_ge_bot F n2 d2 h0
  have ht := ilog2_lt_top F n d h0
  have hlow : pow2 (ilog2 F n d) ≤ (n : ℚ) / (d : ℚ) := by
    rcases ilog2_spec F n d hd with h2 | h2
    · exact h2
    · omega
  have hup : (n2 : ℚ) / (d2 : ℚ) < pow2 (ilog2 F n2 d2 + 1) := by
    rcases ilog2_upper_top F n2 d2 hd2 h0 h1 with h2 | h2
    · exact h2
    · omega
  have h3 : pow2 (ilog2 F n2 d2 + 1) ≤ pow2 (ilog2 F n d) := pow2_le_pow2 (by omega)
  linarith

/-- The rounded quotient is within one half of the quotient. -/
theorem roundNat_bounds (N D : ℕ) (hD : 0 < D) :
    2 * (D * roundNat N D) ≤ 2 * N + D ∧ 2 * N ≤ D + 2 * (D * roundNat N D) := by
  have a1 := Nat.div_add_mod N D
  have b1 := Nat.mod_lt N hD
  unfold roundNat
  generalize N / D = q at *
  generalize N % D = r at *
  split_ifs with hc
  · rw [Nat.mul_add, Nat.mul_one]
    rcases hc with hc | ⟨hc, _⟩ <;> constructor <;> omega
  · push_neg at hc
    have := hc.1
    constructor <;> omega

/-- Rounding a ratio of naturals to the nearest integer, ties to even, is monotone. -/
theorem roundNat_mono (N D N2 D2 : ℕ) (hD : 0 < D) (hD2 : 0 < D2) (h : N * D2 ≤ N2 * D) :
    roundNat N D ≤ roundNat N2 D2 := by
  rcases Nat.eq_or_lt_of_le h with he | hlt
  · exact le_of_eq (roundNat_congr N D N2 D2 hD hD2 he)
  · by_contra hcon
    push_neg at hcon
    have u1 := (roundNat_bounds N D hD).1
    have u2 := (roundNat_bounds N2 D2 hD2).2
    have k : D * (roundNat N2 D2 + 1) ≤ D * roundNat N D := Nat.mul_le_mul_left _ hcon
    rw [Nat.mul_add, Nat.mul_one] at k
    -- (2 c2 + 1) D ≤ 2 N and 2 N2 ≤ (2 c2 + 1) D2
    have w1 : (2 * roundNat N2 D2 + 1) * D ≤ 2 * N := by
      have : (2 * roundNat N2 D2 + 1) * D = 2 * (D * roundNat N2 D2) + D := by ring
      omega
    have w2 : 2 * N2 ≤ (2 * roundNat N2 D2 + 1) * D2 := by
      have : (2 * roundNat N2 D2 + 1) * D2 = D2 + 2 * (D2 * roundNat N2 D2) := by ring
      omega
    have x1 : (2 * roundNat N2 D2 + 1) * D * D2 ≤ 2 * N * D2 := Nat.mul_le_mul_right _ w1
    have x2 : 2 * N2 * D ≤ (2 * roundNat N2 D2 + 1) * D2 * D := Nat.mul_le_mul_right _ w2
    have x3 : (2 * roundNat N2 D2 + 1) * D2 * D = (2 * roundNat N2 D2 + 1) * D * D2 := by ring
    have x4 : 2 * N * D2 = 2 * (N * D2) := by ring
    have x5 : 2 * N2 * D = 2 * (N2 * D) := by ring
    omega

theorem quanta_mono (g : ℤ) (n d n2 d2 : ℕ) (hd : 0 < d) (hd2 : 0 < d2)
    (h : (n : ℚ) / (d : ℚ) ≤ (n2 : ℚ) / (d2 : ℚ)) : quanta g n d ≤ quanta g n2 d2 := by
  obtain ⟨N, D, hD, e, r⟩ := quanta_ratio g n d hd
  obtain ⟨N2, D2, hD2, e2, r2⟩ := quanta_ratio g n2 d2 hd2
  rw [e, e2]
  apply roundNat_mono _ _ _ _ hD hD2
  have hDq : (0 : ℚ) < D := by exact_mod_cast hD
  have hD2q : (0 : ℚ) < D2 := by exact_mod_cast hD2
  have hr : (N : ℚ) / (D : ℚ) ≤ (N2 : ℚ) / (D2 : ℚ) := by
    rw [r, r2]
    exact mul_le_mul_of_nonneg_right h (le_of_lt (pow2_pos _))
  rw [div_le_div_iff hDq hD2q] at hr
  exact_mod_cast hr

theorem binary32_valid : binary32.Valid := by
  unfold Format.Valid binary32
  decide

theorem binary64_valid : binary64.Valid := by
  unfold Format.Valid binary64
  decide

theorem mag_nonneg_of_nonNegOrNaN {x : FloatVal} (h : x.NonNegOrNaN) : 0 ≤ x.mag := by
  rcases h with rfl | rfl | rfl | ⟨v, hv, rfl⟩
  · exact le_refl _
  · exact le_top
  · exact le_refl _
  · show (0 : WithTop ℚ) ≤ ((v : ℚ) : WithTop ℚ)
    exact_mod_cast le_of_lt hv

theorem roundParts_mono (F : Format) (c1 c2 : ℕ) (g : ℤ) (h : c1 ≤ c2) :
    (roundParts F false c1 g).mag ≤ (roundParts F false c2 g).mag := by
  unfold roundParts
  by_cases h2 : pow2Le (F.emax + 1 - g) c2 1 = true
  · rw [if_pos h2]
    exact le_top
  · rw [if_neg h2]
    have h1 : ¬ pow2Le (F.emax + 1 - g) c1 1 = true := by
      intro hc
      apply h2
      rw [pow2Le_iff _ _ _ Nat.one_pos] at hc ⊢
      have : ((c1 : ℚ)) ≤ (c2 : ℚ) := by exact_mod_cast h
      simp only [Nat.cast_one, div_one] at hc ⊢
      linarith
    rw [if_neg h1]
    by_cases hz : c1 = 0
    · rw [if_pos hz]
      split_ifs
      · exact le_refl _
      · show (0 : WithTop ℚ) ≤ ((scaled false c2 g : ℚ) : WithTop ℚ)
        rw [scaled_eq]
        have := pow2_pos g
        have : (0 : ℚ) ≤ (if false = true then -1 else 1) * (c2 : ℚ) * pow2 g := by
          simp only [Bool.false_eq_true, if_false, one_mul]
          positivity
        exact_mod_cast this
    · have hz2 : c2 ≠ 0 := by omega
      rw [if_neg hz, if_neg hz2]
      show ((scaled false c1 g : ℚ) : WithTop ℚ) ≤ ((scaled false c2 g : ℚ) : WithTop ℚ)
      rw [scaled_eq, scaled_eq]
      have hp := pow2_pos g
      have hc : ((c1 : ℚ)) ≤ (c2 : ℚ) := by exact_mod_cast h
      have : (if false = true then (-1 : ℚ) else 1) * (c1 : ℚ) * pow2 g ≤
          (if false = true then (-1 : ℚ) else 1) * (c2 : ℚ) * pow2 g := by
        simp only [Bool.false_eq_true, if_false, one_mul]
        exact mul_le_mul_of_nonneg_right hc (le_of_lt hp)
      exact_mod_cast this

/-- A finite result of rounding is below `2 ^ (emax + 1)`. -/
theorem roundTo_fin_lt (F : Format) (q v : ℚ) (hq : 0 < q) (h : roundTo F q = FloatVal.fin v) :
    v < pow2 (F.emax + 1) := by
  rw [roundTo_of_pos F q hq] at h
  unfold roundParts at h
  split_ifs at h with h1 h2
  have e := FloatVal.fin.inj h
  rw [← e, scaled_eq]
  simp only [Bool.false_eq_true, if_false, one_mul]
  have h3 : ¬ pow2 (F.emax + 1 - quantum F q.num.natAbs q.den) ≤
      ((quanta (quantum F q.num.natAbs q.den) q.num.natAbs q.den : ℕ) : ℚ) / ((1 : ℕ) : ℚ) :=
    fun hc => h1 ((pow2Le_iff _ _ _ Nat.one_pos).mpr hc)
  simp only [Nat.cast_one, div_one, not_le] at h3
  have e2 : pow2 (F.emax + 1) = pow2 (F.emax + 1 - quantum F q.num.natAbs q.den) *
      pow2 (quantum F q.num.natAbs q.den) := by
    rw [← pow2_add]
    congr 1
    ring
  rw [e2]
  exact mul_lt_mul_of_pos_right h3 (pow2_pos _)

/-- Rounding is monotone on the positive rationals. -/
theorem roundTo_mono (F : Format) (hv : F.Valid) (p q : ℚ) (hp : 0 < p) (hpq : p ≤ q) :
    (roundTo F p).mag ≤ (roundTo F q).mag := by
  obtain ⟨hF, hprec, h0, h1, hee⟩ := hv
  have hprec2 : (1 : ℤ) ≤ (F.prec : ℤ) := by exact_mod_cast hprec
  have hq : 0 < q := lt_of_lt_of_le hp hpq
  have e1 := num_natAbs_div_den p hp
  have e2 := num_natAbs_div_den q hq
  have hl := ilog2_mono F p.num.natAbs p.den q.num.natAbs q.den p.den_pos q.den_pos h0 h1
    (by rw [e1, e2]; exact hpq)
  have hg : quantum F p.num.natAbs p.den ≤ quantum F q.num.natAbs q.den := by
    unfold quantum
    have := max_le_max_right F.emin hl
    omega
  rcases eq_or_lt_of_le hg with hge | hgl
  · rw [roundTo_of_pos F p hp, roundTo_of_pos F q hq, hge]
    apply roundParts_mono
    apply quanta_mono _ _ _ _ _ p.den_pos q.den_pos
    rw [e1, e2]
    exact hpq
  · have hl2 : F.emin < ilog2 F q.num.natAbs q.den := by
      unfold quantum at hgl
      by_contra hcon
      push_neg at hcon
      rw [max_eq_right hcon] at hgl
      have := le_max_right (ilog2 F p.num.natAbs p.den) F.emin
      omega
    have hl1 : ilog2 F p.num.natAbs p.den < ilog2 F q.num.natAbs q.den := by
      unfold quantum at hgl
      rw [max_eq_left (le_of_lt hl2)] at hgl
      have := le_max_left (ilog2 F p.num.natAbs p.den) F.emin
      omega
    have hqlow : pow2 (ilog2 F q.num.natAbs q.den) ≤ q := by
      rcases ilog2_spec F q.num.natAbs q.den q.den_pos with h | h
      · rw [e2] at h
        exact h
      · omega
    have hpup : p < pow2 (ilog2 F q.num.natAbs q.den) := by
      have ht := ilog2_lt_top F q.num.natAbs q.den h0
      rcases ilog2_upper_top F p.num.natAbs p.den p.den_pos h0 h1 with h | h
      · rw [e1] at h
        exact lt_of_lt_of_le h (pow2_le_pow2 (by omega))
      · omega
    by_cases hmax : ilog2 F q.num.natAbs q.den ≤ F.emax
    · rcases roundTo_le_pow2 F p _ hp (le_of_lt hpup) (by omega) hF hprec hmax with h | ⟨u, _, hu, h⟩
      · rw [h]
        rcases roundTo_pos_cases F q hq with h2 | h2 | ⟨w, hw, h2⟩ <;> rw [h2]
        · exact le_top
        · show (0 : WithTop ℚ) ≤ ((w : ℚ) : WithTop ℚ)
          exact_mod_cast le_of_lt hw
      · rw [h]
        rcases roundTo_ge_pow2 F q _ hqlow (by omega) hF hprec with h2 | ⟨w, hw, h2⟩ <;> rw [h2]
        · exact le_top
        · show ((u : ℚ) : WithTop ℚ) ≤ ((w : ℚ) : WithTop ℚ)
          exact_mod_cast le_trans hu hw
    · push_neg at hmax
      have hbig : pow2 (F.emax + 1) ≤ q := le_trans (pow2_le_pow2 (by omega)) hqlow
      rcases roundTo_ge_pow2 F q _ hbig (by omega) hF hprec with h2 | ⟨w, hw, h2⟩
      · rw [h2]
        exact le_top
      · have := roundTo_fin_lt F q w hq h2
        linarith

/-! ### Monotone operations -/

theorem isNonNeg_of_ne_nan {x : FloatVal} (h : x.NonNegOrNaN) (hn : x ≠ FloatVal.nan) :
    x.IsNonNeg := by
  rcases h with h | h
  · exact absurd h hn
  · exact h

theorem isNonNeg_ne_nan {x : FloatVal} (h : x.IsNonNeg) : x ≠ FloatVal.nan := by
  rcases h with rfl | rfl | ⟨v, _, rfl⟩ <;> exact fun h => FloatVal.noConfusion h

theorem atLeast_isNonNeg {k : ℤ} {x : FloatVal} (h : x.AtLeast k) : x.IsNonNeg := by
  rcases h with h | ⟨v, hv, h⟩
  · exact Or.inl h
  · exact Or.inr (Or.inr ⟨v, lt_of_lt_of_le (pow2_pos k) hv, h⟩)

theorem mag_nonneg {x : FloatVal} (h : x.IsNonNeg) : 0 ≤ x.mag :=
  mag_nonneg_of_nonNegOrNaN (Or.inr h)

theorem mag_fin (q : ℚ) : (FloatVal.fin q).mag = ((q : ℚ) : WithTop ℚ) := rfl

theorem mag_zero (s : Bool) : (FloatVal.zero s).mag = 0 := rfl

/-- What lies above a positive finite value. -/
theorem pos_le_mag {p : ℚ} {x : FloatVal} (hx : x.IsNonNeg) (hp : 0 < p)
    (h : ((p : ℚ) : WithTop ℚ) ≤ x.mag) :
    x = FloatVal.inf false ∨ ∃ v : ℚ, p ≤ v ∧ x = FloatVal.fin v := by
  rcases hx with rfl | rfl | ⟨v, hv, rfl⟩
  · exact Or.inl rfl
  · rw [mag_zero] at h
    have : p ≤ 0 := by exact_mod_cast h
    linarith
  · rw [mag_fin] at h
    exact Or.inr ⟨v, by exact_mod_cast h, rfl⟩

/-- What lies above `+inf`. -/
theorem top_le_mag {x : FloatVal} (hx : x.IsNonNeg) (h : ⊤ ≤ x.mag) : x = FloatVal.inf false := by
  rcases hx with rfl | rfl | ⟨v, hv, rfl⟩
  · rfl
  · rw [mag_zero] at h
    exact absurd (top_le_iff.mp h) (by exact WithTop.zero_ne_top)
  · rw [mag_fin] at h
    exact absurd (top_le_iff.mp h) (WithTop.coe_ne_top)

theorem roundTo_isNonNeg (F : Format) (q : ℚ) (hq : 0 < q) : (roundTo F q).IsNonNeg :=
  roundTo_pos_cases F q hq

theorem mul_ne_nan_isNonNeg (F : Format) {x y : FloatVal} (hx : x.IsNonNeg) (hy : y.IsNonNeg)
    (hn : FloatVal.mul F x y ≠ FloatVal.nan) : (FloatVal.mul F x y).IsNonNeg :=
  isNonNeg_of_ne_nan (mul_nonNegOrNaN F (Or.inr hx) (Or.inr hy)) hn

/-- Multiplication is monotone on data that are not negative, where it is defined. -/
theorem mul_mono_mag (F : Format) (hv : F.Valid) {x x2 y y2 : FloatVal} (hx : x.IsNonNeg)
    (hx2 : x2.IsNonNeg) (hy : y.IsNonNeg) (hy2 : y2.IsNonNeg) (h1 : x.mag ≤ x2.mag)
    (h2 : y.mag ≤ y2.mag) (n2 : FloatVal.mul F x2 y2 ≠ FloatVal.nan) :
    (FloatVal.mul F x y).mag ≤ (FloatVal.mul F x2 y2).mag := by
  have hnn := mag_nonneg (mul_ne_nan_isNonNeg F hx2 hy2 n2)
  rcases hx with rfl | rfl | ⟨p, hp, rfl⟩
  · -- x = +inf, so x2 = +inf
    have e := top_le_mag hx2 h1
    subst e
    rcases hy with rfl | rfl | ⟨q, hq, rfl⟩
    · have e := top_le_mag hy2 h2
      subst e
      exact le_refl _
    · exact hnn
    · rcases pos_le_mag hy2 hq h2 with rfl | ⟨q2, hq2, rfl⟩
      · exact le_top
      · have hq0 : ¬ q2 < 0 := not_lt.mpr (le_trans (le_of_lt hq) hq2)
        have : FloatVal.mul F (FloatVal.inf false) (FloatVal.fin q2) = FloatVal.inf false := by
          simp [FloatVal.mul, FloatVal.sign, hq0]
        rw [this]
        exact le_top
  · -- x = +0: the product is a zero or a NaN
    rcases hy with rfl | rfl | ⟨q, hq, rfl⟩ <;> exact hnn
  · rcases pos_le_mag hx2 hp h1 with rfl | ⟨p2, hp2, rfl⟩
    · -- x2 = +inf
      rcases hy with rfl | rfl | ⟨q, hq, rfl⟩
      · have e := top_le_mag hy2 h2
        subst e
        exact le_top
      · exact hnn
      · rcases pos_le_mag hy2 hq h2 with rfl | ⟨q2, hq2, rfl⟩
        · exact le_top
        · have hq0 : ¬ q2 < 0 := not_lt.mpr (le_trans (le_of_lt hq) hq2)
          have : FloatVal.mul F (FloatVal.inf false) (FloatVal.fin q2) = FloatVal.inf false := by
            simp [FloatVal.mul, FloatVal.sign, hq0]
          rw [this]
          exact le_top
    · have hp20 : 0 < p2 := lt_of_lt_of_le hp hp2
      rcases hy with rfl | rfl | ⟨q, hq, rfl⟩
      · have e := top_le_mag hy2 h2
        subst e
        have hp0 : ¬ p2 < 0 := not_lt.mpr (le_of_lt hp20)
        have : FloatVal.mul F (FloatVal.fin p2) (FloatVal.inf false) = FloatVal.inf false := by
          simp [FloatVal.mul, FloatVal.sign, hp0]
        rw [this]
        exact le_top
      · exact hnn
      · rcases pos_le_mag hy2 hq h2 with rfl | ⟨q2, hq2, rfl⟩
        · have hp0 : ¬ p2 < 0 := not_lt.mpr (le_of_lt hp20)
          have : FloatVal.mul F (FloatVal.fin p2) (FloatVal.inf false) = FloatVal.inf false := by
            simp [FloatVal.mul, FloatVal.sign, hp0]
          rw [this]
          exact le_top
        · have hq20 : 0 < q2 := lt_of_lt_of_le hq hq2
          have n1 : p * q ≠ 0 := ne_of_gt (mul_pos hp hq)
          have n3 : p2 * q2 ≠ 0 := ne_of_gt (mul_pos hp20 hq20)
          simp only [FloatVal.mul, if_neg n1, if_neg n3]
          exact roundTo_mono F hv _ _ (mul_pos hp hq)
            (mul_le_mul hp2 hq2 (le_of_lt hq) (le_of_lt hp20))

theorem add_isNonNeg (F : Format) {x y : FloatVal} (hx : x.IsNonNeg) (hy : y.IsNonNeg) :
    (FloatVal.add F x y).IsNonNeg := by
  rcases hx with rfl | rfl | ⟨p, hp, rfl⟩ <;> rcases hy with rfl | rfl | ⟨q, hq, rfl⟩
  · exact Or.inl (by simp [FloatVal.add])
  · exact Or.inl rfl
  · exact Or.inl rfl
  · exact Or.inl rfl
  · exact Or.inr (Or.inl rfl)
  · exact roundTo_isNonNeg F q hq
  · exact Or.inl rfl
  · exact roundTo_isNonNeg F p hp
  · exact roundTo_isNonNeg F (p + q) (add_pos hp hq)

/-- Addition is monotone on data that are not negative. -/
theorem add_mono_mag (F : Format) (hv : F.Valid) {x x2 y y2 : FloatVal} (hx : x.IsNonNeg)
    (hx2 : x2.IsNonNeg) (hy : y.IsNonNeg) (hy2 : y2.IsNonNeg) (h1 : x.mag ≤ x2.mag)
    (h2 : y.mag ≤ y2.mag) : (FloatVal.add F x y).mag ≤ (FloatVal.add F x2 y2).mag := by
  have hnn := mag_nonneg (add_isNonNeg F hx2 hy2)
  rcases hx with rfl | rfl | ⟨p, hp, rfl⟩
  · have e := top_le_mag hx2 h1
    subst e
    rcases hy2 with rfl | rfl | ⟨q2, hq2, rfl⟩
    · have : FloatVal.add F (FloatVal.inf false) (FloatVal.inf false) = FloatVal.inf false := by
        simp [FloatVal.add]
      rw [this]
      exact le_top
    · exact le_top
    · exact le_top
  · rcases hy with rfl | rfl | ⟨q, hq, rfl⟩
    · have e := top_le_mag hy2 h2
      subst e
      rcases hx2 with rfl | rfl | ⟨p2, hp2, rfl⟩
      · have : FloatVal.add F (FloatVal.inf false) (FloatVal.inf false) = FloatVal.inf false := by
          simp [FloatVal.add]
        rw [this]
        exact le_top
      · exact le_refl _
      · exact le_refl _
    · exact hnn
    · rcases pos_le_mag hy2 hq h2 with rfl | ⟨q2, hq2, rfl⟩
      · rcases hx2 with rfl | rfl | ⟨p2, hp2, rfl⟩
        · have : FloatVal.add F (FloatVal.inf false) (FloatVal.inf false) =
              FloatVal.inf false := by
            simp [FloatVal.add]
          rw [this]
          exact le_top
        · exact le_top
        · exact le_top
      · rcases hx2 with rfl | rfl | ⟨p2, hp2, rfl⟩
        · exact le_top
        · exact roundTo_mono F hv _ _ hq hq2
        · exact roundTo_mono F hv _ _ hq (by linarith)
  · rcases pos_le_mag hx2 hp h1 with rfl | ⟨p2, hp2, rfl⟩
    · rcases hy2 with rfl | rfl | ⟨q2, hq2, rfl⟩
      · have : FloatVal.add F (FloatVal.inf false) (FloatVal.inf false) = FloatVal.inf false := by
          simp [FloatVal.add]
        rw [this]
        exact le_top
      · exact le_top
      · exact le_top
    · rcases hy with rfl | rfl | ⟨q, hq, rfl⟩
      · have e := top_le_mag hy2 h2
        subst e
        exact le_refl _
      · rcases hy2 with rfl | rfl | ⟨q2, hq2, rfl⟩
        · exact le_top
        · exact roundTo_mono F hv _ _ hp hp2
        · exact roundTo_mono F hv _ _ hp (by linarith)
      · rcases pos_le_mag hy2 hq h2 with rfl | ⟨q2, hq2, rfl⟩
        · exact le_top
        · exact roundTo_mono F hv _ _ (add_pos hp hq) (by linarith)

theorem div_isNonNeg (F : Format) {c : ℚ} {y : FloatVal} (hc : 0 < c) (hy : y.IsNonNeg) :
    (FloatVal.div F (FloatVal.fin c) y).IsNonNeg := by
  have hc0 : ¬ c < 0 := not_lt.mpr (le_of_lt hc)
  rcases hy with rfl | rfl | ⟨q, hq, rfl⟩
  · exact Or.inr (Or.inl (by simp [FloatVal.div, FloatVal.sign, hc0]))
  · exact Or.inl (by simp [FloatVal.div, FloatVal.sign, hc0])
  · simp only [FloatVal.div, if_neg (ne_of_gt hq)]
    exact roundTo_isNonNeg F _ (div_pos hc hq)

/-- A positive constant divided by a datum that is not negative is antitone in the datum. -/
theorem div_anti_mag (F : Format) (hv : F.Valid) {c : ℚ} {y y2 : FloatVal} (hc : 0 < c)
    (hy : y.IsNonNeg) (hy2 : y2.IsNonNeg) (h : y.mag ≤ y2.mag) :
    (FloatVal.div F (FloatVal.fin c) y2).mag ≤ (FloatVal.div F (FloatVal.fin c) y).mag := by
  have hnn := mag_nonneg (div_isNonNeg F hc hy)
  have hc0 : ¬ c < 0 := not_lt.mpr (le_of_lt hc)
  rcases hy with rfl | rfl | ⟨q, hq, rfl⟩
  · have e := top_le_mag hy2 h
    subst e
    exact le_refl _
  · have : FloatVal.div F (FloatVal.fin c) (FloatVal.zero false) = FloatVal.inf false := by
      simp [FloatVal.div, FloatVal.sign, hc0]
    rw [this]
    exact le_top
  · rcases pos_le_mag hy2 hq h with rfl | ⟨q2, hq2, rfl⟩
    · have : FloatVal.div F (FloatVal.fin c) (FloatVal.inf false) = FloatVal.zero false := by
        simp [FloatVal.div, FloatVal.sign, hc0]
      rw [this]
      exact hnn
    · have hq20 : 0 < q2 := lt_of_lt_of_le hq hq2
      simp only [FloatVal.div, if_neg (ne_of_gt hq), if_neg (ne_of_gt hq20)]
      exact roundTo_mono F hv _ _ (div_pos hc hq20) (div_le_div_of_nonneg_left (le_of_lt hc) hq hq2)

theorem convert_isNonNeg (F : Format) {x : FloatVal} (hx : x.IsNonNeg) :
    (FloatVal.convert F x).IsNonNeg := by
  rcases hx with rfl | rfl | ⟨p, hp, rfl⟩
  · exact Or.inl rfl
  · exact Or.inr (Or.inl rfl)
  · exact roundTo_isNonNeg F p hp

/-- Conversion to a format is monotone on data that are not negative. -/
theorem convert_mono_mag (F : Format) (hv : F.Valid) {x x2 : FloatVal} (hx : x.IsNonNeg)
    (hx2 : x2.IsNonNeg) (h : x.mag ≤ x2.mag) :
    (FloatVal.convert F x).mag ≤ (FloatVal.convert F x2).mag := by
  have hnn := mag_nonneg (convert_isNonNeg F hx2)
  rcases hx with rfl | rfl | ⟨p, hp, rfl⟩
  · have e := top_le_mag hx2 h
    subst e
    exact le_refl _
  · exact hnn
  · rcases pos_le_mag hx2 hp h with rfl | ⟨p2, hp2, rfl⟩
    · exact le_top
    · exact roundTo_mono F hv _ _ hp hp2

theorem ofNat_double_isNonNeg (n : ℕ) (hn : 0 < n) : (@OfNat.ofNat F64 n _).val.IsNonNeg :=
  roundTo_pos_cases binary64 (n : ℚ) (Nat.cast_pos.mpr hn)

theorem pow_isNonNeg (x : F64) (n : ℕ) (hx : x.val.IsNonNeg) : (pow x n).val.IsNonNeg := by
  have h := pow_nonNegOrNaN x n (Or.inr hx)
  apply isNonNeg_of_ne_nan h
  rcases Nat.eq_zero_or_pos n with rfl | hn
  · rw [pow_exponent_zero]
    exact isNonNeg_ne_nan (ofNat_double_isNonNeg 1 Nat.one_pos)
  · obtain ⟨m, rfl⟩ := Nat.exists_eq_succ_of_ne_zero (Nat.pos_iff_ne_zero.mp hn)
    rw [pow_succ_val]
    rcases hx with h2 | h2 | ⟨p, hp, h2⟩ <;> rw [h2]
    · exact fun h => FloatVal.noConfusion h
    · exact fun h => FloatVal.noConfusion h
    · exact isNonNeg_ne_nan (roundTo_isNonNeg binary64 _ (pow_pos hp _))

/-- The power function is monotone on data that are not negative. -/
theorem pow_mono_mag (x x2 : F64) (n : ℕ) (hn : 0 < n) (hx : x.val.IsNonNeg)
    (hx2 : x2.val.IsNonNeg) (h : x.val.mag ≤ x2.val.mag) :
    (pow x n).val.mag ≤ (pow x2 n).val.mag := by
  have hnn := mag_nonneg (pow_isNonNeg x2 n hx2)
  obtain ⟨m, rfl⟩ := Nat.exists_eq_succ_of_ne_zero (Nat.pos_iff_ne_zero.mp hn)
  rw [pow_succ_val] at hnn ⊢
  rw [pow_succ_val]
  rcases hx with h1 | h1 | ⟨p, hp, h1⟩
  · rw [h1] at h
    have e := top_le_mag hx2 h
    rw [h1, e]
  · rw [h1]
    exact hnn
  · rw [h1] at h
    rcases pos_le_mag hx2 hp h with e | ⟨p2, hp2, e⟩
    · rw [h1, e]
      exact le_top
    · rw [h1, e]
      exact roundTo_mono binary64 binary64_valid _ _ (pow_pos hp _)
        (pow_le_pow_left (le_of_lt hp) hp2 _)

/-! ### The normalisation term is antitone in the cutoff -/

theorem add_ne_nan (F : Format) {x y : FloatVal} (h : FloatVal.add F x y ≠ FloatVal.nan) :
    x ≠ FloatVal.nan ∧ y ≠ FloatVal.nan := by
  constructor
  · rintro rfl
    exact h (by cases y <;> rfl)
  · rintro rfl
    exact h (by cases x <;> rfl)

theorem mul_fin_isNonNeg (F : Format) {x : FloatVal} {c : ℚ} (hx : x.IsNonNeg) (hc : 0 < c) :
    (FloatVal.mul F x (FloatVal.fin c)).IsNonNeg := by
  have hc0 : ¬ c < 0 := not_lt.mpr (le_of_lt hc)
  rcases hx with rfl | rfl | ⟨p, hp, rfl⟩
  · exact Or.inl (by simp [FloatVal.mul, FloatVal.sign, hc0])
  · exact Or.inr (Or.inl (by simp [FloatVal.mul, FloatVal.sign, hc0]))
  · simp only [FloatVal.mul, if_neg (ne_of_gt (mul_pos hp hc))]
    exact roundTo_isNonNeg F _ (mul_pos hp hc)

theorem fin_isNonNeg {c : ℚ} (hc : 0 < c) : (FloatVal.fin c).IsNonNeg :=
  Or.inr (Or.inr ⟨c, hc, rfl⟩)

/-- The entries of `tmp_a` are not negative and not NaN when the cutoff is neither. -/
theorem tmp_a_isNonNeg (w : F32) (hw : w.val.IsNonNeg) (i : Fin 5) :
    (Binary32.tmp_a w i).val.IsNonNeg := by
  show (FloatVal.convert binary32 (FloatVal.div binary64 (Binary32.a_cont i).toDouble.val
    (pow w.toDouble (5 - i.val)).val)).IsNonNeg
  rw [a_cont_toDouble_val]
  exact convert_isNonNeg _ (div_isNonNeg _ (a_cont_pos i)
    (pow_isNonNeg _ _ (convert_isNonNeg _ hw)))

/-- The entries of `tmp_a` are antitone in the cutoff. -/
theorem tmp_a_anti (w w2 : F32) (hw : w.val.IsNonNeg) (hw2 : w2.val.IsNonNeg)
    (h : w.val.mag ≤ w2.val.mag) (i : Fin 5) :
    (Binary32.tmp_a w2 i).val.mag ≤ (Binary32.tmp_a w i).val.mag := by
  have hi := i.isLt
  show (FloatVal.convert binary32 (FloatVal.div binary64 (Binary32.a_cont i).toDouble.val
      (pow w2.toDouble (5 - i.val)).val)).mag ≤
    (FloatVal.convert binary32 (FloatVal.div binary64 (Binary32.a_cont i).toDouble.val
      (pow w.toDouble (5 - i.val)).val)).mag
  rw [a_cont_toDouble_val]
  have h1 : w.toDouble.val.mag ≤ w2.toDouble.val.mag :=
    convert_mono_mag binary64 binary64_valid hw hw2 h
  have hd : w.toDouble.val.IsNonNeg := convert_isNonNeg _ hw
  have hd2 : w2.toDouble.val.IsNonNeg := convert_isNonNeg _ hw2
  have h2 := pow_mono_mag w.toDouble w2.toDouble (5 - i.val) (by omega) hd hd2 h1
  have hp := pow_isNonNeg w.toDouble (5 - i.val) hd
  have hp2 := pow_isNonNeg w2.toDouble (5 - i.val) hd2
  have h3 := div_anti_mag binary64 binary64_valid (a_cont_pos i) hp hp2 h2
  exact convert_mono_mag binary32 binary32_valid (div_isNonNeg _ (a_cont_pos i) hp2)
    (div_isNonNeg _ (a_cont_pos i) hp) h3

/-- A term `tmp_a[i] * c * f` of the normalisation term is antitone in the cutoff. -/
theorem term_anti (w w2 c f : F32) (cq : ℚ) (i : Fin 5) (hw : w.val.IsNonNeg)
    (hw2 : w2.val.IsNonNeg) (h : w.val.mag ≤ w2.val.mag) (hc : c.val = FloatVal.fin cq)
    (hcq : 0 < cq) (hf : f.val.IsNonNeg)
    (n1 : (Binary32.tmp_a w i * c * f).val ≠ FloatVal.nan) :
    (Binary32.tmp_a w2 i * c * f).val.mag ≤ (Binary32.tmp_a w i * c * f).val.mag := by
  have ht := tmp_a_isNonNeg w hw i
  have ht2 := tmp_a_isNonNeg w2 hw2 i
  have ha := tmp_a_anti w w2 hw hw2 h i
  have hm : (FloatVal.mul binary32 (Binary32.tmp_a w2 i).val (FloatVal.fin cq)).mag ≤
      (FloatVal.mul binary32 (Binary32.tmp_a w i).val (FloatVal.fin cq)).mag :=
    mul_mono_mag binary32 binary32_valid ht2 ht (fin_isNonNeg hcq) (fin_isNonNeg hcq) ha
      (le_refl _) (isNonNeg_ne_nan (mul_fin_isNonNeg binary32 ht hcq))
  show (FloatVal.mul binary32 (FloatVal.mul binary32 (Binary32.tmp_a w2 i).val c.val) f.val).mag ≤
    (FloatVal.mul binary32 (FloatVal.mul binary32 (Binary32.tmp_a w i).val c.val) f.val).mag
  have n1' : FloatVal.mul binary32 (FloatVal.mul binary32 (Binary32.tmp_a w i).val c.val) f.val
      ≠ FloatVal.nan := n1
  rw [hc] at n1' ⊢
  exact mul_mono_mag binary32 binary32_valid (mul_fin_isNonNeg binary32 ht2 hcq)
    (mul_fin_isNonNeg binary32 ht hcq) hf hf hm (le_refl _) n1'

theorem term_isNonNeg (w c f : F32) (cq : ℚ) (i : Fin 5) (hw : w.val.IsNonNeg)
    (hc : c.val = FloatVal.fin cq) (hcq : 0 < cq) (hf : f.val.IsNonNeg)
    (n1 : (Binary32.tmp_a w i * c * f).val ≠ FloatVal.nan) :
    (Binary32.tmp_a w i * c * f).val.IsNonNeg := by
  have ht := tmp_a_isNonNeg w hw i
  have n1' : FloatVal.mul binary32 (FloatVal.mul binary32 (Binary32.tmp_a w i).val c.val) f.val
      ≠ FloatVal.nan := n1
  show (FloatVal.mul binary32 (FloatVal.mul binary32 (Binary32.tmp_a w i).val c.val)
    f.val).IsNonNeg
  rw [hc] at n1' ⊢
  exact mul_ne_nan_isNonNeg binary32 (mul_fin_isNonNeg binary32 ht hcq) hf n1'

theorem float_add_ne_nan {x y : F32} (h : (x + y).val ≠ FloatVal.nan) :
    x.val ≠ FloatVal.nan ∧ y.val ≠ FloatVal.nan :=
  add_ne_nan binary32 h

theorem float_add_isNonNeg {x y : F32} (hx : x.val.IsNonNeg) (hy : y.val.IsNonNeg) :
    (x + y).val.IsNonNeg :=
  add_isNonNeg binary32 hx hy

theorem float_add_mono {x x2 y y2 : F32} (hx : x.val.IsNonNeg) (hx2 : x2.val.IsNonNeg)
    (hy : y.val.IsNonNeg) (hy2 : y2.val.IsNonNeg) (h1 : x.val.mag ≤ x2.val.mag)
    (h2 : y.val.mag ≤ y2.val.mag) : (x + y).val.mag ≤ (x2 + y2).val.mag :=
  add_mono_mag binary32 binary32_valid hx hx2 hy hy2 h1 h2

theorem f_k_isNonNeg (f_s : F32) (hf : f_s.val.IsNonNeg) (k : ℕ) :
    (F64.toFloat (pow f_s.toDouble k)).val.IsNonNeg :=
  convert_isNonNeg _ (pow_isNonNeg _ _ (convert_isNonNeg _ hf))

/-- The normalisation term is antitone in the stored cutoff, as long as it is not a NaN. -/
theorem float_a_0_anti (f_s w w2 : F32) (hf : f_s.val.IsNonNeg) (hw : w.val.IsNonNeg)
    (hw2 : w2.val.IsNonNeg) (h : w.val.mag ≤ w2.val.mag)
    (n1 : (Binary32.a_0 f_s w).val ≠ FloatVal.nan)
    (n2 : (Binary32.a_0 f_s w2).val ≠ FloatVal.nan) :
    (Binary32.a_0 f_s w2).val.mag ≤ (Binary32.a_0 f_s w).val.mag ∧
      (Binary32.a_0 f_s w).val.IsNonNeg ∧ (Binary32.a_0 f_s w2).val.IsNonNeg := by
  obtain ⟨l2, l4, l6, l8, l16, l32, l48, l160, l320⟩ := literal_vals
  rw [float_a_0_def] at n1 n2 ⊢
  rw [float_a_0_def]
  obtain ⟨a4, b0⟩ := float_add_ne_nan n1
  obtain ⟨a3, b1⟩ := float_add_ne_nan a4
  obtain ⟨a2, b2⟩ := float_add_ne_nan a3
  obtain ⟨a1, b3⟩ := float_add_ne_nan a2
  obtain ⟨_, b4⟩ := float_add_ne_nan a1
  obtain ⟨c4, d0⟩ := float_add_ne_nan n2
  obtain ⟨c3, d1⟩ := float_add_ne_nan c4
  obtain ⟨c2, d2⟩ := float_add_ne_nan c3
  obtain ⟨c1, d3⟩ := float_add_ne_nan c2
  obtain ⟨_, d4⟩ := float_add_ne_nan c1
  have one := atLeast_isNonNeg float_one_atLeast
  have g2 := f_k_isNonNeg f_s hf 2
  have g3 := f_k_isNonNeg f_s hf 3
  have g4 := f_k_isNonNeg f_s hf 4
  have g5 := f_k_isNonNeg f_s hf 5
  have s4 := term_isNonNeg w 2 f_s 2 4 hw l2 (by norm_num) hf b4
  have s3 := term_isNonNeg w 4 _ 4 3 hw l4 (by norm_num) g2 b3
  have s2 := term_isNonNeg w 8 _ 8 2 hw l8 (by norm_num) g3 b2
  have s1 := term_isNonNeg w 16 _ 16 1 hw l16 (by norm_num) g4 b1
  have s0 := term_isNonNeg w 32 _ 32 0 hw l32 (by norm_num) g5 b0
  have t4 := term_isNonNeg w2 2 f_s 2 4 hw2 l2 (by norm_num) hf d4
  have t3 := term_isNonNeg w2 4 _ 4 3 hw2 l4 (by norm_num) g2 d3
  have t2 := term_isNonNeg w2 8 _ 8 2 hw2 l8 (by norm_num) g3 d2
  have t1 := term_isNonNeg w2 16 _ 16 1 hw2 l16 (by norm_num) g4 d1
  have t0 := term_isNonNeg w2 32 _ 32 0 hw2 l32 (by norm_num) g5 d0
  have m4 := term_anti w w2 2 f_s 2 4 hw hw2 h l2 (by norm_num) hf b4
  have m3 := term_anti w w2 4 _ 4 3 hw hw2 h l4 (by norm_num) g2 b3
  have m2 := term_anti w w2 8 _ 8 2 hw hw2 h l8 (by norm_num) g3 b2
  have m1 := term_anti w w2 16 _ 16 1 hw hw2 h l16 (by norm_num) g4 b1
  have m0 := term_anti w w2 32 _ 32 0 hw hw2 h l32 (by norm_num) g5 b0
  have p4 := float_add_isNonNeg one s4
  have p3 := float_add_isNonNeg p4 s3
  have p2 := float_add_isNonNeg p3 s2
  have p1 := float_add_isNonNeg p2 s1
  have p0 := float_add_isNonNeg p1 s0
  have q4 := float_add_isNonNeg one t4
  have q3 := float_add_isNonNeg q4 t3
  have q2 := float_add_isNonNeg q3 t2
  have q1 := float_add_isNonNeg q2 t1
  have q0 := float_add_isNonNeg q1 t0
  have r4 := float_add_mono one one t4 s4 (le_refl _) m4
  have r3 := float_add_mono q4 p4 t3 s3 r4 m3
  have r2 := float_add_mono q3 p3 t2 s2 r3 m2
  have r1 := float_add_mono q2 p2 t1 s1 r2 m1
  have r0 := float_add_mono q1 p1 t0 s0 r1 m0
  exact ⟨r0, p0, q0⟩

theorem isPositive_val {x : F32} (h : x.IsPositive) :
    ∃ q : ℚ, 0 < q ∧ x.val = FloatVal.fin q ∧ x.toRat = q := by
  obtain ⟨q, hq, hx, _⟩ := h
  exact ⟨q, hq, hx, by rw [F32.toRat, hx]⟩

theorem isPositive_isNonNeg {x : F32} (h : x.IsPositive) : x.val.IsNonNeg :=
  atLeast_isNonNeg (isPositive_atLeast h)

theorem inRange_val {x : F32} (h : x.InRange) :
    ∃ q : ℚ, 0 < q ∧ x.val = FloatVal.fin q ∧ x.toRat = q := by
  obtain ⟨q, hx, a, _⟩ := h
  exact ⟨q, lt_of_lt_of_le (pow2_pos _) a, hx, by rw [F32.toRat, hx]⟩

/-- The stored cutoff is not negative, not NaN, and monotone in the argument of
`set_cuttoff_frequency`. -/
theorem stored_cutoff_mono (c c2 : F32) (q q2 : ℚ) (hq : 0 < q) (hc : c.val = FloatVal.fin q)
    (hc2 : c2.val = FloatVal.fin q2) (h : q ≤ q2) :
    (F64.toFloat ((c * 2).toDouble * Binary32.M_PI)).val.IsNonNeg ∧
    (F64.toFloat ((c2 * 2).toDouble * Binary32.M_PI)).val.IsNonNeg ∧
    (F64.toFloat ((c * 2).toDouble * Binary32.M_PI)).val.mag ≤
      (F64.toFloat ((c2 * 2).toDouble * Binary32.M_PI)).val.mag := by
  have hq2 : 0 < q2 := lt_of_lt_of_le hq h
  have l2 : (2 : F32).val = FloatVal.fin 2 := literal_vals.1
  have hpi : (0 : ℚ) < 884279719003555 / 281474976710656 := by norm_num
  show (FloatVal.convert binary32 (FloatVal.mul binary64
      (FloatVal.convert binary64 (FloatVal.mul binary32 c.val (2 : F32).val))
      Binary32.M_PI.val)).IsNonNeg ∧
    (FloatVal.convert binary32 (FloatVal.mul binary64
      (FloatVal.convert binary64 (FloatVal.mul binary32 c2.val (2 : F32).val))
      Binary32.M_PI.val)).IsNonNeg ∧
    (FloatVal.convert binary32 (FloatVal.mul binary64
      (FloatVal.convert binary64 (FloatVal.mul binary32 c.val (2 : F32).val))
      Binary32.M_PI.val)).mag ≤
    (FloatVal.convert binary32 (FloatVal.mul binary64
      (FloatVal.convert binary64 (FloatVal.mul binary32 c2.val (2 : F32).val))
      Binary32.M_PI.val)).mag
  rw [l2, M_PI_val, hc, hc2]
  have a1 := mul_fin_isNonNeg binary32 (fin_isNonNeg hq) (show (0 : ℚ) < 2 by norm_num)
  have a2 := mul_fin_isNonNeg binary32 (fin_isNonNeg hq2) (show (0 : ℚ) < 2 by norm_num)
  have m1 := mul_mono_mag binary32 binary32_valid (fin_isNonNeg hq) (fin_isNonNeg hq2)
    (fin_isNonNeg (show (0 : ℚ) < 2 by norm_num)) (fin_isNonNeg (show (0 : ℚ) < 2 by norm_num))
    (show (FloatVal.fin q).mag ≤ (FloatVal.fin q2).mag by
      rw [mag_fin, mag_fin]; exact_mod_cast h) (le_refl _) (isNonNeg_ne_nan a2)
  have b1 := convert_isNonNeg binary64 a1
  have b2 := convert_isNonNeg binary64 a2
  have m2 := convert_mono_mag binary64 binary64_valid a1 a2 m1
  have c1 := mul_fin_isNonNeg binary64 b1 hpi
  have c2' := mul_fin_isNonNeg binary64 b2 hpi
  have m3 := mul_mono_mag binary64 binary64_valid b1 b2 (fin_isNonNeg hpi) (fin_isNonNeg hpi) m2
    (le_refl _) (isNonNeg_ne_nan c2')
  exact ⟨convert_isNonNeg binary32 c1, convert_isNonNeg binary32 c2',
    convert_mono_mag binary32 binary32_valid c1 c2' m3⟩

theorem first_b_mono (a0 a1 : F32) (h0 : a0.val.IsNonNeg) (h1 : a1.val.IsNonNeg)
    (h : a1.val.mag ≤ a0.val.mag) :
    (Binary32.b_0_cont / a0).val.mag ≤ (Binary32.b_0_cont / a1).val.mag := by
  show (FloatVal.div binary32 (F64.toFloat 1.0).val a0.val).mag ≤
    (FloatVal.div binary32 (F64.toFloat 1.0).val a1.val).mag
  rw [one_literal_val]
  exact div_anti_mag binary32 binary32_valid one_pos h1 h0 h

/-- For a sample rate and a cutoff within `[2 ^ (-20), 2 ^ 20]` the normalisation term is not
a NaN. -/
theorem float_a_0_isNonNeg_of_range (f_s w : F32)
    (hf : FloatVal.Scales 0 (-20) 20 f_s.val f_s.val)
    (hw : FloatVal.Scales 0 (-20) 20 w.val w.val) : (Binary32.a_0 f_s w).val.IsNonNeg := by
  obtain ⟨l2, l4, l6, l8, l16, l32, l48, l160, l320⟩ := literal_vals
  have e0 : pow2 0 = 1 := pow2_zero
  have e9 : pow2 9 = 512 := by rw [pow2_eq]; norm_num
  have fin_of : ∀ {m lo hi : ℤ} {x y : FloatVal}, FloatVal.Scales m lo hi x y →
      ∃ v : ℚ, 0 < v ∧ x = FloatVal.fin v := fun h => by
    obtain ⟨v, hx, _, a, _⟩ := h
    exact ⟨v, lt_of_lt_of_le (pow2_pos _) a, hx⟩
  have term : ∀ (i : Fin 5) (c f : F32) (cq : ℚ), c.val = FloatVal.fin cq → 1 ≤ cq → cq ≤ 512 →
      (∃ v : ℚ, 0 < v ∧ f.val = FloatVal.fin v) →
      (Binary32.tmp_a w i * c * f).val.IsNonNeg := by
    intro i c f cq hc h1 h2 hfv
    have ht := tmp_a_scales w w 0 i hw
    have hct := (scales_const_mul binary32 cq 0 9 ht (by rw [e0]; exact h1) (by rw [e9]; exact h2)
      (by decide) (by decide) (by decide) (by decide) (by decide) (by decide)).2
    obtain ⟨u, hu, hx⟩ := fin_of hct
    obtain ⟨v, hv, hfx⟩ := hfv
    show (FloatVal.mul binary32 (FloatVal.mul binary32 (Binary32.tmp_a w i).val c.val)
      f.val).IsNonNeg
    rw [hc, hx, hfx]
    exact mul_fin_isNonNeg binary32 (fin_isNonNeg hu) hv
  have one := atLeast_isNonNeg float_one_atLeast
  have g1 : ∃ v : ℚ, 0 < v ∧ f_s.val = FloatVal.fin v := fin_of hf
  have g2 := fin_of (f_k_scales f_s f_s 0 2 (by decide) (by decide) hf)
  have g3 := fin_of (f_k_scales f_s f_s 0 3 (by decide) (by decide) hf)
  have g4 := fin_of (f_k_scales f_s f_s 0 4 (by decide) (by decide) hf)
  have g5 := fin_of (f_k_scales f_s f_s 0 5 (by decide) (by decide) hf)
  rw [float_a_0_def]
  exact float_add_isNonNeg (float_add_isNonNeg (float_add_isNonNeg (float_add_isNonNeg
    (float_add_isNonNeg one (term 4 2 _ 2 l2 (by norm_num) (by norm_num) g1))
    (term 3 4 _ 4 l4 (by norm_num) (by norm_num) g2))
    (term 2 8 _ 8 l8 (by norm_num) (by norm_num) g3))
    (term 1 16 _ 16 l16 (by norm_num) (by norm_num) g4))
    (term 0 32 _ 32 l32 (by norm_num) (by norm_num) g5)

theorem inRange_scales_self (x : F32) (h : x.InRange) :
    FloatVal.Scales 0 (-17) 17 x.val x.val :=
  inRange_scales x x 0 h h (by rw [pow2_zero, mul_one])

/-- C16 (amended): changing the cutoff moves the normalisation term and `b[0]` in one
direction only: for a positive finite sample rate and positive finite cutoffs `f1 ≤ f2`
whose normalisation terms are not NaN, the normalisation term computed after
`set_cuttoff_frequency(f2)` is at most the one computed after `set_cuttoff_frequency(f1)`,
and `b[0]` after `f2` is at least `b[0]` after `f1`; and for a sample rate and cutoffs in
`[2 ^ (-17), 2 ^ 17]` neither normalisation term is a NaN.  The inequalities are not
strict. -/
theorem cutoff_change_monotone (S : BesselFilterLP5Order F32) (f1 f2 : F32)
    (h12 : f1.toRat ≤ f2.toRat) :
    (S.f_s.IsPositive → f1.IsPositive → f2.IsPositive →
      (Binary32.a_0 (Binary32.set_cuttoff_frequency S f1).f_s
        (Binary32.set_cuttoff_frequency S f1).cutoff_freq).val ≠ FloatVal.nan →
      (Binary32.a_0 (Binary32.set_cuttoff_frequency S f2).f_s
        (Binary32.set_cuttoff_frequency S f2).cutoff_freq).val ≠ FloatVal.nan →
      (Binary32.a_0 (Binary32.set_cuttoff_frequency S f2).f_s
          (Binary32.set_cuttoff_frequency S f2).cutoff_freq).val.mag ≤
        (Binary32.a_0 (Binary32.set_cuttoff_frequency S f1).f_s
          (Binary32.set_cuttoff_frequency S f1).cutoff_freq).val.mag ∧
      ((Binary32.set_cuttoff_frequency S f1).b 0).val.mag ≤
        ((Binary32.set_cuttoff_frequency S f2).b 0).val.mag) ∧
    (S.f_s.InRange → f1.InRange → f2.InRange →
      (Binary32.a_0 (Binary32.set_cuttoff_frequency S f1).f_s
        (Binary32.set_cuttoff_frequency S f1).cutoff_freq).val ≠ FloatVal.nan ∧
      (Binary32.a_0 (Binary32.set_cuttoff_frequency S f2).f_s
        (Binary32.set_cuttoff_frequency S f2).cutoff_freq).val ≠ FloatVal.nan ∧
      (Binary32.a_0 (Binary32.set_cuttoff_frequency S f2).f_s
          (Binary32.set_cuttoff_frequency S f2).cutoff_freq).val.mag ≤
        (Binary32.a_0 (Binary32.set_cuttoff_frequency S f1).f_s
          (Binary32.set_cuttoff_frequency S f1).cutoff_freq).val.mag ∧
      ((Binary32.set_cuttoff_frequency S f1).b 0).val.mag ≤
        ((Binary32.set_cuttoff_frequency S f2).b 0).val.mag) := by
  have key : ∀ q1 q2 : ℚ, 0 < q1 → f1.val = FloatVal.fin q1 → f2.val = FloatVal.fin q2 →
      f1.toRat = q1 → f2.toRat = q2 → S.f_s.val.IsNonNeg →
      (Binary32.a_0 S.f_s (F64.toFloat ((f1 * 2).toDouble * Binary32.M_PI))).val ≠ FloatVal.nan →
      (Binary32.a_0 S.f_s (F64.toFloat ((f2 * 2).toDouble * Binary32.M_PI))).val ≠ FloatVal.nan →
      (Binary32.a_0 S.f_s (F64.toFloat ((f2 * 2).toDouble * Binary32.M_PI))).val.mag ≤
        (Binary32.a_0 S.f_s (F64.toFloat ((f1 * 2).toDouble * Binary32.M_PI))).val.mag ∧
      (Binary32.b_0_cont /
          Binary32.a_0 S.f_s (F64.toFloat ((f1 * 2).toDouble * Binary32.M_PI))).val.mag ≤
        (Binary32.b_0_cont /
          Binary32.a_0 S.f_s (F64.toFloat ((f2 * 2).toDouble * Binary32.M_PI))).val.mag := by
    intro q1 q2 hq1 e1 e2 r1 r2 hf n1 n2
    rw [r1, r2] at h12
    obtain ⟨w1, w2, hw⟩ := stored_cutoff_mono f1 f2 q1 q2 hq1 e1 e2 h12
    obtain ⟨ha, p1, p2⟩ := float_a_0_anti S.f_s _ _ hf w1 w2 hw n1 n2
    exact ⟨ha, first_b_mono _ _ p1 p2 ha⟩
  constructor
  · intro hs h1 h2 n1 n2
    obtain ⟨q1, hq1, e1, r1⟩ := isPositive_val h1
    obtain ⟨q2, _, e2, r2⟩ := isPositive_val h2
    exact key q1 q2 hq1 e1 e2 r1 r2 (isPositive_isNonNeg hs) n1 n2
  · intro hs h1 h2
    obtain ⟨q1, hq1, e1, r1⟩ := inRange_val h1
    obtain ⟨q2, _, e2, r2⟩ := inRange_val h2
    obtain ⟨qs, hqs, es, _⟩ := inRange_val hs
    have hfs : S.f_s.val.IsNonNeg := by
      rw [es]
      exact fin_isNonNeg hqs
    have sf := scales_weaken (inRange_scales_self S.f_s hs) (show (-20 : ℤ) ≤ -17 by decide)
      (show (17 : ℤ) ≤ 20 by decide)
    have n1 := isNonNeg_ne_nan (float_a_0_isNonNeg_of_range S.f_s _ sf
      (stored_cutoff_scales f1 f1 0 (inRange_scales_self f1 h1)))
    have n2 := isNonNeg_ne_nan (float_a_0_isNonNeg_of_range S.f_s _ sf
      (stored_cutoff_scales f2 f2 0 (inRange_scales_self f2 h2)))
    exact ⟨n1, n2, key q1 q2 hq1 e1 e2 r1 r2 hfs n1 n2⟩

/-! ### Runs on a constant input -/

/-- C7 (counterexample): `BesselFilterLP5Order(1e8, 1)` has positive finite arguments, its
normalisation term overflows to `+inf`, so `norm / norm` is a NaN while `a[0]` is `1`. -/
theorem normalisation_overflow_not_one :
    (100000000 : F32).IsPositive ∧ (1 : F32).IsPositive ∧
    Binary32.a_0 (Binary32.construct Binary32.zero_storage 100000000 1).f_s
        (Binary32.construct Binary32.zero_storage 100000000 1).cutoff_freq =
      ⟨FloatVal.inf false⟩ ∧
    Binary32.a_0 (Binary32.construct Binary32.zero_storage 100000000 1).f_s
          (Binary32.construct Binary32.zero_storage 100000000 1).cutoff_freq /
        Binary32.a_0 (Binary32.construct Binary32.zero_storage 100000000 1).f_s
          (Binary32.construct Binary32.zero_storage 100000000 1).cutoff_freq =
      ⟨FloatVal.nan⟩ ∧
    (Binary32.construct Binary32.zero_storage 100000000 1).a 0 = ⟨FloatVal.fin 1⟩ ∧
    (Binary32.construct Binary32.zero_storage 100000000 1).a 0 ≠
      Binary32.a_0 (Binary32.construct Binary32.zero_storage 100000000 1).f_s
          (Binary32.construct Binary32.zero_storage 100000000 1).cutoff_freq /
        Binary32.a_0 (Binary32.construct Binary32.zero_storage 100000000 1).f_s
          (Binary32.construct Binary32.zero_storage 100000000 1).cutoff_freq :=
  ⟨⟨100000000, by norm_num, by decide!, by decide!⟩, ⟨1, by norm_num, by decide!, by decide!⟩,
    by decide!, by decide!, by decide!, by decide!⟩

theorem leading_coefficient_float_witness :
    (100 : F32).IsPositive ∧ (10 : F32).IsPositive ∧
    ((Binary32.construct Binary32.zero_storage 100 10).a 0 =
        Binary32.a_0 (Binary32.construct Binary32.zero_storage 100 10).f_s
            (Binary32.construct Binary32.zero_storage 100 10).cutoff_freq /
          Binary32.a_0 (Binary32.construct Binary32.zero_storage 100 10).f_s
            (Binary32.construct Binary32.zero_storage 100 10).cutoff_freq ↔
      (Binary32.a_0 (Binary32.construct Binary32.zero_storage 100 10).f_s
        (Binary32.construct Binary32.zero_storage 100 10).cutoff_freq).val.isFinite = true) :=
  ⟨⟨100, by norm_num, by decide!, by decide!⟩, ⟨10, by norm_num, by decide!, by decide!⟩,
    (leading_coefficient_float Binary32.zero_storage Binary32.zero_storage 0 0 100 10 []).2.2.2.1
      ⟨100, by norm_num, by decide!, by decide!⟩ ⟨10, by norm_num, by decide!, by decide!⟩⟩

/-- C16 (counterexample): at sample rate `1` the positive cutoffs `1e9` and `2e9` give the
same `a` and the same `b` (the normalisation term rounds to `1` for both, `b[0] = 1`). -/
theorem cutoff_change_same_coefficients :
    (1 : F32).IsPositive ∧ (1000000000 : F32).IsPositive ∧ (2000000000 : F32).IsPositive ∧
    (1000000000 : F32) ≠ 2000000000 ∧
    (Binary32.set_cuttoff_frequency (Binary32.construct Binary32.zero_storage 1 1) 1000000000).a =
      (Binary32.set_cuttoff_frequency (Binary32.construct Binary32.zero_storage 1 1)
        2000000000).a ∧
    (Binary32.set_cuttoff_frequency (Binary32.construct Binary32.zero_storage 1 1) 1000000000).b =
      (Binary32.set_cuttoff_frequency (Binary32.construct Binary32.zero_storage 1 1)
        2000000000).b ∧
    ((Binary32.set_cuttoff_frequency (Binary32.construct Binary32.zero_storage 1 1)
        1000000000).b 0).val = FloatVal.fin 1 :=
  ⟨⟨1, by norm_num, by decide!, by decide!⟩, ⟨1000000000, by norm_num, by decide!, by decide!⟩,
    ⟨2000000000, by norm_num, by decide!, by decide!⟩, by decide!, by decide!, by decide!,
    by decide!⟩

/-- C17 (counterexample): with the positive finite arguments `(1e8, 1)` the normalisation
term is `+inf`, `b[0]` is `+0` and `a[1..5]` are NaN; with `(1, 1e9)` the normalisation term
is exactly `1` and `b[0]` is `1`. -/
theorem normalisation_not_above_one :
    (100000000 : F32).IsPositive ∧ (1 : F32).IsPositive ∧ (1000000000 : F32).IsPositive ∧
    Binary32.a_0 (Binary32.construct Binary32.zero_storage 100000000 1).f_s
        (Binary32.construct Binary32.zero_storage 100000000 1).cutoff_freq =
      ⟨FloatVal.inf false⟩ ∧
    (Binary32.construct Binary32.zero_storage 100000000 1).b 0 = ⟨FloatVal.zero false⟩ ∧
    (∀ i : Fin 5, (Binary32.construct Binary32.zero_storage 100000000 1).a i.succ =
      ⟨FloatVal.nan⟩) ∧
    Binary32.a_0 (Binary32.construct Binary32.zero_storage 1 1000000000).f_s
        (Binary32.construct Binary32.zero_storage 1 1000000000).cutoff_freq =
      ⟨FloatVal.fin 1⟩ ∧
    (Binary32.construct Binary32.zero_storage 1 1000000000).b 0 = ⟨FloatVal.fin 1⟩ :=
  ⟨⟨100000000, by norm_num, by decide!, by decide!⟩, ⟨1, by norm_num, by decide!, by decide!⟩,
    ⟨1000000000, by norm_num, by decide!, by decide!⟩, by decide!, by decide!, by decide!,
    by decide!, by decide!⟩

theorem no_zero_divisor_float_witness :
    (100 : F32).IsPositive ∧ (10 : F32).IsPositive ∧
    (Binary32.a_0 (Binary32.construct Binary32.zero_storage 100 10).f_s
        (Binary32.construct Binary32.zero_storage 100 10).cutoff_freq).val.isZero = false ∧
    (((Binary32.construct Binary32.zero_storage 100 10).b 0).val = FloatVal.nan ∨
      ((Binary32.construct Binary32.zero_storage 100 10).b 0).val.AtMostOne) :=
  ⟨⟨100, by norm_num, by decide!, by decide!⟩, ⟨10, by norm_num, by decide!, by decide!⟩,
    (no_zero_divisor_float Binary32.zero_storage 100 10
      ⟨100, by norm_num, by decide!, by decide!⟩ ⟨10, by norm_num, by decide!, by decide!⟩).2.2⟩

/-- C19 (counterexample): with `k = 3`, `BesselFilterLP5Order(3 * 100, 3 * 10)` stores
`a[1] = -374473 / 131072` where `BesselFilterLP5Order(100, 10)` stores
`a[1] = -5991569 / 2097152`. -/
theorem scaling_changes_coefficients :
    (3 : F32).IsPositive ∧ (100 : F32).IsPositive ∧ (10 : F32).IsPositive ∧
    ((Binary32.construct Binary32.zero_storage (3 * 100) (3 * 10)).a 1).val =
      FloatVal.fin (-374473 / 131072) ∧
    ((Binary32.construct Binary32.zero_storage 100 10).a 1).val =
      FloatVal.fin (-5991569 / 2097152) ∧
    (Binary32.construct Binary32.zero_storage (3 * 100) (3 * 10)).a ≠
      (Binary32.construct Binary32.zero_storage 100 10).a := by
  refine ⟨⟨3, by norm_num, by decide!, by decide!⟩, ⟨100, by norm_num, by decide!, by decide!⟩,
    ⟨10, by norm_num, by decide!, by decide!⟩, by decide!, by decide!, ?_⟩
  intro h
  have h2 := congrArg (fun a : Fin 6 → F32 => a 1) h
  revert h2
  decide!

/-- C20 (counterexample): for `BesselFilterLP5Order(100, 10)`, the state whose histories are
all `5 = 2 * 1 + 3 * 1`, stepped on `2 * 1 + 3 * 4`, does not return
`2 * step(S1, 1) + 3 * step(S2, 4)` for the states `S1 = S2` whose histories are all `1`. -/
theorem superposition_fails_in_float :
    (with_histories (Binary32.construct Binary32.zero_storage 100 10) 5).x_prev =
      (fun i => 2 * (with_histories (Binary32.construct Binary32.zero_storage 100 10) 1).x_prev i +
        3 * (with_histories (Binary32.construct Binary32.zero_storage 100 10) 1).x_prev i) ∧
    (with_histories (Binary32.construct Binary32.zero_storage 100 10) 5).y_prev =
      (fun i => 2 * (with_histories (Binary32.construct Binary32.zero_storage 100 10) 1).y_prev i +
        3 * (with_histories (Binary32.construct Binary32.zero_storage 100 10) 1).y_prev i) ∧
    (Binary32.step (with_histories (Binary32.construct Binary32.zero_storage 100 10) 5)
        (2 * 1 + 3 * 4)).1 ≠
      2 * (Binary32.step
          (with_histories (Binary32.construct Binary32.zero_storage 100 10) 1) 1).1 +
        3 * (Binary32.step
          (with_histories (Binary32.construct Binary32.zero_storage 100 10) 1) 4).1 := by
  refine ⟨?_, ?_, by decide!⟩
  · funext i
    revert i
    decide!
  · funext i
    revert i
    decide!

theorem zero_state_float_witness :
    (Binary32.step (Binary32.construct Binary32.zero_storage 100 10) 0).1.val.isZero = true ∧
    (∀ i, ((Binary32.step (Binary32.construct Binary32.zero_storage 100 10) 0).2.x_prev i).val.isZero
      = true) ∧
    (∀ i, ((Binary32.step (Binary32.construct Binary32.zero_storage 100 10) 0).2.y_prev i).val.isZero
      = true) :=
  zero_state_float (Binary32.construct Binary32.zero_storage 100 10) 0 (by decide!) (by decide!)
    (by decide!) (by decide!) (by decide!) (by decide!)

theorem cutoff_change_monotone_witness :
    (10 : F32).toRat ≤ (20 : F32).toRat ∧
    (Binary32.construct Binary32.zero_storage 100 10).f_s.InRange ∧ (10 : F32).InRange ∧
    (20 : F32).InRange ∧
    (Binary32.a_0
        (Binary32.set_cuttoff_frequency (Binary32.construct Binary32.zero_storage 100 10) 20).f_s
        (Binary32.set_cuttoff_frequency (Binary32.construct Binary32.zero_storage 100 10)
          20).cutoff_freq).val.mag ≤
      (Binary32.a_0
        (Binary32.set_cuttoff_frequency (Binary32.construct Binary32.zero_storage 100 10) 10).f_s
        (Binary32.set_cuttoff_frequency (Binary32.construct Binary32.zero_storage 100 10)
          10).cutoff_freq).val.mag ∧
    ((Binary32.set_cuttoff_frequency (Binary32.construct Binary32.zero_storage 100 10)
        10).b 0).val.mag ≤
      ((Binary32.set_cuttoff_frequency (Binary32.construct Binary32.zero_storage 100 10)
        20).b 0).val.mag :=
  ⟨by decide!, ⟨100, by decide!, by decide!, by decide!⟩, ⟨10, by decide!, by decide!, by decide!⟩,
    ⟨20, by decide!, by decide!, by decide!⟩,
    ((cutoff_change_monotone (Binary32.construct Binary32.zero_storage 100 10) 10 20
      (by decide!)).2 ⟨100, by decide!, by decide!, by decide!⟩
      ⟨10, by decide!, by decide!, by decide!⟩ ⟨20, by decide!, by decide!, by decide!⟩).2.2⟩

end Bessel
